import Mathlib

/-!
Verification development for the `dag` Go package (heimdalr/dag).

The Go code in `dag.go` implements a mutable directed acyclic graph with
a vertex store (`vertices`, `vertexIds`), an adjacency index
(`inboundEdge`, `outboundEdge`) and two memoized transitive-closure caches
(`ancestorsCache`, `descendantsCache`).  We embed the package shallowly:

* Go interface values of type `Vertex` become the structure `V` below; the
  `key` field stands for the interface identity used by Go map lookups and
  `vid` stands for the value returned by the `Id()` method.  A possibly-nil
  vertex argument is `Option V`.
* Go maps become association lists (`findA` / `insertA` / `eraseA`), and
  Go sets (`map[...]bool`) become duplicate-free lists (`insertSet` /
  `eraseSet`).  A missing adjacency key reads as the empty set, exactly as a
  `nil` Go map does.
* Mutating methods return the new state next to the Go return value, so
  "the call left the graph unchanged" is a provable statement rather than a
  modelling artifact.
* The recursive closure computation `getDescendants` / `getAncestors`
  (which memoizes into the caches) is embedded with an explicit fuel
  parameter; the public entry points pass `vertices.length + 1` fuel, which
  is proved sufficient on every reachable (hence acyclic) state.
-/

namespace DagSpec

/-- A Go `Vertex` interface value: `key` is the interface identity (what Go
map lookups compare), `vid` the string returned by `Id()`. -/
structure V where
  key : Nat
  vid : String
deriving DecidableEq, Repr

/-- Association-list lookup, modelling Go map reads. -/
def findA {κ ν : Type} [DecidableEq κ] : List (κ × ν) → κ → Option ν
  | [], _ => none
  | (k, s) :: m, x => if x = k then some s else findA m x

/-- Association-list insertion/overwrite, modelling Go map writes. -/
def insertA {κ ν : Type} [DecidableEq κ] : List (κ × ν) → κ → ν → List (κ × ν)
  | [], k, s => [(k, s)]
  | (k', s') :: m, k, s => if k = k' then (k, s) :: m else (k', s') :: insertA m k s

/-- Association-list key removal, modelling Go `delete(m, k)`. -/
def eraseA {κ ν : Type} [DecidableEq κ] : List (κ × ν) → κ → List (κ × ν)
  | [], _ => []
  | (k', s') :: m, k => if k = k' then eraseA m k else (k', s') :: eraseA m k

/-- Set insertion on duplicate-free lists, modelling `m[v] = true`. -/
def insertSet (xs : List V) (v : V) : List V :=
  if v ∈ xs then xs else xs ++ [v]

/-- Set removal, modelling `delete(m, v)` on a `map[Vertex]bool` used as set. -/
def eraseSet : List V → V → List V
  | [], _ => []
  | x :: xs, v => if x = v then eraseSet xs v else x :: eraseSet xs v

/-- Set union by repeated insertion (Go `for x := range src { dst[x] = true }`). -/
def unionSet (xs ys : List V) : List V :=
  ys.foldl insertSet xs

/-- An adjacency map `map[Vertex]map[Vertex]bool` (also used for the caches). -/
abbrev AdjMap := List (V × List V)

/-- Go's `m[k]` read on an adjacency map: a missing key is the nil map. -/
def getA (m : AdjMap) (k : V) : List V :=
  (findA m k).getD []

/-- Write `m[k][x] = true`, creating the inner map if needed (the Go code
prepares `m[k]` with `make` first; reading a missing key as the empty set
makes that the same as this single-step insert). -/
def insertInner (m : AdjMap) (k x : V) : AdjMap :=
  insertA m k (insertSet (getA m k) x)

/-- `delete(m[k], x)` in Go: a no-op when the key `k` is missing. -/
def eraseInner (m : AdjMap) (k x : V) : AdjMap :=
  match findA m k with
  | none => m
  | some s => insertA m k (eraseSet s x)

/-- The `DAG` struct (mutexes carry no state and are dropped). -/
structure DAG where
  vertices : List V
  vertexIds : List (String × V)
  inboundEdge : AdjMap
  outboundEdge : AdjMap
  ancestorsCache : AdjMap
  descendantsCache : AdjMap
deriving DecidableEq, Repr

/-- `NewDAG()`. -/
def NewDAG : DAG := ⟨[], [], [], [], [], []⟩

/-- The error values of the package (payloads only feed error messages and
are dropped). -/
inductive Err
  | VertexNilError | IdEmptyError | VertexDuplicateError | IdDuplicateError
  | VertexUnknownError | IdUnknownError | EdgeDuplicateError | EdgeUnknownError
  | EdgeLoopError | SrcDstEqualError
deriving DecidableEq, Repr

/-- `addVertex` (the unchecked private helper). -/
def addVertex (d : DAG) (v : V) : DAG :=
  { d with vertices := insertSet d.vertices v,
           vertexIds := insertA d.vertexIds v.vid v }

/-- `AddVertex`: nil check, duplicate-vertex check, duplicate-id check. -/
def AddVertex (d : DAG) (v? : Option V) : DAG × Option Err :=
  match v? with
  | none => (d, some .VertexNilError)
  | some v =>
    if v ∈ d.vertices then (d, some .VertexDuplicateError)
    else if (findA d.vertexIds v.vid).isSome then (d, some .IdDuplicateError)
    else (addVertex d v, none)

/-- `GetVertex` (read-only, so no state is returned). -/
def GetVertex (d : DAG) (i : String) : Except Err V :=
  if i = "" then .error .IdEmptyError
  else
    match findA d.vertexIds i with
    | none => .error .IdUnknownError
    | some v => .ok v

/-- `saneVertex`. -/
def saneVertex (d : DAG) (v? : Option V) : Option Err :=
  match v? with
  | none => some .VertexNilError
  | some v => if v ∈ d.vertices then none else some .VertexUnknownError

/-- `isEdge`. -/
def isEdge (d : DAG) (src dst : V) : Prop :=
  dst ∈ getA d.outboundEdge src ∧ src ∈ getA d.inboundEdge dst

instance (d : DAG) (src dst : V) : Decidable (isEdge d src dst) := by
  unfold isEdge; infer_instance

/-!
The private `getDescendants` / `getAncestors` recursions memoize into the
caches.  Both walk one adjacency map and one cache, so we factor them
through a common state `CState` and one fueled recursion `closeF`.  The Go
recursion terminates because reachable graphs are acyclic; the fuel
`vertices.length + 1` passed by the wrappers below is proved sufficient on
every reachable state.
-/

/-- The part of the DAG state that the closure computation touches. -/
structure CState where
  adj : AdjMap
  cache : AdjMap
deriving DecidableEq, Repr

/-- One closure computation (the body of Go `getDescendants`): return the
memoized set if present, otherwise union each neighbour's recursively
computed closure together with the neighbour itself, then memoize. -/
def closeF : Nat → CState → V → List V × CState
  | 0, g, _ => ([], g)
  | n + 1, g, v =>
    match findA g.cache v with
    | some c => (c, g)
    | none =>
      let p := (getA g.adj v).foldl
        (fun (p : List V × CState) c =>
          let q := closeF n p.2 c
          (insertSet (unionSet p.1 q.1) c, q.2)) ([], g)
      (p.1, ⟨p.2.adj, insertA p.2.cache v p.1⟩)

/-- The step function of the fold inside `closeF`, named for the proofs. -/
def closeStep (n : Nat) (p : List V × CState) (c : V) : List V × CState :=
  let q := closeF n p.2 c
  (insertSet (unionSet p.1 q.1) c, q.2)

/-- Private `getDescendants`: closure over `outboundEdge`, memoized in
`descendantsCache`. -/
def getDescendants (d : DAG) (v : V) : List V × DAG :=
  let r := closeF (d.vertices.length + 1) ⟨d.outboundEdge, d.descendantsCache⟩ v
  (r.1, { d with descendantsCache := r.2.cache })

/-- Private `getAncestors`: closure over `inboundEdge`, memoized in
`ancestorsCache`. -/
def getAncestors (d : DAG) (v : V) : List V × DAG :=
  let r := closeF (d.vertices.length + 1) ⟨d.inboundEdge, d.ancestorsCache⟩ v
  (r.1, { d with ancestorsCache := r.2.cache })

/-- Public `GetDescendants`: sanity check, then the memoizing computation
(`copyMap` is the identity on immutable values). -/
def GetDescendants (d : DAG) (v? : Option V) : Except Err (List V) × DAG :=
  match v? with
  | none => (.error .VertexNilError, d)
  | some v =>
    if v ∈ d.vertices then
      let r := getDescendants d v
      (.ok r.1, r.2)
    else (.error .VertexUnknownError, d)

/-- Public `GetAncestors`. -/
def GetAncestors (d : DAG) (v? : Option V) : Except Err (List V) × DAG :=
  match v? with
  | none => (.error .VertexNilError, d)
  | some v =>
    if v ∈ d.vertices then
      let r := getAncestors d v
      (.ok r.1, r.2)
    else (.error .VertexUnknownError, d)

/-- `FlushCaches`. -/
def FlushCaches (d : DAG) : DAG :=
  { d with ancestorsCache := [], descendantsCache := [] }

/-- The vertex-ensuring step at the top of `AddEdge`: a vertex not yet in
the graph is added, unless its id is already taken. -/
def ensure (d : DAG) (v : V) : Except Err DAG :=
  if v ∈ d.vertices then .ok d
  else if (findA d.vertexIds v.vid).isSome then .error .IdDuplicateError
  else .ok (addVertex d v)

/-- `AddEdge`, step for step: nil check, src=dst check, vertex ensuring,
duplicate-edge check, closure computation for the loop check (this
populates the caches), loop check, edge insertion, cache invalidation for
`dst` plus the pre-mutation descendants of `dst` (ancestors direction) and
for `src` plus the pre-mutation ancestors of `src` (descendants
direction). -/
def AddEdge (d : DAG) (src? dst? : Option V) : DAG × Option Err :=
  match src?, dst? with
  | none, _ => (d, some .VertexNilError)
  | some _, none => (d, some .VertexNilError)
  | some src, some dst =>
    if src = dst then (d, some .SrcDstEqualError)
    else
      match ensure d src with
      | .error e => (d, some e)
      | .ok d1 =>
        match ensure d1 dst with
        | .error e => (d1, some e)
        | .ok d2 =>
          if isEdge d2 src dst then (d2, some .EdgeDuplicateError)
          else
            let rd := getDescendants d2 dst
            let descendants := rd.1
            let ra := getAncestors rd.2 src
            let ancestors := ra.1
            let d4 := ra.2
            if src = dst ∨ src ∈ descendants then (d4, some .EdgeLoopError)
            else
              let d5 := { d4 with
                outboundEdge := insertInner d4.outboundEdge src dst,
                inboundEdge := insertInner d4.inboundEdge dst src }
              let d6 := { d5 with
                ancestorsCache :=
                  eraseA (descendants.foldl (fun m x => eraseA m x) d5.ancestorsCache) dst,
                descendantsCache :=
                  eraseA (ancestors.foldl (fun m x => eraseA m x) d5.descendantsCache) src }
              (d6, none)

/-- `DeleteEdge`: sanity checks, then closure snapshots (descendants of
`src`, ancestors of `dst`, taken before the structural change and
populating the caches), edge removal, cache invalidation. -/
def DeleteEdge (d : DAG) (src? dst? : Option V) : DAG × Option Err :=
  match saneVertex d src? with
  | some e => (d, some e)
  | none =>
    match saneVertex d dst? with
    | some e => (d, some e)
    | none =>
      match src?, dst? with
      | some src, some dst =>
        if src = dst then (d, some .SrcDstEqualError)
        else if ¬ isEdge d src dst then (d, some .EdgeUnknownError)
        else
          let rd := getDescendants d src
          let descendants := rd.1
          let ra := getAncestors rd.2 dst
          let ancestors := ra.1
          let d2 := ra.2
          let d3 := { d2 with
            outboundEdge := eraseInner d2.outboundEdge src dst,
            inboundEdge := eraseInner d2.inboundEdge dst src }
          let d4 := { d3 with
            ancestorsCache :=
              eraseA (descendants.foldl (fun m x => eraseA m x) d3.ancestorsCache) src,
            descendantsCache :=
              eraseA (ancestors.foldl (fun m x => eraseA m x) d3.descendantsCache) dst }
          (d4, none)
      | _, _ => (d, some .VertexNilError)

/-- `DeleteVertex`: sanity check, closure snapshots, removal of all
incident edges, cache invalidation, removal of the vertex itself. -/
def DeleteVertex (d : DAG) (v? : Option V) : DAG × Option Err :=
  match v? with
  | none => (d, some .VertexNilError)
  | some v =>
    if v ∈ d.vertices then
      let rd := getDescendants d v
      let descendants := rd.1
      let ra := getAncestors rd.2 v
      let ancestors := ra.1
      let d2 := ra.2
      let d3 := { d2 with
        outboundEdge := (getA d2.inboundEdge v).foldl (fun m p => eraseInner m p v) d2.outboundEdge }
      let d4 := { d3 with
        inboundEdge := (getA d3.outboundEdge v).foldl (fun m c => eraseInner m c v) d3.inboundEdge }
      let d5 := { d4 with
        inboundEdge := eraseA d4.inboundEdge v,
        outboundEdge := eraseA d4.outboundEdge v }
      let d6 := { d5 with
        ancestorsCache :=
          eraseA (descendants.foldl (fun m x => eraseA m x) d5.ancestorsCache) v }
      let d7 := { d6 with
        descendantsCache :=
          eraseA (ancestors.foldl (fun m x => eraseA m x) d6.descendantsCache) v }
      (⟨eraseSet d7.vertices v, eraseA d7.vertexIds v.vid, d7.inboundEdge,
        d7.outboundEdge, d7.ancestorsCache, d7.descendantsCache⟩, none)
    else (d, some .VertexUnknownError)

/-- `getRoots`: vertices with no (or an empty) inbound entry. -/
def getRoots (d : DAG) : List V :=
  d.vertices.filter (fun v => (getA d.inboundEdge v).isEmpty)

/-- The body of the inner `ReduceTransitively` loop: drop the edge from `v`
to child `c` iff `c` lies in the collected descendant union `D0`, recording
that the graph changed. -/
def reduceDel (v : V) (D0 : List V) (st2 : DAG × Bool) (c : V) : DAG × Bool :=
  if c ∈ D0 then
    ({ st2.1 with
        outboundEdge := eraseInner st2.1.outboundEdge v c,
        inboundEdge := eraseInner st2.1.inboundEdge c v }, true)
  else st2

/-- One iteration of the outer `ReduceTransitively` loop for vertex `v`:
collect the cached descendants of the children of `v`, then drop every
child edge whose target lies in that union. -/
def reduceStepV (st : DAG × Bool) (v : V) : DAG × Bool :=
  let o := getA st.1.outboundEdge v
  let descOfChildren := o.foldl (fun acc c => unionSet acc (getA st.1.descendantsCache c)) []
  o.foldl (reduceDel v descOfChildren) st

/-- `ReduceTransitively`: populate the descendants cache from every root,
drop transitively implied edges, and flush both caches iff an edge was
removed. -/
def ReduceTransitively (d : DAG) : DAG :=
  let d1 := (getRoots d).foldl (fun dd r => (getDescendants dd r).2) d
  let st := d1.vertices.foldl reduceStepV (d1, false)
  if st.2 then { st.1 with ancestorsCache := [], descendantsCache := [] } else st.1

/-- The body of `walkDescendants` / `walkAncestors` after initialization:
pop the queue head, enqueue its unvisited neighbours (marking them), emit
the head, repeat.  The fuel argument stands for the unbounded Go loop; the
wrappers pass `vertices.length + 1`, proved sufficient on reachable
states. -/
def walkF (A : AdjMap) : Nat → List V → List V → List V
  | 0, _, _ => []
  | n + 1, fifo, visited =>
    match fifo with
    | [] => []
    | top :: rest =>
      let p := (getA A top).foldl
        (fun (p : List V × List V) c =>
          if c ∈ p.2 then p else (p.1 ++ [c], p.2 ++ [c])) (rest, visited)
      top :: walkF A n p.1 p.2

/-- `GetOrderedDescendants` (the drained `DescendantsWalker`): the walker
seeds queue and visited set with the children of `v`, then runs the
breadth-first loop.  No cache is read or written. -/
def GetOrderedDescendants (d : DAG) (v? : Option V) : Except Err (List V) :=
  match v? with
  | none => .error .VertexNilError
  | some v =>
    if v ∈ d.vertices then
      .ok (walkF d.outboundEdge (d.vertices.length + 1)
            (getA d.outboundEdge v) (getA d.outboundEdge v))
    else .error .VertexUnknownError

/-- `GetOrderedAncestors` (the drained `AncestorsWalker`). -/
def GetOrderedAncestors (d : DAG) (v? : Option V) : Except Err (List V) :=
  match v? with
  | none => .error .VertexNilError
  | some v =>
    if v ∈ d.vertices then
      .ok (walkF d.inboundEdge (d.vertices.length + 1)
            (getA d.inboundEdge v) (getA d.inboundEdge v))
    else .error .VertexUnknownError

/-!  Reachability over an adjacency map, and the states reachable by the
public API from `NewDAG()`. -/

/-- One edge of an adjacency map. -/
def adjRel (A : AdjMap) (a b : V) : Prop := b ∈ getA A a

/-- `reach A a b`: `b` is a strict descendant of `a` (a directed path of
length at least one). -/
def reach (A : AdjMap) (a b : V) : Prop := Relation.TransGen (adjRel A) a b

/-- Graph states produced by the public API starting from `NewDAG()`
(including the states after failed calls, which for `AddEdge` may differ
from the input state). -/
inductive Reachable : DAG → Prop
  | newDAG : Reachable NewDAG
  | addVertex (d : DAG) (v? : Option V) : Reachable d → Reachable (AddVertex d v?).1
  | addEdge (d : DAG) (s? t? : Option V) : Reachable d → Reachable (AddEdge d s? t?).1
  | deleteVertex (d : DAG) (v? : Option V) : Reachable d → Reachable (DeleteVertex d v?).1
  | deleteEdge (d : DAG) (s? t? : Option V) : Reachable d → Reachable (DeleteEdge d s? t?).1
  | reduce (d : DAG) : Reachable d → Reachable (ReduceTransitively d)
  | getDesc (d : DAG) (v? : Option V) : Reachable d → Reachable (GetDescendants d v?).2
  | getAnc (d : DAG) (v? : Option V) : Reachable d → Reachable (GetAncestors d v?).2
  | flush (d : DAG) : Reachable d → Reachable (FlushCaches d)

/-- The removal condition of `ReduceTransitively` for the edge (a, b), read
from the descendants cache: b is a cached descendant of some child of a. -/
def shortcut (d : DAG) (a b : V) : Prop :=
  ∃ c ∈ getA d.outboundEdge a, b ∈ getA d.descendantsCache c

/-- A closure cache is correct for an adjacency map when every entry it
holds is exactly the reachable set over that map. -/
def CacheOK (A C : AdjMap) : Prop :=
  ∀ v s, findA C v = some s → ∀ u, u ∈ s ↔ reach A v u

/-- The domain of a closure cache is closed under its entries: every vertex
listed in a memoized closure is itself memoized.  The memoizing recursion
creates entries bottom-up and every invalidation site erases an
upward-closed set, so this holds in every reachable state; the
`ReduceTransitively` loop relies on it when it reads the caches of inner
vertices without recomputing them. -/
def CacheClosed (C : AdjMap) : Prop :=
  ∀ v s, findA C v = some s → ∀ u ∈ s, (findA C u).isSome

/-- The state invariant of the package, maintained by every exported
operation. -/
structure Inv (d : DAG) : Prop where
  vNodup : d.vertices.Nodup
  outNodup : ∀ a, (getA d.outboundEdge a).Nodup
  inbNodup : ∀ a, (getA d.inboundEdge a).Nodup
  edgeClosed : ∀ a b, b ∈ getA d.outboundEdge a → a ∈ d.vertices ∧ b ∈ d.vertices
  symm : ∀ a b, b ∈ getA d.outboundEdge a ↔ a ∈ getA d.inboundEdge b
  acyc : ∀ x, ¬ reach d.outboundEdge x x
  descOK : CacheOK d.outboundEdge d.descendantsCache
  ancOK : CacheOK d.inboundEdge d.ancestorsCache
  descClosed : CacheClosed d.descendantsCache
  ancClosed : CacheClosed d.ancestorsCache

/-- Directed paths of a given positive length, used to state the
breadth-first ordering of the walkers. -/
inductive pathN (A : AdjMap) : Nat → V → V → Prop
  | single {a b : V} : adjRel A a b → pathN A 1 a b
  | tail {a b c : V} {n : Nat} : pathN A n a b → adjRel A b c → pathN A (n + 1) a c

/-- Edge distance: the length of a shortest directed path (meaningful when
`reach A a b` holds). -/
noncomputable def distV (A : AdjMap) (a b : V) : Nat :=
  sInf {n | pathN A n a b}

/-- Concrete vertex with a numeric id, for the concrete instances below. -/
def mkV (n : Nat) : V := ⟨n, toString n⟩

/-- Insert one edge between numbered vertices (concrete instances). -/
def addE (d : DAG) (a b : Nat) : DAG := (AddEdge d (some (mkV a)) (some (mkV b))).1

/-- The worked example of the specification: vertices 0..4 with edges
0→1, 0→3, 1→2, 2→4, 3→4. -/
def exDiamond : DAG := addE (addE (addE (addE (addE NewDAG 0 1) 0 3) 1 2) 2 4) 3 4

/-- The transitive-reduction example: A→B, A→C, B→D, C→D, A→D with
A,B,C,D numbered 1,2,3,4. -/
def exShortcut : DAG := addE (addE (addE (addE (addE NewDAG 1 2) 1 3) 2 4) 3 4) 1 4

/-- A one-vertex graph whose single vertex owns the id "a". -/
def exC2pre : DAG := (AddVertex NewDAG (some ⟨0, "a"⟩)).1

/-- Two isolated vertices 1, 2 with the descendants cache of vertex 1
populated (with the empty set) by a `GetDescendants` call. -/
def exC4pre : DAG :=
  (GetDescendants ((AddVertex ((AddVertex NewDAG (some (mkV 1))).1) (some (mkV 2))).1)
    (some (mkV 1))).2

/-- Number of vertices not yet visited: the decreasing part of the walker's
termination measure. -/
def unseen (verts visited : List V) : Nat :=
  (verts.filter (fun x => decide (x ∉ visited))).length

/-!  Association-list and set-list lemmas. -/

theorem findA_insertA_self {κ ν : Type} [DecidableEq κ] (m : List (κ × ν)) (k : κ) (s : ν) :
    findA (insertA m k s) k = some s := by
  induction m with
  | nil => simp [insertA, findA]
  | cons p m ih =>
    by_cases h : k = p.1
    · simp [insertA, findA, h]
    · simp [insertA, findA, h, ih]

theorem findA_insertA_ne {κ ν : Type} [DecidableEq κ] (m : List (κ × ν)) (k x : κ) (s : ν)
    (h : x ≠ k) : findA (insertA m k s) x = findA m x := by
  induction m with
  | nil => simp [insertA, findA, h]
  | cons p m ih =>
    by_cases hk : k = p.1
    · subst hk
      simp [insertA, findA, h]
    · by_cases hx : x = p.1 <;> simp [insertA, findA, hk, hx, ih]

theorem findA_eraseA_self {κ ν : Type} [DecidableEq κ] (m : List (κ × ν)) (k : κ) :
    findA (eraseA m k) k = none := by
  induction m with
  | nil => simp [eraseA, findA]
  | cons p m ih =>
    by_cases h : k = p.1
    · rw [h] at ih ⊢
      simp [eraseA, ih]
    · simp [eraseA, findA, h, ih]

theorem findA_eraseA_ne {κ ν : Type} [DecidableEq κ] (m : List (κ × ν)) (k x : κ)
    (h : x ≠ k) : findA (eraseA m k) x = findA m x := by
  induction m with
  | nil => simp [eraseA]
  | cons p m ih =>
    by_cases hk : k = p.1
    · subst hk
      simp [eraseA, findA, h, ih]
    · by_cases hx : x = p.1 <;> simp [eraseA, findA, hk, hx, ih]

theorem findA_foldl_eraseA {κ ν : Type} [DecidableEq κ] (E : List κ) (m : List (κ × ν)) (k : κ) :
    findA (E.foldl (fun m x => eraseA m x) m) k =
      if k ∈ E then none else findA m k := by
  induction E generalizing m with
  | nil => simp
  | cons e E ih =>
    by_cases hk : k = e
    · subst hk
      simp only [List.foldl_cons, ih]
      by_cases hE : k ∈ E <;> simp [hE, findA_eraseA_self]
    · simp only [List.foldl_cons, ih, List.mem_cons]
      by_cases hE : k ∈ E <;> simp [hE, hk, findA_eraseA_ne m _ _ hk]

theorem mem_insertSet {xs : List V} {v a : V} :
    a ∈ insertSet xs v ↔ a ∈ xs ∨ a = v := by
  unfold insertSet
  by_cases h : v ∈ xs
  · simp only [if_pos h]
    constructor
    · exact fun ha => Or.inl ha
    · rintro (ha | rfl)
      · exact ha
      · exact h
  · simp [if_neg h]

theorem nodup_insertSet {xs : List V} {v : V} (h : xs.Nodup) : (insertSet xs v).Nodup := by
  unfold insertSet
  by_cases hv : v ∈ xs
  · simpa [hv]
  · rw [if_neg hv, List.nodup_append]
    refine ⟨h, List.nodup_singleton v, ?_⟩
    intro a ha hmem
    rw [List.mem_singleton] at hmem
    subst hmem
    exact hv ha

theorem mem_eraseSet {xs : List V} {v a : V} :
    a ∈ eraseSet xs v ↔ a ∈ xs ∧ a ≠ v := by
  induction xs with
  | nil => simp [eraseSet]
  | cons x xs ih =>
    by_cases h : x = v
    · subst h
      rw [show eraseSet (x :: xs) x = eraseSet xs x from by rw [eraseSet, if_pos rfl], ih]
      simp only [List.mem_cons]
      constructor
      · rintro ⟨h1, h2⟩
        exact ⟨Or.inr h1, h2⟩
      · rintro ⟨rfl | h1, h2⟩
        · exact absurd rfl h2
        · exact ⟨h1, h2⟩
    · rw [show eraseSet (x :: xs) v = x :: eraseSet xs v from by rw [eraseSet, if_neg h]]
      simp only [List.mem_cons, ih]
      constructor
      · rintro (rfl | ⟨h1, h2⟩)
        · exact ⟨Or.inl rfl, h⟩
        · exact ⟨Or.inr h1, h2⟩
      · rintro ⟨rfl | h1, h2⟩
        · exact Or.inl rfl
        · exact Or.inr ⟨h1, h2⟩

theorem nodup_eraseSet {xs : List V} {v : V} (h : xs.Nodup) : (eraseSet xs v).Nodup := by
  induction xs with
  | nil => simp [eraseSet]
  | cons x xs ih =>
    rcases List.nodup_cons.mp h with ⟨hx, hxs⟩
    by_cases hv : x = v
    · subst hv
      rw [show eraseSet (x :: xs) x = eraseSet xs x from by rw [eraseSet, if_pos rfl]]
      exact ih hxs
    · rw [show eraseSet (x :: xs) v = x :: eraseSet xs v from by rw [eraseSet, if_neg hv]]
      refine List.nodup_cons.mpr ⟨?_, ih hxs⟩
      intro hmem
      exact hx (mem_eraseSet.mp hmem).1

theorem mem_foldl_insertSet {ys xs : List V} {a : V} :
    a ∈ ys.foldl insertSet xs ↔ a ∈ xs ∨ a ∈ ys := by
  induction ys generalizing xs with
  | nil => simp
  | cons y ys ih =>
    simp only [List.foldl_cons, ih, mem_insertSet, List.mem_cons]
    tauto

theorem mem_unionSet {xs ys : List V} {a : V} :
    a ∈ unionSet xs ys ↔ a ∈ xs ∨ a ∈ ys :=
  mem_foldl_insertSet

theorem getA_eq_of_findA {m : AdjMap} {k : V} {s : List V} (h : findA m k = some s) :
    getA m k = s := by
  simp [getA, h]

theorem mem_getA_insertInner {m : AdjMap} {k x a b : V} :
    b ∈ getA (insertInner m k x) a ↔ b ∈ getA m a ∨ (a = k ∧ b = x) := by
  unfold insertInner
  by_cases h : a = k
  · subst h
    rw [getA, findA_insertA_self]
    simp [mem_insertSet]
  · rw [getA, findA_insertA_ne _ _ _ _ h]
    simp [getA, h]

theorem mem_getA_eraseInner {m : AdjMap} {k x a b : V} :
    b ∈ getA (eraseInner m k x) a ↔ b ∈ getA m a ∧ ¬(a = k ∧ b = x) := by
  unfold eraseInner
  cases hm : findA m k with
  | none =>
    simp only [iff_self_and]
    rintro hb ⟨rfl, rfl⟩
    rw [getA, hm] at hb
    simp at hb
  | some s =>
    by_cases h : a = k
    · subst h
      rw [getA, findA_insertA_self, Option.getD_some, mem_eraseSet, getA, hm]
      simp only [Option.getD_some]
      tauto
    · rw [getA, findA_insertA_ne _ _ _ _ h]
      simp [getA, h]

theorem nodup_getA_insertInner {m : AdjMap} {k x a : V} (h : ∀ c, (getA m c).Nodup) :
    (getA (insertInner m k x) a).Nodup := by
  unfold insertInner
  by_cases ha : a = k
  · subst ha
    rw [getA, findA_insertA_self, Option.getD_some]
    exact nodup_insertSet (h a)
  · rw [getA, findA_insertA_ne _ _ _ _ ha]
    exact h a

/-!  Reachability lemmas. -/

theorem reach_single {A : AdjMap} {a b : V} (h : adjRel A a b) : reach A a b :=
  Relation.TransGen.single h

theorem reach_head {A : AdjMap} {a b c : V} (h : adjRel A a b) (h2 : reach A b c) :
    reach A a c :=
  Relation.TransGen.head h h2

theorem reach_tail {A : AdjMap} {a b c : V} (h : reach A a b) (h2 : adjRel A b c) :
    reach A a c :=
  Relation.TransGen.tail h h2

theorem reach_trans {A : AdjMap} {a b c : V} (h : reach A a b) (h2 : reach A b c) :
    reach A a c :=
  Relation.TransGen.trans h h2

theorem reach_congr {A B : AdjMap} (h : ∀ a b, adjRel A a b ↔ adjRel B a b) {a b : V} :
    reach A a b ↔ reach B a b :=
  ⟨Relation.TransGen.mono fun x y hxy => (h x y).mp hxy,
   Relation.TransGen.mono fun x y hxy => (h x y).mpr hxy⟩

theorem reach_swap {A B : AdjMap} (h : ∀ a b, b ∈ getA A a ↔ a ∈ getA B b) {a b : V} :
    reach A a b ↔ reach B b a := by
  constructor
  · intro hr
    have : Relation.TransGen (Function.swap (adjRel B)) a b :=
      Relation.TransGen.mono (fun x y hxy => (h x y).mp hxy) hr
    exact Relation.transGen_swap.mp this
  · intro hr
    have : Relation.TransGen (Function.swap (adjRel B)) a b :=
      Relation.transGen_swap.mpr hr
    exact Relation.TransGen.mono (fun x y hxy => (h x y).mpr hxy) this

theorem reach_head_iff {A : AdjMap} {a c : V} :
    reach A a c ↔ ∃ b, adjRel A a b ∧ (b = c ∨ reach A b c) := by
  constructor
  · intro h
    rcases Relation.TransGen.head'_iff.mp h with ⟨b, hab, hbc⟩
    rcases Relation.reflTransGen_iff_eq_or_transGen.mp hbc with hcb | htg
    · exact ⟨b, hab, Or.inl hcb.symm⟩
    · exact ⟨b, hab, Or.inr htg⟩
  · rintro ⟨b, hab, rfl | hbc⟩
    · exact Relation.TransGen.single hab
    · exact Relation.TransGen.head hab hbc

theorem reach_tail_iff {A : AdjMap} {a c : V} :
    reach A a c ↔ ∃ b, (a = b ∨ reach A a b) ∧ adjRel A b c := by
  constructor
  · intro h
    rcases Relation.TransGen.tail'_iff.mp h with ⟨b, hab, hbc⟩
    rcases Relation.reflTransGen_iff_eq_or_transGen.mp hab with hba | htg
    · exact ⟨b, Or.inl hba.symm, hbc⟩
    · exact ⟨b, Or.inr htg, hbc⟩
  · rintro ⟨b, rfl | hab, hbc⟩
    · exact Relation.TransGen.single hbc
    · exact Relation.TransGen.tail hab hbc

theorem reach_mem_closed {A : AdjMap} {verts : List V}
    (hcl : ∀ a b, b ∈ getA A a → b ∈ verts) {v u : V} (h : reach A v u) : u ∈ verts := by
  induction h with
  | single h1 => exact hcl _ _ h1
  | tail _ h2 _ => exact hcl _ _ h2

theorem reach_set_finite {A : AdjMap} {verts : List V}
    (hcl : ∀ a b, b ∈ getA A a → b ∈ verts) (v : V) : {u | reach A v u}.Finite :=
  (verts.finite_toSet).subset fun _ hu => reach_mem_closed hcl hu

theorem reach_set_ncard_le {A : AdjMap} {verts : List V}
    (hcl : ∀ a b, b ∈ getA A a → b ∈ verts) (v : V) :
    {u | reach A v u}.ncard ≤ verts.length := by
  have h1 : {u | reach A v u}.ncard ≤ {u | u ∈ verts}.ncard :=
    Set.ncard_le_ncard (fun _ hu => reach_mem_closed hcl hu) verts.finite_toSet
  have h2 : {u | u ∈ verts}.ncard = verts.toFinset.card := by
    rw [← Set.ncard_coe_Finset]
    congr 1
    ext x
    simp
  exact h1.trans (h2 ▸ verts.toFinset_card_le)

theorem ncard_reach_child_lt {A : AdjMap} (hacy : ∀ x, ¬ reach A x x) {v c : V}
    (hc : adjRel A v c) (hfin : {u | reach A v u}.Finite) :
    {u | reach A c u}.ncard < {u | reach A v u}.ncard := by
  have hsub : {u | reach A c u} ⊆ {u | reach A v u} :=
    fun u hu => Relation.TransGen.head hc hu
  have hne : {u | reach A c u} ≠ {u | reach A v u} := by
    intro he
    have : c ∈ {u | reach A v u} := Relation.TransGen.single hc
    rw [← he] at this
    exact hacy c this
  exact Set.ncard_lt_ncard (Set.ssubset_iff_subset_ne.mpr ⟨hsub, hne⟩) hfin

theorem reach_child_finite {A : AdjMap} {v c : V} (hc : adjRel A v c)
    (hfin : {u | reach A v u}.Finite) : {u | reach A c u}.Finite :=
  hfin.subset fun _ hu => Relation.TransGen.head hc hu

theorem transGen_or_decompose {r : V → V → Prop} {s t a b : V}
    (h : Relation.TransGen (fun x y => r x y ∨ (x = s ∧ y = t)) a b) :
    Relation.TransGen r a b ∨
      (Relation.ReflTransGen r a s ∧ Relation.ReflTransGen r t b) := by
  induction h with
  | single h1 =>
    rcases h1 with h1 | ⟨rfl, rfl⟩
    · exact Or.inl (Relation.TransGen.single h1)
    · exact Or.inr ⟨Relation.ReflTransGen.refl, Relation.ReflTransGen.refl⟩
  | tail _ h2 ih =>
    rcases h2 with h2 | ⟨rfl, rfl⟩
    · rcases ih with ih | ⟨h3, h4⟩
      · exact Or.inl (Relation.TransGen.tail ih h2)
      · exact Or.inr ⟨h3, Relation.ReflTransGen.tail h4 h2⟩
    · rcases ih with ih | ⟨h3, _⟩
      · exact Or.inr ⟨ih.to_reflTransGen, Relation.ReflTransGen.refl⟩
      · exact Or.inr ⟨h3, Relation.ReflTransGen.refl⟩

theorem transGen_avoid {r p : V → V → Prop} {u x : V}
    (h : Relation.TransGen r u x)
    (havoid : ∀ a b, r a b → Relation.ReflTransGen r u a → p a b) :
    Relation.TransGen (fun a b => r a b ∧ p a b) u x := by
  induction h with
  | single h1 => exact Relation.TransGen.single ⟨h1, havoid _ _ h1 Relation.ReflTransGen.refl⟩
  | tail h1 h2 ih =>
    exact Relation.TransGen.tail ih ⟨h2, havoid _ _ h2 h1.to_reflTransGen⟩

/-!  Lemmas about the memoizing closure computation `closeF`. -/

theorem closeF_cached {g : CState} {v : V} {c : List V} {n : Nat}
    (h : findA g.cache v = some c) : closeF (n + 1) g v = (c, g) := by
  unfold closeF
  rw [h]

theorem closeF_uncached {g : CState} {v : V} {n : Nat}
    (h : findA g.cache v = none) :
    closeF (n + 1) g v =
      (((getA g.adj v).foldl (closeStep n) ([], g)).1,
       ⟨((getA g.adj v).foldl (closeStep n) ([], g)).2.adj,
        insertA ((getA g.adj v).foldl (closeStep n) ([], g)).2.cache v
          ((getA g.adj v).foldl (closeStep n) ([], g)).1⟩) := by
  unfold closeF
  rw [h]
  rfl

theorem closeF_adj : ∀ (n : Nat) (g : CState) (v : V), (closeF n g v).2.adj = g.adj := by
  intro n
  induction n with
  | zero => intro g v; rfl
  | succ n ih =>
    intro g v
    cases hfind : findA g.cache v with
    | some c => rw [closeF_cached hfind]
    | none =>
      rw [closeF_uncached hfind]
      have hfold : ∀ (l : List V) (p : List V × CState),
          ((l.foldl (closeStep n) p)).2.adj = p.2.adj := by
        intro l
        induction l with
        | nil => intro p; rfl
        | cons c l ihl =>
          intro p
          rw [List.foldl_cons, ihl]
          exact ih p.2 c
      exact hfold _ _

theorem closeF_grow : ∀ (n : Nat) (g : CState) (v k : V) (w : List V),
    findA g.cache k = some w → findA (closeF n g v).2.cache k = some w := by
  intro n
  induction n with
  | zero => intro g v k w h; exact h
  | succ n ih =>
    intro g v k w h
    cases hfind : findA g.cache v with
    | some c => rw [closeF_cached hfind]; exact h
    | none =>
      rw [closeF_uncached hfind]
      have hfold : ∀ (l : List V) (p : List V × CState),
          findA p.2.cache k = some w →
          findA ((l.foldl (closeStep n) p)).2.cache k = some w := by
        intro l
        induction l with
        | nil => intro p hp; exact hp
        | cons c l ihl =>
          intro p hp
          rw [List.foldl_cons]
          exact ihl _ (ih p.2 c k w hp)
      have hne : k ≠ v := by
        intro he
        rw [he, hfind] at h
        exact Option.noConfusion h
      simp only
      rw [findA_insertA_ne _ _ _ _ hne]
      exact hfold _ _ h

theorem isSome_findA_insertA {C : AdjMap} {v u : V} {s : List V}
    (h : u ≠ v → (findA C u).isSome = true) :
    (findA (insertA C v s) u).isSome = true := by
  by_cases he : u = v
  · subst he
    rw [findA_insertA_self]
    rfl
  · rw [findA_insertA_ne _ _ _ _ he]
    exact h he

/-- Correctness of the memoizing closure computation: on an acyclic
adjacency map, given a correct (and entry-closed) cache and enough fuel,
`closeF` returns exactly the reachable set, keeps the cache correct and
entry-closed, and leaves an entry for the queried vertex and everything it
reaches. -/
theorem closeF_main {A : AdjMap} (hacy : ∀ x, ¬ reach A x x) :
    ∀ (n : Nat) (g : CState) (v : V), g.adj = A →
      CacheOK A g.cache → CacheClosed g.cache →
      {u | reach A v u}.Finite → {u | reach A v u}.ncard < n →
      (∀ u, u ∈ (closeF n g v).1 ↔ reach A v u) ∧
      CacheOK A (closeF n g v).2.cache ∧
      CacheClosed (closeF n g v).2.cache ∧
      (findA (closeF n g v).2.cache v).isSome = true ∧
      (∀ u, reach A v u → (findA (closeF n g v).2.cache u).isSome = true) := by
  intro n
  induction n with
  | zero =>
    intro g v _ _ _ _ hcard
    exact absurd hcard (Nat.not_lt_zero _)
  | succ n ih =>
    intro g v hadj hok hcl hfin hcard
    cases hfind : findA g.cache v with
    | some s =>
      rw [closeF_cached hfind]
      refine ⟨hok v s hfind, hok, hcl, by rw [hfind]; rfl, ?_⟩
      intro u hu
      exact hcl v s hfind u ((hok v s hfind u).mpr hu)
    | none =>
      rw [closeF_uncached hfind]
      have hchild : ∀ c ∈ getA g.adj v, adjRel A v c := by
        intro c hc
        rw [hadj] at hc
        exact hc
      -- the fold over the children
      have fold_spec : ∀ (l : List V), (∀ c ∈ l, adjRel A v c) →
          ∀ (p : List V × CState) (Q : V → Prop),
          p.2.adj = A → CacheOK A p.2.cache → CacheClosed p.2.cache →
          (∀ u, u ∈ p.1 ↔ Q u) →
          ((l.foldl (closeStep n) p).2.adj = A ∧
           CacheOK A (l.foldl (closeStep n) p).2.cache ∧
           CacheClosed (l.foldl (closeStep n) p).2.cache ∧
           (∀ u, u ∈ (l.foldl (closeStep n) p).1 ↔
              (Q u ∨ ∃ c ∈ l, c = u ∨ reach A c u)) ∧
           (∀ k w, findA p.2.cache k = some w →
              findA (l.foldl (closeStep n) p).2.cache k = some w) ∧
           (∀ c ∈ l, (findA (l.foldl (closeStep n) p).2.cache c).isSome = true ∧
              ∀ u, reach A c u →
                (findA (l.foldl (closeStep n) p).2.cache u).isSome = true)) := by
        intro l
        induction l with
        | nil =>
          intro _ p Q hpadj hpok hpcl hpmem
          refine ⟨hpadj, hpok, hpcl, ?_, fun k w hw => hw, by simp⟩
          simp [hpmem]
        | cons c l ihl =>
          intro hcl2 p Q hpadj hpok hpcl hpmem
          have hc : adjRel A v c := hcl2 c (List.mem_cons_self c l)
          have hcfin : {u | reach A c u}.Finite := reach_child_finite hc hfin
          have hccard : {u | reach A c u}.ncard < n := by
            have h1 := ncard_reach_child_lt hacy hc hfin
            omega
          have hq := ih p.2 c hpadj hpok hpcl hcfin hccard
          rcases hq with ⟨hq1, hq2, hq3, hq4, hq5⟩
          have hqadj : (closeF n p.2 c).2.adj = A := by rw [closeF_adj, hpadj]
          -- the next accumulator
          have hmem2 : ∀ u, u ∈ (closeStep n p c).1 ↔ (Q u ∨ (c = u ∨ reach A c u)) := by
            intro u
            unfold closeStep
            simp only [mem_insertSet, mem_unionSet, hpmem, hq1]
            constructor
            · rintro ((h1 | h1) | rfl)
              · exact Or.inl h1
              · exact Or.inr (Or.inr h1)
              · exact Or.inr (Or.inl rfl)
            · rintro (h1 | rfl | h1)
              · exact Or.inl (Or.inl h1)
              · exact Or.inr rfl
              · exact Or.inl (Or.inr h1)
          have hstep2 : (closeStep n p c).2 = (closeF n p.2 c).2 := rfl
          have hrec := ihl (fun x hx => hcl2 x (List.mem_cons_of_mem c hx))
            (closeStep n p c) (fun u => Q u ∨ (c = u ∨ reach A c u))
            (by rw [hstep2, hqadj]) (by rw [hstep2]; exact hq2)
            (by rw [hstep2]; exact hq3) hmem2
          rcases hrec with ⟨hr1, hr2, hr3, hr4, hr5, hr6⟩
          rw [List.foldl_cons]
          refine ⟨hr1, hr2, hr3, ?_, ?_, ?_⟩
          · intro u
            rw [hr4 u]
            constructor
            · rintro ((h1 | h1) | ⟨x, hx, h2⟩)
              · exact Or.inl h1
              · exact Or.inr ⟨c, List.mem_cons_self c l, h1⟩
              · exact Or.inr ⟨x, List.mem_cons_of_mem c hx, h2⟩
            · rintro (h1 | ⟨x, hx, h2⟩)
              · exact Or.inl (Or.inl h1)
              · rcases List.mem_cons.mp hx with rfl | hx2
                · exact Or.inl (Or.inr h2)
                · exact Or.inr ⟨x, hx2, h2⟩
          · intro k w hw
            refine hr5 k w ?_
            rw [hstep2]
            exact closeF_grow n p.2 c k w hw
          · intro x hx
            rcases List.mem_cons.mp hx with rfl | hx2
            · constructor
              · rcases Option.isSome_iff_exists.mp hq4 with ⟨w, hw⟩
                rw [hr5 x w (by rw [hstep2]; exact hw)]
                rfl
              · intro u hu
                rcases Option.isSome_iff_exists.mp (hq5 u hu) with ⟨w, hw⟩
                rw [hr5 u w (by rw [hstep2]; exact hw)]
                rfl
            · exact hr6 x hx2
      have hres := fold_spec (getA g.adj v) hchild ([], g) (fun _ => False)
        hadj hok hcl (by simp)
      rcases hres with ⟨hr1, hr2, hr3, hr4, _, hr6⟩
      have hmemfin : ∀ u, u ∈ ((getA g.adj v).foldl (closeStep n) ([], g)).1 ↔
          reach A v u := by
        intro u
        rw [hr4 u]
        simp only [false_or]
        rw [reach_head_iff (A := A) (a := v) (c := u)]
        constructor
        · rintro ⟨c, hc, h2⟩
          exact ⟨c, hchild c hc, h2⟩
        · rintro ⟨c, hc, h2⟩
          refine ⟨c, ?_, h2⟩
          rw [hadj]
          exact hc
      simp only
      refine ⟨hmemfin, ?_, ?_, ?_, ?_⟩
      · intro k s hk u
        by_cases he : k = v
        · subst he
          rw [findA_insertA_self] at hk
          cases hk
          exact hmemfin u
        · rw [findA_insertA_ne _ _ _ _ he] at hk
          exact hr2 k s hk u
      · intro k s hk u hu
        by_cases he : k = v
        · rw [he, findA_insertA_self] at hk
          have hs : s = ((getA g.adj v).foldl (closeStep n) ([], g)).1 := by
            injection hk with h3
            exact h3.symm
          rw [hs] at hu
          have hru : reach A v u := (hmemfin u).mp hu
          rcases reach_head_iff.mp hru with ⟨c, hc, h2⟩
          have hcg : c ∈ getA g.adj v := by rw [hadj]; exact hc
          refine isSome_findA_insertA (fun _ => ?_)
          rcases h2 with h2 | h2
          · rw [← h2]
            exact (hr6 c hcg).1
          · exact (hr6 c hcg).2 u h2
        · rw [findA_insertA_ne _ _ _ _ he] at hk
          exact isSome_findA_insertA (fun _ => hr3 k s hk u hu)
      · rw [findA_insertA_self]
        rfl
      · intro u hu
        rcases reach_head_iff.mp hu with ⟨c, hc, h2⟩
        have hcg : c ∈ getA g.adj v := by rw [hadj]; exact hc
        refine isSome_findA_insertA (fun _ => ?_)
        rcases h2 with h2 | h2
        · rw [← h2]
          exact (hr6 c hcg).1
        · exact (hr6 c hcg).2 u h2

theorem nodup_getA_eraseInner {m : AdjMap} {k x a : V} (h : ∀ c, (getA m c).Nodup) :
    (getA (eraseInner m k x) a).Nodup := by
  unfold eraseInner
  cases hm : findA m k with
  | none => exact h a
  | some s =>
    by_cases ha : a = k
    · subst ha
      rw [getA, findA_insertA_self, Option.getD_some]
      refine nodup_eraseSet ?_
      have := h a
      rwa [getA, hm, Option.getD_some] at this
    · rw [getA, findA_insertA_ne _ _ _ _ ha]
      exact h a

/-!  Facts derivable from the invariant. -/

theorem Inv.inbEdge_iff {d : DAG} (h : Inv d) (a b : V) :
    b ∈ getA d.inboundEdge a ↔ a ∈ getA d.outboundEdge b :=
  (h.symm b a).symm

theorem Inv.inbClosed {d : DAG} (h : Inv d) (a b : V) (hb : b ∈ getA d.inboundEdge a) :
    a ∈ d.vertices ∧ b ∈ d.vertices := by
  have h2 := (h.inbEdge_iff a b).mp hb
  have h3 := h.edgeClosed b a h2
  exact ⟨h3.2, h3.1⟩

theorem Inv.reach_inb_iff {d : DAG} (h : Inv d) {a b : V} :
    reach d.inboundEdge a b ↔ reach d.outboundEdge b a :=
  reach_swap (fun x y => h.inbEdge_iff x y)

theorem Inv.inbAcyc {d : DAG} (h : Inv d) : ∀ x, ¬ reach d.inboundEdge x x :=
  fun x hx => h.acyc x (h.reach_inb_iff.mp hx)

theorem Inv.outFinite {d : DAG} (h : Inv d) (v : V) :
    {u | reach d.outboundEdge v u}.Finite :=
  reach_set_finite (fun a b hb => (h.edgeClosed a b hb).2) v

theorem Inv.outCard {d : DAG} (h : Inv d) (v : V) :
    {u | reach d.outboundEdge v u}.ncard < d.vertices.length + 1 :=
  Nat.lt_succ_of_le (reach_set_ncard_le (fun a b hb => (h.edgeClosed a b hb).2) v)

theorem Inv.inbFinite {d : DAG} (h : Inv d) (v : V) :
    {u | reach d.inboundEdge v u}.Finite :=
  reach_set_finite (fun a b hb => (h.inbClosed a b hb).2) v

theorem Inv.inbCard {d : DAG} (h : Inv d) (v : V) :
    {u | reach d.inboundEdge v u}.ncard < d.vertices.length + 1 :=
  Nat.lt_succ_of_le (reach_set_ncard_le (fun a b hb => (h.inbClosed a b hb).2) v)

theorem Inv.outReachMem {d : DAG} (h : Inv d) {v u : V}
    (hr : reach d.outboundEdge v u) : u ∈ d.vertices :=
  reach_mem_closed (fun a b hb => (h.edgeClosed a b hb).2) hr

theorem Inv.outReachSrcMem {d : DAG} (h : Inv d) {v u : V}
    (hr : reach d.outboundEdge v u) : v ∈ d.vertices := by
  rcases reach_head_iff.mp hr with ⟨c, hc, _⟩
  exact (h.edgeClosed v c hc).1

/-!  Specifications of the memoizing closure wrappers. -/

theorem getDescendants_spec {d : DAG} (h : Inv d) (v : V) :
    (∀ u, u ∈ (getDescendants d v).1 ↔ reach d.outboundEdge v u) ∧
    Inv (getDescendants d v).2 ∧
    (getDescendants d v).2.vertices = d.vertices ∧
    (getDescendants d v).2.vertexIds = d.vertexIds ∧
    (getDescendants d v).2.outboundEdge = d.outboundEdge ∧
    (getDescendants d v).2.inboundEdge = d.inboundEdge ∧
    (getDescendants d v).2.ancestorsCache = d.ancestorsCache ∧
    (∀ k w, findA d.descendantsCache k = some w →
      findA (getDescendants d v).2.descendantsCache k = some w) ∧
    (∀ u, (u = v ∨ reach d.outboundEdge v u) →
      (findA (getDescendants d v).2.descendantsCache u).isSome = true) := by
  have hmain := closeF_main (A := d.outboundEdge) h.acyc (d.vertices.length + 1)
    ⟨d.outboundEdge, d.descendantsCache⟩ v rfl h.descOK h.descClosed
    (h.outFinite v) (h.outCard v)
  rcases hmain with ⟨hm1, hm2, hm3, hm4, hm5⟩
  have hgrow := closeF_grow (d.vertices.length + 1)
    ⟨d.outboundEdge, d.descendantsCache⟩ v
  refine ⟨hm1, ?_, rfl, rfl, rfl, rfl, rfl, fun k w hw => hgrow k w hw, ?_⟩
  · exact { vNodup := h.vNodup, outNodup := h.outNodup, inbNodup := h.inbNodup,
            edgeClosed := h.edgeClosed, symm := h.symm, acyc := h.acyc,
            descOK := hm2, ancOK := h.ancOK, descClosed := hm3, ancClosed := h.ancClosed }
  · intro u hu
    rcases hu with rfl | hu
    · exact hm4
    · exact hm5 u hu

theorem getAncestors_spec {d : DAG} (h : Inv d) (v : V) :
    (∀ u, u ∈ (getAncestors d v).1 ↔ reach d.outboundEdge u v) ∧
    Inv (getAncestors d v).2 ∧
    (getAncestors d v).2.vertices = d.vertices ∧
    (getAncestors d v).2.vertexIds = d.vertexIds ∧
    (getAncestors d v).2.outboundEdge = d.outboundEdge ∧
    (getAncestors d v).2.inboundEdge = d.inboundEdge ∧
    (getAncestors d v).2.descendantsCache = d.descendantsCache ∧
    (∀ k w, findA d.ancestorsCache k = some w →
      findA (getAncestors d v).2.ancestorsCache k = some w) ∧
    (∀ u, (u = v ∨ reach d.outboundEdge u v) →
      (findA (getAncestors d v).2.ancestorsCache u).isSome = true) := by
  have hmain := closeF_main (A := d.inboundEdge) h.inbAcyc (d.vertices.length + 1)
    ⟨d.inboundEdge, d.ancestorsCache⟩ v rfl h.ancOK h.ancClosed
    (h.inbFinite v) (h.inbCard v)
  rcases hmain with ⟨hm1, hm2, hm3, hm4, hm5⟩
  have hgrow := closeF_grow (d.vertices.length + 1)
    ⟨d.inboundEdge, d.ancestorsCache⟩ v
  refine ⟨?_, ?_, rfl, rfl, rfl, rfl, rfl, fun k w hw => hgrow k w hw, ?_⟩
  · exact fun u => (hm1 u).trans h.reach_inb_iff
  · exact { vNodup := h.vNodup, outNodup := h.outNodup, inbNodup := h.inbNodup,
            edgeClosed := h.edgeClosed, symm := h.symm, acyc := h.acyc,
            descOK := h.descOK, ancOK := hm2, descClosed := h.descClosed, ancClosed := hm3 }
  · intro u hu
    rcases hu with rfl | hu
    · exact hm4
    · exact hm5 u (h.reach_inb_iff.mpr hu)

/-!  How reachability changes when one edge is inserted or removed, and
when a vertex is removed. -/

theorem transGen_avoid_to {r p : V → V → Prop} {u x : V}
    (h : Relation.TransGen r u x)
    (havoid : ∀ a b, r a b → Relation.ReflTransGen r b x → p a b) :
    Relation.TransGen (fun a b => r a b ∧ p a b) u x := by
  induction h using Relation.TransGen.head_induction_on with
  | base h1 => exact Relation.TransGen.single ⟨h1, havoid _ _ h1 Relation.ReflTransGen.refl⟩
  | ih h1 h2 ih =>
    exact Relation.TransGen.head ⟨h1, havoid _ _ h1 h2.to_reflTransGen⟩ ih

theorem reach_addedge_iff {A B : AdjMap} {s t : V}
    (hB : ∀ a b, b ∈ getA B a ↔ (b ∈ getA A a ∨ (a = s ∧ b = t)))
    {k u : V} (hk : ¬(k = s ∨ reach A k s)) :
    reach B k u ↔ reach A k u := by
  constructor
  · intro h
    have h2 : Relation.TransGen (fun x y => adjRel A x y ∨ (x = s ∧ y = t)) k u :=
      Relation.TransGen.mono (fun x y hxy => (hB x y).mp hxy) h
    rcases transGen_or_decompose h2 with h3 | ⟨h3, _⟩
    · exact h3
    · rcases Relation.reflTransGen_iff_eq_or_transGen.mp h3 with he | h4
      · exact absurd (Or.inl he.symm) hk
      · exact absurd (Or.inr h4) hk
  · exact Relation.TransGen.mono fun x y hxy => (hB x y).mpr (Or.inl hxy)

theorem reach_addedge_into_iff {A B : AdjMap} {s t : V}
    (hB : ∀ a b, b ∈ getA B a ↔ (b ∈ getA A a ∨ (a = s ∧ b = t)))
    {k u : V} (hk : ¬(k = t ∨ reach A t k)) :
    reach B u k ↔ reach A u k := by
  constructor
  · intro h
    have h2 : Relation.TransGen (fun x y => adjRel A x y ∨ (x = s ∧ y = t)) u k :=
      Relation.TransGen.mono (fun x y hxy => (hB x y).mp hxy) h
    rcases transGen_or_decompose h2 with h3 | ⟨_, h4⟩
    · exact h3
    · rcases Relation.reflTransGen_iff_eq_or_transGen.mp h4 with he | h5
      · exact absurd (Or.inl he) hk
      · exact absurd (Or.inr h5) hk
  · exact Relation.TransGen.mono fun x y hxy => (hB x y).mpr (Or.inl hxy)

theorem acyc_addedge {A B : AdjMap} {s t : V}
    (hB : ∀ a b, b ∈ getA B a ↔ (b ∈ getA A a ∨ (a = s ∧ b = t)))
    (hacy : ∀ x, ¬ reach A x x) (hst : s ≠ t) (hnr : ¬ reach A t s) :
    ∀ x, ¬ reach B x x := by
  intro x hx
  have h2 : Relation.TransGen (fun x y => adjRel A x y ∨ (x = s ∧ y = t)) x x :=
    Relation.TransGen.mono (fun a b hab => (hB a b).mp hab) hx
  rcases transGen_or_decompose h2 with h3 | ⟨h3, h4⟩
  · exact hacy x h3
  · have h5 : Relation.ReflTransGen (adjRel A) t s := Relation.ReflTransGen.trans h4 h3
    rcases Relation.reflTransGen_iff_eq_or_transGen.mp h5 with he | h6
    · exact hst he
    · exact hnr h6

theorem reach_delete_edge_iff {A B : AdjMap} {s t : V}
    (hB : ∀ a b, b ∈ getA B a ↔ (b ∈ getA A a ∧ ¬(a = s ∧ b = t)))
    {k u : V} (hk : ¬(k = s ∨ reach A k s)) :
    reach B k u ↔ reach A k u := by
  constructor
  · exact Relation.TransGen.mono fun x y hxy => ((hB x y).mp hxy).1
  · intro h
    have h2 := transGen_avoid (p := fun a b => ¬(a = s ∧ b = t)) h ?_
    · exact Relation.TransGen.mono (fun x y hxy => (hB x y).mpr hxy) h2
    · rintro a b _ hka ⟨rfl, rfl⟩
      rcases Relation.reflTransGen_iff_eq_or_transGen.mp hka with he | h4
      · exact hk (Or.inl he.symm)
      · exact hk (Or.inr h4)

theorem reach_delete_edge_into_iff {A B : AdjMap} {s t : V}
    (hB : ∀ a b, b ∈ getA B a ↔ (b ∈ getA A a ∧ ¬(a = s ∧ b = t)))
    {k u : V} (hk : ¬(k = t ∨ reach A t k)) :
    reach B u k ↔ reach A u k := by
  constructor
  · exact Relation.TransGen.mono fun x y hxy => ((hB x y).mp hxy).1
  · intro h
    have h2 := transGen_avoid_to (p := fun a b => ¬(a = s ∧ b = t)) h ?_
    · exact Relation.TransGen.mono (fun x y hxy => (hB x y).mpr hxy) h2
    · rintro a b _ hbk ⟨rfl, rfl⟩
      rcases Relation.reflTransGen_iff_eq_or_transGen.mp hbk with he | h4
      · exact hk (Or.inl he)
      · exact hk (Or.inr h4)

theorem reach_delete_vertex_iff {A B : AdjMap} {v : V}
    (hB : ∀ a b, b ∈ getA B a ↔ (b ∈ getA A a ∧ a ≠ v ∧ b ≠ v))
    {k u : V} (hk : ¬(k = v ∨ reach A k v)) :
    reach B k u ↔ reach A k u := by
  constructor
  · exact Relation.TransGen.mono fun x y hxy => ((hB x y).mp hxy).1
  · intro h
    have h2 := transGen_avoid (p := fun a b => a ≠ v ∧ b ≠ v) h ?_
    · exact Relation.TransGen.mono (fun x y hxy => (hB x y).mpr hxy) h2
    · intro a b hab hka
      constructor
      · intro he
        rw [he] at hka
        rcases Relation.reflTransGen_iff_eq_or_transGen.mp hka with he2 | h4
        · exact hk (Or.inl he2.symm)
        · exact hk (Or.inr h4)
      · intro he
        rw [he] at hab
        have h5 : Relation.ReflTransGen (adjRel A) k v :=
          Relation.ReflTransGen.tail hka hab
        rcases Relation.reflTransGen_iff_eq_or_transGen.mp h5 with he2 | h4
        · exact hk (Or.inl he2.symm)
        · exact hk (Or.inr h4)

theorem reach_delete_vertex_into_iff {A B : AdjMap} {v : V}
    (hB : ∀ a b, b ∈ getA B a ↔ (b ∈ getA A a ∧ a ≠ v ∧ b ≠ v))
    {k u : V} (hk : ¬(k = v ∨ reach A v k)) :
    reach B u k ↔ reach A u k := by
  constructor
  · exact Relation.TransGen.mono fun x y hxy => ((hB x y).mp hxy).1
  · intro h
    have h2 := transGen_avoid_to (p := fun a b => a ≠ v ∧ b ≠ v) h ?_
    · exact Relation.TransGen.mono (fun x y hxy => (hB x y).mpr hxy) h2
    · intro a b hab hbk
      constructor
      · intro he
        rw [he] at hab
        have h5 : Relation.ReflTransGen (adjRel A) v k :=
          Relation.ReflTransGen.head hab hbk
        rcases Relation.reflTransGen_iff_eq_or_transGen.mp h5 with he2 | h4
        · exact hk (Or.inl he2)
        · exact hk (Or.inr h4)
      · intro he
        rw [he] at hbk
        rcases Relation.reflTransGen_iff_eq_or_transGen.mp hbk with he2 | h4
        · exact hk (Or.inl he2)
        · exact hk (Or.inr h4)

/-!  Invariant preservation for the simple operations. -/

theorem reach_nil {a b : V} : ¬ reach ([] : AdjMap) a b := by
  intro h
  rcases reach_head_iff.mp h with ⟨c, hc, _⟩
  exact List.not_mem_nil c hc

theorem NewDAG_Inv : Inv NewDAG := by
  refine ⟨List.nodup_nil, fun _ => List.nodup_nil, fun _ => List.nodup_nil,
    ?_, ?_, ?_, ?_, ?_, ?_, ?_⟩
  · intro a b hb
    exact absurd hb (List.not_mem_nil b)
  · intro a b
    exact iff_of_false (List.not_mem_nil b) (List.not_mem_nil a)
  · exact fun x hx => reach_nil hx
  · intro v s hv
    exact Option.noConfusion hv
  · intro v s hv
    exact Option.noConfusion hv
  · intro v s hv
    exact Option.noConfusion hv
  · intro v s hv
    exact Option.noConfusion hv

theorem addVertex_Inv {d : DAG} (h : Inv d) (v : V) : Inv (addVertex d v) := by
  refine ⟨nodup_insertSet h.vNodup, h.outNodup, h.inbNodup, ?_, h.symm, h.acyc,
    h.descOK, h.ancOK, h.descClosed, h.ancClosed⟩
  intro a b hb
  have h2 := h.edgeClosed a b hb
  exact ⟨mem_insertSet.mpr (Or.inl h2.1), mem_insertSet.mpr (Or.inl h2.2)⟩

theorem AddVertex_Inv {d : DAG} (h : Inv d) (v? : Option V) : Inv (AddVertex d v?).1 := by
  cases v? with
  | none => exact h
  | some v =>
    simp only [AddVertex]
    by_cases h1 : v ∈ d.vertices
    · rw [if_pos h1]
      exact h
    · rw [if_neg h1]
      by_cases h2 : (findA d.vertexIds v.vid).isSome = true
      · rw [if_pos h2]
        exact h
      · rw [if_neg h2]
        exact addVertex_Inv h v

theorem FlushCaches_Inv {d : DAG} (h : Inv d) : Inv (FlushCaches d) := by
  refine ⟨h.vNodup, h.outNodup, h.inbNodup, h.edgeClosed, h.symm, h.acyc, ?_, ?_, ?_, ?_⟩
  all_goals
    intro v s hv
    exact Option.noConfusion hv

theorem GetDescendants_Inv {d : DAG} (h : Inv d) (v? : Option V) :
    Inv (GetDescendants d v?).2 := by
  cases v? with
  | none => exact h
  | some v =>
    simp only [GetDescendants]
    by_cases h1 : v ∈ d.vertices
    · rw [if_pos h1]
      exact (getDescendants_spec h v).2.1
    · rw [if_neg h1]
      exact h

/-!  Dissection of `AddEdge` into its branches. -/

theorem ensure_mem {d : DAG} {v : V} (h : v ∈ d.vertices) : ensure d v = .ok d := by
  unfold ensure
  rw [if_pos h]

theorem ensure_err {d : DAG} {v : V} {e : Err} (h : ensure d v = .error e) :
    e = .IdDuplicateError ∧ v ∉ d.vertices := by
  unfold ensure at h
  by_cases h1 : v ∈ d.vertices
  · rw [if_pos h1] at h
    exact Except.noConfusion h
  · rw [if_neg h1] at h
    by_cases h2 : (findA d.vertexIds v.vid).isSome = true
    · rw [if_pos h2] at h
      injection h with h3
      exact ⟨h3.symm, h1⟩
    · rw [if_neg h2] at h
      exact Except.noConfusion h

theorem ensure_ok_cases {d d1 : DAG} {v : V} (h : ensure d v = .ok d1) :
    (v ∈ d.vertices ∧ d1 = d) ∨ (v ∉ d.vertices ∧ d1 = addVertex d v) := by
  unfold ensure at h
  by_cases h1 : v ∈ d.vertices
  · rw [if_pos h1] at h
    injection h with h3
    exact Or.inl ⟨h1, h3.symm⟩
  · rw [if_neg h1] at h
    by_cases h2 : (findA d.vertexIds v.vid).isSome = true
    · rw [if_pos h2] at h
      exact Except.noConfusion h
    · rw [if_neg h2] at h
      injection h with h3
      exact Or.inr ⟨h1, h3.symm⟩

theorem ensure_Inv {d d1 : DAG} {v : V} (h : Inv d) (hok : ensure d v = .ok d1) : Inv d1 := by
  rcases ensure_ok_cases hok with ⟨_, rfl⟩ | ⟨_, rfl⟩
  · exact h
  · exact addVertex_Inv h v

theorem ensure_frame {d d1 : DAG} {v : V} (hok : ensure d v = .ok d1) :
    d1.outboundEdge = d.outboundEdge ∧ d1.inboundEdge = d.inboundEdge ∧
    d1.ancestorsCache = d.ancestorsCache ∧ d1.descendantsCache = d.descendantsCache ∧
    (∀ x, x ∈ d1.vertices ↔ (x ∈ d.vertices ∨ x = v)) ∧ v ∈ d1.vertices := by
  rcases ensure_ok_cases hok with ⟨hv, rfl⟩ | ⟨_, rfl⟩
  · refine ⟨rfl, rfl, rfl, rfl, fun x => ?_, hv⟩
    constructor
    · exact fun hx => Or.inl hx
    · rintro (hx | rfl)
      · exact hx
      · exact hv
  · refine ⟨rfl, rfl, rfl, rfl, fun x => mem_insertSet, ?_⟩
    exact mem_insertSet.mpr (Or.inr rfl)

theorem AddEdge_none_left (d : DAG) (t? : Option V) :
    AddEdge d none t? = (d, some .VertexNilError) := rfl

theorem AddEdge_none_right (d : DAG) (s : V) :
    AddEdge d (some s) none = (d, some .VertexNilError) := rfl

theorem AddEdge_self (d : DAG) {s t : V} (h : s = t) :
    AddEdge d (some s) (some t) = (d, some .SrcDstEqualError) := by
  simp only [AddEdge]
  rw [if_pos h]

theorem AddEdge_src_err {d : DAG} {s t : V} {e : Err} (h1 : s ≠ t)
    (h2 : ensure d s = .error e) :
    AddEdge d (some s) (some t) = (d, some e) := by
  simp only [AddEdge]
  rw [if_neg h1, h2]

theorem AddEdge_dst_err {d d1 : DAG} {s t : V} {e : Err} (h1 : s ≠ t)
    (h2 : ensure d s = .ok d1) (h3 : ensure d1 t = .error e) :
    AddEdge d (some s) (some t) = (d1, some e) := by
  simp only [AddEdge]
  rw [if_neg h1]
  simp only [h2, h3]

theorem AddEdge_dup {d d1 d2 : DAG} {s t : V} (h1 : s ≠ t)
    (h2 : ensure d s = .ok d1) (h3 : ensure d1 t = .ok d2)
    (h4 : isEdge d2 s t) :
    AddEdge d (some s) (some t) = (d2, some .EdgeDuplicateError) := by
  simp only [AddEdge]
  rw [if_neg h1]
  simp only [h2, h3]
  rw [if_pos h4]

theorem AddEdge_loop_eq {d d1 d2 : DAG} {s t : V} (h1 : s ≠ t)
    (h2 : ensure d s = .ok d1) (h3 : ensure d1 t = .ok d2)
    (h4 : ¬ isEdge d2 s t) (h5 : s ∈ (getDescendants d2 t).1) :
    AddEdge d (some s) (some t) =
      ((getAncestors (getDescendants d2 t).2 s).2, some .EdgeLoopError) := by
  simp only [AddEdge]
  rw [if_neg h1]
  simp only [h2, h3]
  rw [if_neg h4, if_pos (Or.inr h5)]

theorem AddEdge_success_eq {d d1 d2 : DAG} {s t : V} (h1 : s ≠ t)
    (h2 : ensure d s = .ok d1) (h3 : ensure d1 t = .ok d2)
    (h4 : ¬ isEdge d2 s t) (h5 : s ∉ (getDescendants d2 t).1) :
    AddEdge d (some s) (some t) =
      ({ (getAncestors (getDescendants d2 t).2 s).2 with
          outboundEdge :=
            insertInner (getAncestors (getDescendants d2 t).2 s).2.outboundEdge s t,
          inboundEdge :=
            insertInner (getAncestors (getDescendants d2 t).2 s).2.inboundEdge t s,
          ancestorsCache :=
            eraseA ((getDescendants d2 t).1.foldl (fun m x => eraseA m x)
              (getAncestors (getDescendants d2 t).2 s).2.ancestorsCache) t,
          descendantsCache :=
            eraseA ((getAncestors (getDescendants d2 t).2 s).1.foldl (fun m x => eraseA m x)
              (getAncestors (getDescendants d2 t).2 s).2.descendantsCache) s }, none) := by
  simp only [AddEdge]
  rw [if_neg h1]
  simp only [h2, h3]
  rw [if_neg h4, if_neg (show ¬(s = t ∨ s ∈ (getDescendants d2 t).1) from by
    rintro (he | hm)
    · exact h1 he
    · exact h5 hm)]

theorem AddEdge_success_spec {d : DAG} (h : Inv d) {src dst : V} {d' : DAG}
    (hcall : AddEdge d (some src) (some dst) = (d', none)) :
    Inv d' ∧ src ≠ dst ∧ ¬ reach d.outboundEdge dst src ∧
    (∀ a b, b ∈ getA d'.outboundEdge a ↔
      (b ∈ getA d.outboundEdge a ∨ (a = src ∧ b = dst))) ∧
    (∀ a b, b ∈ getA d'.inboundEdge a ↔
      (b ∈ getA d.inboundEdge a ∨ (a = dst ∧ b = src))) ∧
    (∀ x, x ∈ d'.vertices ↔ (x ∈ d.vertices ∨ x = src ∨ x = dst)) ∧
    (∀ k, (k = src ∨ reach d.outboundEdge k src) → findA d'.descendantsCache k = none) ∧
    (∀ k w, ¬(k = src ∨ reach d.outboundEdge k src) →
      findA d.descendantsCache k = some w → findA d'.descendantsCache k = some w) ∧
    (∀ k, (k = dst ∨ reach d.outboundEdge dst k) → findA d'.ancestorsCache k = none) ∧
    (∀ k w, ¬(k = dst ∨ reach d.outboundEdge dst k) →
      findA d.ancestorsCache k = some w → findA d'.ancestorsCache k = some w) := by
  by_cases hsd : src = dst
  · rw [AddEdge_self d hsd] at hcall
    injection hcall with _ hb
    exact Option.noConfusion hb
  cases hes : ensure d src with
  | error e =>
    rw [AddEdge_src_err hsd hes] at hcall
    injection hcall with _ hb
    exact Option.noConfusion hb
  | ok d1 =>
  cases het : ensure d1 dst with
  | error e =>
    rw [AddEdge_dst_err hsd hes het] at hcall
    injection hcall with _ hb
    exact Option.noConfusion hb
  | ok d2 =>
  by_cases hdup : isEdge d2 src dst
  · rw [AddEdge_dup hsd hes het hdup] at hcall
    injection hcall with _ hb
    exact Option.noConfusion hb
  by_cases hloop : src ∈ (getDescendants d2 dst).1
  · rw [AddEdge_loop_eq hsd hes het hdup hloop] at hcall
    injection hcall with _ hb
    exact Option.noConfusion hb
  rw [AddEdge_success_eq hsd hes het hdup hloop] at hcall
  injection hcall with ha _
  subst ha
  -- abbreviations and frame facts
  have hf1 := ensure_frame hes
  have hf2 := ensure_frame het
  have hI1 := ensure_Inv h hes
  have hI2 := ensure_Inv hI1 het
  have hout2 : d2.outboundEdge = d.outboundEdge := hf2.1.trans hf1.1
  have hinb2 : d2.inboundEdge = d.inboundEdge := hf2.2.1.trans hf1.2.1
  have hanc2 : d2.ancestorsCache = d.ancestorsCache := hf2.2.2.1.trans hf1.2.2.1
  have hdesc2 : d2.descendantsCache = d.descendantsCache := hf2.2.2.2.1.trans hf1.2.2.2.1
  have hverts2 : ∀ x, x ∈ d2.vertices ↔ (x ∈ d.vertices ∨ x = src ∨ x = dst) := by
    intro x
    rw [hf2.2.2.2.2.1 x, hf1.2.2.2.2.1 x]
    tauto
  obtain ⟨hgd1, hgdInv, hgdverts, hgdids, hgdout, hgdinb, hgdanc, hgdgrow, hgdpop⟩ :=
    getDescendants_spec hI2 dst
  obtain ⟨hga1, hgaInv, hgaverts, hgaids, hgaout, hgainb, hgadesc, hgagrow, hgapop⟩ :=
    getAncestors_spec hgdInv src
  -- the adjacency maps seen by the closure computations are those of `d`
  have hrdout : (getDescendants d2 dst).2.outboundEdge = d.outboundEdge :=
    hgdout.trans hout2
  have hrdinb : (getDescendants d2 dst).2.inboundEdge = d.inboundEdge :=
    hgdinb.trans hinb2
  have hraout :
      (getAncestors (getDescendants d2 dst).2 src).2.outboundEdge = d.outboundEdge :=
    hgaout.trans hrdout
  have hrainb :
      (getAncestors (getDescendants d2 dst).2 src).2.inboundEdge = d.inboundEdge :=
    hgainb.trans hrdinb
  have hraverts :
      ∀ x, x ∈ (getAncestors (getDescendants d2 dst).2 src).2.vertices ↔
        (x ∈ d.vertices ∨ x = src ∨ x = dst) := by
    intro x
    rw [hgaverts, hgdverts]
    exact hverts2 x
  -- membership of the two snapshot closures
  have hrdmem : ∀ u, u ∈ (getDescendants d2 dst).1 ↔ reach d.outboundEdge dst u := by
    intro u
    rw [hgd1 u, hout2]
  have hramem : ∀ u,
      u ∈ (getAncestors (getDescendants d2 dst).2 src).1 ↔
        reach d.outboundEdge u src := by
    intro u
    rw [hga1 u, hrdout]
  have hnr : ¬ reach d.outboundEdge dst src := fun hr => hloop ((hrdmem src).mpr hr)
  -- characterization of the final adjacency maps
  have houtchar : ∀ a b, b ∈ getA
      (insertInner (getAncestors (getDescendants d2 dst).2 src).2.outboundEdge src dst) a ↔
      (b ∈ getA d.outboundEdge a ∨ (a = src ∧ b = dst)) := by
    intro a b
    rw [mem_getA_insertInner, hraout]
  have hinbchar : ∀ a b, b ∈ getA
      (insertInner (getAncestors (getDescendants d2 dst).2 src).2.inboundEdge dst src) a ↔
      (b ∈ getA d.inboundEdge a ∨ (a = dst ∧ b = src)) := by
    intro a b
    rw [mem_getA_insertInner, hrainb]
  -- characterization of the final caches
  have hdchar : ∀ k, findA
      (eraseA ((getAncestors (getDescendants d2 dst).2 src).1.foldl (fun m x => eraseA m x)
        (getAncestors (getDescendants d2 dst).2 src).2.descendantsCache) src) k =
      (if k = src ∨ k ∈ (getAncestors (getDescendants d2 dst).2 src).1 then none
       else findA (getAncestors (getDescendants d2 dst).2 src).2.descendantsCache k) := by
    intro k
    by_cases h1 : k = src
    · rw [h1, findA_eraseA_self, if_pos (Or.inl rfl)]
    · rw [findA_eraseA_ne _ _ _ h1, findA_foldl_eraseA]
      by_cases h2 : k ∈ (getAncestors (getDescendants d2 dst).2 src).1
      · rw [if_pos h2, if_pos (Or.inr h2)]
      · rw [if_neg h2, if_neg (by rintro (he | hm); exact h1 he; exact h2 hm)]
  have hachar : ∀ k, findA
      (eraseA ((getDescendants d2 dst).1.foldl (fun m x => eraseA m x)
        (getAncestors (getDescendants d2 dst).2 src).2.ancestorsCache) dst) k =
      (if k = dst ∨ k ∈ (getDescendants d2 dst).1 then none
       else findA (getAncestors (getDescendants d2 dst).2 src).2.ancestorsCache k) := by
    intro k
    by_cases h1 : k = dst
    · rw [h1, findA_eraseA_self, if_pos (Or.inl rfl)]
    · rw [findA_eraseA_ne _ _ _ h1, findA_foldl_eraseA]
      by_cases h2 : k ∈ (getDescendants d2 dst).1
      · rw [if_pos h2, if_pos (Or.inr h2)]
      · rw [if_neg h2, if_neg (by rintro (he | hm); exact h1 he; exact h2 hm)]
  -- cache-correctness facts about the populated state transported to `d`
  have hraDescOK : ∀ k s, findA (getAncestors (getDescendants d2 dst).2 src).2.descendantsCache
      k = some s → ∀ u, u ∈ s ↔ reach d.outboundEdge k u := by
    intro k s hk u
    have := hgaInv.descOK k s hk u
    rwa [hraout] at this
  have hraAncOK : ∀ k s, findA (getAncestors (getDescendants d2 dst).2 src).2.ancestorsCache
      k = some s → ∀ u, u ∈ s ↔ reach d.outboundEdge u k := by
    intro k s hk u
    have h2 := hgaInv.ancOK k s hk u
    have h3 := hgaInv.reach_inb_iff (a := k) (b := u)
    rw [h3] at h2
    rwa [hraout] at h2
  refine ⟨?_, hsd, hnr, houtchar, hinbchar, hraverts, ?_, ?_, ?_, ?_⟩
  · -- the invariant for the final state
    refine ⟨?_, ?_, ?_, ?_, ?_, ?_, ?_, ?_, ?_, ?_⟩
    · -- vertices nodup
      have : (getAncestors (getDescendants d2 dst).2 src).2.vertices = d2.vertices :=
        hgaverts.trans hgdverts
    -- placeholder
      rw [show ({ (getAncestors (getDescendants d2 dst).2 src).2 with
          outboundEdge := insertInner (getAncestors (getDescendants d2 dst).2 src).2.outboundEdge src dst,
          inboundEdge := insertInner (getAncestors (getDescendants d2 dst).2 src).2.inboundEdge dst src,
          ancestorsCache := eraseA ((getDescendants d2 dst).1.foldl (fun m x => eraseA m x)
            (getAncestors (getDescendants d2 dst).2 src).2.ancestorsCache) dst,
          descendantsCache := eraseA ((getAncestors (getDescendants d2 dst).2 src).1.foldl
            (fun m x => eraseA m x)
            (getAncestors (getDescendants d2 dst).2 src).2.descendantsCache) src } : DAG).vertices
        = (getAncestors (getDescendants d2 dst).2 src).2.vertices from rfl, this]
      exact hI2.vNodup
    · intro a
      exact nodup_getA_insertInner (fun c => by
        have := hgaInv.outNodup c
        exact this)
    · intro a
      exact nodup_getA_insertInner (fun c => hgaInv.inbNodup c)
    · intro a b hb
      rcases (houtchar a b).mp hb with hb2 | ⟨rfl, rfl⟩
      · have hb3 : b ∈ getA d2.outboundEdge a := by rwa [hout2]
        have h2 := hI2.edgeClosed a b hb3
        exact ⟨(hraverts a).mpr ((hverts2 a).mp h2.1),
               (hraverts b).mpr ((hverts2 b).mp h2.2)⟩
      · exact ⟨(hraverts a).mpr (Or.inr (Or.inl rfl)),
               (hraverts b).mpr (Or.inr (Or.inr rfl))⟩
    · intro a b
      rw [houtchar a b, hinbchar b a]
      constructor
      · rintro (hb | ⟨rfl, rfl⟩)
        · exact Or.inl ((h.symm a b).mp hb)
        · exact Or.inr ⟨rfl, rfl⟩
      · rintro (hb | ⟨rfl, rfl⟩)
        · exact Or.inl ((h.symm a b).mpr hb)
        · exact Or.inr ⟨rfl, rfl⟩
    · exact acyc_addedge houtchar h.acyc hsd hnr
    · -- descendants cache correct
      intro k s hk u
      rw [hdchar k] at hk
      by_cases h1 : k = src ∨ k ∈ (getAncestors (getDescendants d2 dst).2 src).1
      · rw [if_pos h1] at hk
        exact Option.noConfusion hk
      · rw [if_neg h1] at hk
        have hkk : ¬(k = src ∨ reach d.outboundEdge k src) := by
          rintro (he | hr)
          · exact h1 (Or.inl he)
          · exact h1 (Or.inr ((hramem k).mpr hr))
        rw [hraDescOK k s hk u]
        exact (reach_addedge_iff houtchar hkk).symm
    · -- ancestors cache correct
      intro k s hk u
      rw [hachar k] at hk
      by_cases h1 : k = dst ∨ k ∈ (getDescendants d2 dst).1
      · rw [if_pos h1] at hk
        exact Option.noConfusion hk
      · rw [if_neg h1] at hk
        have hkk : ¬(k = dst ∨ reach d.inboundEdge k dst) := by
          rintro (he | hr)
          · exact h1 (Or.inl he)
          · exact h1 (Or.inr ((hrdmem k).mpr (h.reach_inb_iff.mp hr)))
        have h2 := hraAncOK k s hk u
        rw [h2]
        have h3 : reach d.inboundEdge k u ↔ reach d.outboundEdge u k :=
          h.reach_inb_iff
        rw [← h3]
        have h4 := reach_addedge_iff (A := d.inboundEdge) hinbchar hkk (u := u)
        rw [h4]
    · -- descendants cache closed
      intro k s hk u hu
      rw [hdchar k] at hk
      by_cases h1 : k = src ∨ k ∈ (getAncestors (getDescendants d2 dst).2 src).1
      · rw [if_pos h1] at hk
        exact Option.noConfusion hk
      · rw [if_neg h1] at hk
        have hru : reach d.outboundEdge k u := (hraDescOK k s hk u).mp hu
        have hune : ¬(u = src ∨ u ∈ (getAncestors (getDescendants d2 dst).2 src).1) := by
          rintro (rfl | hm)
          · exact h1 (Or.inr ((hramem k).mpr hru))
          · have : reach d.outboundEdge u src := (hramem u).mp hm
            exact h1 (Or.inr ((hramem k).mpr (reach_trans hru this)))
        have h2 := hgaInv.descClosed k s hk u hu
        rw [show (({ (getAncestors (getDescendants d2 dst).2 src).2 with
          outboundEdge := insertInner (getAncestors (getDescendants d2 dst).2 src).2.outboundEdge src dst,
          inboundEdge := insertInner (getAncestors (getDescendants d2 dst).2 src).2.inboundEdge dst src,
          ancestorsCache := eraseA ((getDescendants d2 dst).1.foldl (fun m x => eraseA m x)
            (getAncestors (getDescendants d2 dst).2 src).2.ancestorsCache) dst,
          descendantsCache := eraseA ((getAncestors (getDescendants d2 dst).2 src).1.foldl
            (fun m x => eraseA m x)
            (getAncestors (getDescendants d2 dst).2 src).2.descendantsCache) src } : DAG).descendantsCache)
          = eraseA ((getAncestors (getDescendants d2 dst).2 src).1.foldl
            (fun m x => eraseA m x)
            (getAncestors (getDescendants d2 dst).2 src).2.descendantsCache) src from rfl]
        rw [hdchar u, if_neg hune]
        exact h2
    · -- ancestors cache closed
      intro k s hk u hu
      rw [hachar k] at hk
      by_cases h1 : k = dst ∨ k ∈ (getDescendants d2 dst).1
      · rw [if_pos h1] at hk
        exact Option.noConfusion hk
      · rw [if_neg h1] at hk
        have hru : reach d.outboundEdge u k := (hraAncOK k s hk u).mp hu
        have hune : ¬(u = dst ∨ u ∈ (getDescendants d2 dst).1) := by
          rintro (rfl | hm)
          · exact h1 (Or.inr ((hrdmem k).mpr hru))
          · have : reach d.outboundEdge dst u := (hrdmem u).mp hm
            exact h1 (Or.inr ((hrdmem k).mpr (reach_trans this hru)))
        have h2 := hgaInv.ancClosed k s hk u hu
        rw [show (({ (getAncestors (getDescendants d2 dst).2 src).2 with
          outboundEdge := insertInner (getAncestors (getDescendants d2 dst).2 src).2.outboundEdge src dst,
          inboundEdge := insertInner (getAncestors (getDescendants d2 dst).2 src).2.inboundEdge dst src,
          ancestorsCache := eraseA ((getDescendants d2 dst).1.foldl (fun m x => eraseA m x)
            (getAncestors (getDescendants d2 dst).2 src).2.ancestorsCache) dst,
          descendantsCache := eraseA ((getAncestors (getDescendants d2 dst).2 src).1.foldl
            (fun m x => eraseA m x)
            (getAncestors (getDescendants d2 dst).2 src).2.descendantsCache) src } : DAG).ancestorsCache)
          = eraseA ((getDescendants d2 dst).1.foldl (fun m x => eraseA m x)
            (getAncestors (getDescendants d2 dst).2 src).2.ancestorsCache) dst from rfl]
        rw [hachar u, if_neg hune]
        exact h2
  · -- erased descendant entries
    intro k hk
    rw [show (({ (getAncestors (getDescendants d2 dst).2 src).2 with
          outboundEdge := insertInner (getAncestors (getDescendants d2 dst).2 src).2.outboundEdge src dst,
          inboundEdge := insertInner (getAncestors (getDescendants d2 dst).2 src).2.inboundEdge dst src,
          ancestorsCache := eraseA ((getDescendants d2 dst).1.foldl (fun m x => eraseA m x)
            (getAncestors (getDescendants d2 dst).2 src).2.ancestorsCache) dst,
          descendantsCache := eraseA ((getAncestors (getDescendants d2 dst).2 src).1.foldl
            (fun m x => eraseA m x)
            (getAncestors (getDescendants d2 dst).2 src).2.descendantsCache) src } : DAG).descendantsCache)
          = eraseA ((getAncestors (getDescendants d2 dst).2 src).1.foldl
            (fun m x => eraseA m x)
            (getAncestors (getDescendants d2 dst).2 src).2.descendantsCache) src from rfl]
    rw [hdchar k, if_pos ?_]
    rcases hk with rfl | hr
    · exact Or.inl rfl
    · exact Or.inr ((hramem k).mpr hr)
  · -- kept descendant entries
    intro k w hk hw
    rw [show (({ (getAncestors (getDescendants d2 dst).2 src).2 with
          outboundEdge := insertInner (getAncestors (getDescendants d2 dst).2 src).2.outboundEdge src dst,
          inboundEdge := insertInner (getAncestors (getDescendants d2 dst).2 src).2.inboundEdge dst src,
          ancestorsCache := eraseA ((getDescendants d2 dst).1.foldl (fun m x => eraseA m x)
            (getAncestors (getDescendants d2 dst).2 src).2.ancestorsCache) dst,
          descendantsCache := eraseA ((getAncestors (getDescendants d2 dst).2 src).1.foldl
            (fun m x => eraseA m x)
            (getAncestors (getDescendants d2 dst).2 src).2.descendantsCache) src } : DAG).descendantsCache)
          = eraseA ((getAncestors (getDescendants d2 dst).2 src).1.foldl
            (fun m x => eraseA m x)
            (getAncestors (getDescendants d2 dst).2 src).2.descendantsCache) src from rfl]
    rw [hdchar k, if_neg ?_]
    · rw [hgadesc]
      refine hgdgrow k w ?_
      rwa [hdesc2]
    · rintro (he | hm)
      · exact hk (Or.inl he)
      · exact hk (Or.inr ((hramem k).mp hm))
  · -- erased ancestor entries
    intro k hk
    rw [show (({ (getAncestors (getDescendants d2 dst).2 src).2 with
          outboundEdge := insertInner (getAncestors (getDescendants d2 dst).2 src).2.outboundEdge src dst,
          inboundEdge := insertInner (getAncestors (getDescendants d2 dst).2 src).2.inboundEdge dst src,
          ancestorsCache := eraseA ((getDescendants d2 dst).1.foldl (fun m x => eraseA m x)
            (getAncestors (getDescendants d2 dst).2 src).2.ancestorsCache) dst,
          descendantsCache := eraseA ((getAncestors (getDescendants d2 dst).2 src).1.foldl
            (fun m x => eraseA m x)
            (getAncestors (getDescendants d2 dst).2 src).2.descendantsCache) src } : DAG).ancestorsCache)
          = eraseA ((getDescendants d2 dst).1.foldl (fun m x => eraseA m x)
            (getAncestors (getDescendants d2 dst).2 src).2.ancestorsCache) dst from rfl]
    rw [hachar k, if_pos ?_]
    rcases hk with rfl | hr
    · exact Or.inl rfl
    · exact Or.inr ((hrdmem k).mpr hr)
  · -- kept ancestor entries
    intro k w hk hw
    rw [show (({ (getAncestors (getDescendants d2 dst).2 src).2 with
          outboundEdge := insertInner (getAncestors (getDescendants d2 dst).2 src).2.outboundEdge src dst,
          inboundEdge := insertInner (getAncestors (getDescendants d2 dst).2 src).2.inboundEdge dst src,
          ancestorsCache := eraseA ((getDescendants d2 dst).1.foldl (fun m x => eraseA m x)
            (getAncestors (getDescendants d2 dst).2 src).2.ancestorsCache) dst,
          descendantsCache := eraseA ((getAncestors (getDescendants d2 dst).2 src).1.foldl
            (fun m x => eraseA m x)
            (getAncestors (getDescendants d2 dst).2 src).2.descendantsCache) src } : DAG).ancestorsCache)
          = eraseA ((getDescendants d2 dst).1.foldl (fun m x => eraseA m x)
            (getAncestors (getDescendants d2 dst).2 src).2.ancestorsCache) dst from rfl]
    rw [hachar k, if_neg ?_]
    · refine hgagrow k w ?_
      have h2 : (getDescendants d2 dst).2.ancestorsCache = d.ancestorsCache :=
        hgdanc.trans hanc2
      rwa [h2]
    · rintro (he | hm)
      · exact hk (Or.inl he)
      · exact hk (Or.inr ((hrdmem k).mp hm))

theorem AddEdge_error_spec {d : DAG} (h : Inv d) {src? dst? : Option V} {d' : DAG} {e : Err}
    (hcall : AddEdge d src? dst? = (d', some e)) :
    Inv d' ∧
    d'.outboundEdge = d.outboundEdge ∧ d'.inboundEdge = d.inboundEdge ∧
    (∀ k w, findA d.descendantsCache k = some w → findA d'.descendantsCache k = some w) ∧
    (∀ k w, findA d.ancestorsCache k = some w → findA d'.ancestorsCache k = some w) ∧
    ((e = .VertexNilError ∨ e = .SrcDstEqualError ∨ e = .EdgeDuplicateError) → d' = d) ∧
    (e = .IdDuplicateError →
      (d' = d ∨ ∃ sv, src? = some sv ∧ d' = addVertex d sv)) ∧
    (e = .EdgeLoopError → d'.vertices = d.vertices ∧ d'.vertexIds = d.vertexIds) := by
  cases src? with
  | none =>
    rw [AddEdge_none_left] at hcall
    injection hcall with ha hb
    injection hb with hb
    subst ha
    subst hb
    refine ⟨h, rfl, rfl, fun k w hw => hw, fun k w hw => hw, fun _ => rfl, ?_, ?_⟩
    · intro he
      cases he
    · intro he
      cases he
  | some src =>
  cases dst? with
  | none =>
    rw [AddEdge_none_right] at hcall
    injection hcall with ha hb
    injection hb with hb
    subst ha
    subst hb
    refine ⟨h, rfl, rfl, fun k w hw => hw, fun k w hw => hw, fun _ => rfl, ?_, ?_⟩
    · intro he
      cases he
    · intro he
      cases he
  | some dst =>
  by_cases hsd : src = dst
  · rw [AddEdge_self d hsd] at hcall
    injection hcall with ha hb
    injection hb with hb
    subst ha
    subst hb
    refine ⟨h, rfl, rfl, fun k w hw => hw, fun k w hw => hw, fun _ => rfl, ?_, ?_⟩
    · intro he
      cases he
    · intro he
      cases he
  cases hes : ensure d src with
  | error e2 =>
    rw [AddEdge_src_err hsd hes] at hcall
    injection hcall with ha hb
    injection hb with hb
    subst ha
    subst hb
    have h2 := ensure_err hes
    refine ⟨h, rfl, rfl, fun k w hw => hw, fun k w hw => hw, fun _ => rfl,
      fun _ => Or.inl rfl, ?_⟩
    intro he
    rw [h2.1] at he
    cases he
  | ok d1 =>
  cases het : ensure d1 dst with
  | error e2 =>
    rw [AddEdge_dst_err hsd hes het] at hcall
    injection hcall with ha hb
    injection hb with hb
    subst ha
    subst hb
    have h2 := ensure_err het
    have hf1 := ensure_frame hes
    refine ⟨ensure_Inv h hes, hf1.1, hf1.2.1, ?_, ?_, ?_, ?_, ?_⟩
    · intro k w hw
      rw [hf1.2.2.2.1]
      exact hw
    · intro k w hw
      rw [hf1.2.2.1]
      exact hw
    · intro he
      rw [h2.1] at he
      rcases he with he | he | he
      · cases he
      · cases he
      · cases he
    · intro _
      rcases ensure_ok_cases hes with ⟨_, rfl⟩ | ⟨_, h4⟩
      · exact Or.inl rfl
      · exact Or.inr ⟨src, rfl, h4⟩
    · intro he
      rw [h2.1] at he
      cases he
  | ok d2 =>
  by_cases hdup : isEdge d2 src dst
  · rw [AddEdge_dup hsd hes het hdup] at hcall
    injection hcall with ha hb
    injection hb with hb
    subst ha
    subst hb
    -- a duplicate edge forces both endpoints to have been known already
    have hf1 := ensure_frame hes
    have hf2 := ensure_frame het
    have hout2 : d2.outboundEdge = d.outboundEdge := hf2.1.trans hf1.1
    have hedge : dst ∈ getA d.outboundEdge src := by
      have h2 := hdup.1
      rwa [hout2] at h2
    have hsrcv : src ∈ d.vertices := (h.edgeClosed src dst hedge).1
    have hdstv : dst ∈ d.vertices := (h.edgeClosed src dst hedge).2
    have h3 : d1 = d := by
      have h5 := ensure_mem hsrcv
      rw [hes] at h5
      exact Except.ok.inj h5
    subst h3
    have h4 : d2 = d1 := by
      have h5 := ensure_mem hdstv
      rw [het] at h5
      exact Except.ok.inj h5
    subst h4
    refine ⟨h, rfl, rfl, fun k w hw => hw, fun k w hw => hw, fun _ => rfl, ?_, ?_⟩
    · intro he
      cases he
    · intro he
      cases he
  by_cases hloop : src ∈ (getDescendants d2 dst).1
  · rw [AddEdge_loop_eq hsd hes het hdup hloop] at hcall
    injection hcall with ha hb
    injection hb with hb
    subst ha
    subst hb
    -- a loop rejection forces both endpoints to have been known already
    have hf1 := ensure_frame hes
    have hf2 := ensure_frame het
    have hout2 : d2.outboundEdge = d.outboundEdge := hf2.1.trans hf1.1
    have hI1 := ensure_Inv h hes
    have hI2 := ensure_Inv hI1 het
    obtain ⟨hgd1, hgdInv, hgdverts, hgdids, hgdout, hgdinb, hgdanc, hgdgrow, hgdpop⟩ :=
      getDescendants_spec hI2 dst
    have hreach : reach d.outboundEdge dst src := by
      have h2 := (hgd1 src).mp hloop
      rwa [hout2] at h2
    have hsrcv : src ∈ d.vertices := h.outReachMem hreach
    have hdstv : dst ∈ d.vertices := h.outReachSrcMem hreach
    have h3 : d1 = d := by
      have h5 := ensure_mem hsrcv
      rw [hes] at h5
      exact Except.ok.inj h5
    subst h3
    have h4 : d2 = d1 := by
      have h5 := ensure_mem hdstv
      rw [het] at h5
      exact Except.ok.inj h5
    subst h4
    obtain ⟨hga1, hgaInv, hgaverts, hgaids, hgaout, hgainb, hgadesc, hgagrow, hgapop⟩ :=
      getAncestors_spec hgdInv src
    refine ⟨hgaInv, hgaout.trans hgdout, hgainb.trans hgdinb, ?_, ?_, ?_, ?_, ?_⟩
    · intro k w hw
      rw [hgadesc]
      exact hgdgrow k w hw
    · intro k w hw
      refine hgagrow k w ?_
      rw [hgdanc]
      exact hw
    · rintro (he | he | he)
      · cases he
      · cases he
      · cases he
    · intro he
      cases he
    · intro _
      exact ⟨hgaverts.trans hgdverts, hgaids.trans hgdids⟩
  · rw [AddEdge_success_eq hsd hes het hdup hloop] at hcall
    injection hcall with _ hb
    exact Option.noConfusion hb

theorem AddEdge_Inv {d : DAG} (h : Inv d) (s? t? : Option V) :
    Inv (AddEdge d s? t?).1 := by
  cases s? with
  | none => exact h
  | some s =>
    cases t? with
    | none => exact h
    | some t =>
      cases hsnd : (AddEdge d (some s) (some t)).2 with
      | none => exact (AddEdge_success_spec h (by rw [← hsnd])).1
      | some e => exact (AddEdge_error_spec h (by rw [← hsnd])).1

/-!  Dissection and specification of `DeleteEdge`. -/

theorem saneVertex_none (d : DAG) : saneVertex d none = some .VertexNilError := rfl

theorem saneVertex_mem {d : DAG} {v : V} (h : v ∈ d.vertices) :
    saneVertex d (some v) = none := by
  simp only [saneVertex]
  rw [if_pos h]

theorem saneVertex_not_mem {d : DAG} {v : V} (h : v ∉ d.vertices) :
    saneVertex d (some v) = some .VertexUnknownError := by
  simp only [saneVertex]
  rw [if_neg h]

theorem saneVertex_none_inv {d : DAG} {v? : Option V} (h : saneVertex d v? = none) :
    ∃ v, v? = some v ∧ v ∈ d.vertices := by
  cases v? with
  | none => exact Option.noConfusion h
  | some v =>
    refine ⟨v, rfl, ?_⟩
    by_contra hv
    rw [saneVertex_not_mem hv] at h
    exact Option.noConfusion h

theorem DeleteEdge_sane_src {d : DAG} {src? dst? : Option V} {e : Err}
    (h : saneVertex d src? = some e) :
    DeleteEdge d src? dst? = (d, some e) := by
  unfold DeleteEdge
  rw [h]

theorem DeleteEdge_sane_dst {d : DAG} {src? dst? : Option V} {e : Err}
    (h1 : saneVertex d src? = none) (h2 : saneVertex d dst? = some e) :
    DeleteEdge d src? dst? = (d, some e) := by
  unfold DeleteEdge
  rw [h1, h2]

theorem DeleteEdge_self {d : DAG} {s t : V}
    (h1 : saneVertex d (some s) = none) (h2 : saneVertex d (some t) = none)
    (h : s = t) :
    DeleteEdge d (some s) (some t) = (d, some .SrcDstEqualError) := by
  unfold DeleteEdge
  rw [h1, h2]
  simp only
  rw [if_pos h]

theorem DeleteEdge_unknown {d : DAG} {s t : V}
    (h1 : saneVertex d (some s) = none) (h2 : saneVertex d (some t) = none)
    (hst : s ≠ t) (hne : ¬ isEdge d s t) :
    DeleteEdge d (some s) (some t) = (d, some .EdgeUnknownError) := by
  unfold DeleteEdge
  rw [h1, h2]
  simp only
  rw [if_neg hst, if_pos hne]

theorem DeleteEdge_success_eq {d : DAG} {s t : V}
    (h1 : saneVertex d (some s) = none) (h2 : saneVertex d (some t) = none)
    (hst : s ≠ t) (he : isEdge d s t) :
    DeleteEdge d (some s) (some t) =
      ({ (getAncestors (getDescendants d s).2 t).2 with
          outboundEdge :=
            eraseInner (getAncestors (getDescendants d s).2 t).2.outboundEdge s t,
          inboundEdge :=
            eraseInner (getAncestors (getDescendants d s).2 t).2.inboundEdge t s,
          ancestorsCache :=
            eraseA ((getDescendants d s).1.foldl (fun m x => eraseA m x)
              (getAncestors (getDescendants d s).2 t).2.ancestorsCache) s,
          descendantsCache :=
            eraseA ((getAncestors (getDescendants d s).2 t).1.foldl (fun m x => eraseA m x)
              (getAncestors (getDescendants d s).2 t).2.descendantsCache) t }, none) := by
  unfold DeleteEdge
  rw [h1, h2]
  simp only
  rw [if_neg hst, if_neg (show ¬¬ isEdge d s t from fun hn => hn he)]

theorem DeleteEdge_success_spec {d : DAG} (h : Inv d) {s t : V} {d' : DAG}
    (hcall : DeleteEdge d (some s) (some t) = (d', none)) :
    Inv d' ∧ s ∈ d.vertices ∧ t ∈ d.vertices ∧ s ≠ t ∧ isEdge d s t ∧
    (∀ a b, b ∈ getA d'.outboundEdge a ↔
      (b ∈ getA d.outboundEdge a ∧ ¬(a = s ∧ b = t))) ∧
    (∀ a b, b ∈ getA d'.inboundEdge a ↔
      (b ∈ getA d.inboundEdge a ∧ ¬(a = t ∧ b = s))) ∧
    d'.vertices = d.vertices ∧ d'.vertexIds = d.vertexIds := by
  have hs : s ∈ d.vertices := by
    by_contra hv
    rw [DeleteEdge_sane_src (saneVertex_not_mem hv)] at hcall
    injection hcall with _ hb
    exact Option.noConfusion hb
  have ht : t ∈ d.vertices := by
    by_contra hv
    rw [DeleteEdge_sane_dst (saneVertex_mem hs) (saneVertex_not_mem hv)] at hcall
    injection hcall with _ hb
    exact Option.noConfusion hb
  by_cases hst : s = t
  · rw [DeleteEdge_self (saneVertex_mem hs) (saneVertex_mem ht) hst] at hcall
    injection hcall with _ hb
    exact Option.noConfusion hb
  by_cases hie : isEdge d s t
  swap
  · rw [DeleteEdge_unknown (saneVertex_mem hs) (saneVertex_mem ht) hst hie] at hcall
    injection hcall with _ hb
    exact Option.noConfusion hb
  rw [DeleteEdge_success_eq (saneVertex_mem hs) (saneVertex_mem ht) hst hie] at hcall
  injection hcall with ha _
  subst ha
  obtain ⟨hgd1, hgdInv, hgdverts, hgdids, hgdout, hgdinb, hgdanc, hgdgrow, hgdpop⟩ :=
    getDescendants_spec h s
  obtain ⟨hga1, hgaInv, hgaverts, hgaids, hgaout, hgainb, hgadesc, hgagrow, hgapop⟩ :=
    getAncestors_spec hgdInv t
  have hraout : (getAncestors (getDescendants d s).2 t).2.outboundEdge = d.outboundEdge :=
    hgaout.trans hgdout
  have hrainb : (getAncestors (getDescendants d s).2 t).2.inboundEdge = d.inboundEdge :=
    hgainb.trans hgdinb
  have hrdmem : ∀ u, u ∈ (getDescendants d s).1 ↔ reach d.outboundEdge s u := hgd1
  have hramem : ∀ u,
      u ∈ (getAncestors (getDescendants d s).2 t).1 ↔ reach d.outboundEdge u t := by
    intro u
    rw [hga1 u, hgdout]
  have hedge : t ∈ getA d.outboundEdge s := hie.1
  have houtchar : ∀ a b, b ∈ getA
      (eraseInner (getAncestors (getDescendants d s).2 t).2.outboundEdge s t) a ↔
      (b ∈ getA d.outboundEdge a ∧ ¬(a = s ∧ b = t)) := by
    intro a b
    rw [mem_getA_eraseInner, hraout]
  have hinbchar : ∀ a b, b ∈ getA
      (eraseInner (getAncestors (getDescendants d s).2 t).2.inboundEdge t s) a ↔
      (b ∈ getA d.inboundEdge a ∧ ¬(a = t ∧ b = s)) := by
    intro a b
    rw [mem_getA_eraseInner, hrainb]
  -- cache characterizations
  have hdchar : ∀ k, findA
      (eraseA ((getAncestors (getDescendants d s).2 t).1.foldl (fun m x => eraseA m x)
        (getAncestors (getDescendants d s).2 t).2.descendantsCache) t) k =
      (if k = t ∨ k ∈ (getAncestors (getDescendants d s).2 t).1 then none
       else findA (getAncestors (getDescendants d s).2 t).2.descendantsCache k) := by
    intro k
    by_cases hk1 : k = t
    · rw [hk1, findA_eraseA_self, if_pos (Or.inl rfl)]
    · rw [findA_eraseA_ne _ _ _ hk1, findA_foldl_eraseA]
      by_cases hk2 : k ∈ (getAncestors (getDescendants d s).2 t).1
      · rw [if_pos hk2, if_pos (Or.inr hk2)]
      · rw [if_neg hk2, if_neg (by rintro (he2 | hm); exact hk1 he2; exact hk2 hm)]
  have hachar : ∀ k, findA
      (eraseA ((getDescendants d s).1.foldl (fun m x => eraseA m x)
        (getAncestors (getDescendants d s).2 t).2.ancestorsCache) s) k =
      (if k = s ∨ k ∈ (getDescendants d s).1 then none
       else findA (getAncestors (getDescendants d s).2 t).2.ancestorsCache k) := by
    intro k
    by_cases hk1 : k = s
    · rw [hk1, findA_eraseA_self, if_pos (Or.inl rfl)]
    · rw [findA_eraseA_ne _ _ _ hk1, findA_foldl_eraseA]
      by_cases hk2 : k ∈ (getDescendants d s).1
      · rw [if_pos hk2, if_pos (Or.inr hk2)]
      · rw [if_neg hk2, if_neg (by rintro (he2 | hm); exact hk1 he2; exact hk2 hm)]
  have hraDescOK : ∀ k w, findA (getAncestors (getDescendants d s).2 t).2.descendantsCache
      k = some w → ∀ u, u ∈ w ↔ reach d.outboundEdge k u := by
    intro k w hk u
    have h2 := hgaInv.descOK k w hk u
    rwa [hraout] at h2
  have hraAncOK : ∀ k w, findA (getAncestors (getDescendants d s).2 t).2.ancestorsCache
      k = some w → ∀ u, u ∈ w ↔ reach d.outboundEdge u k := by
    intro k w hk u
    have h2 := hgaInv.ancOK k w hk u
    have h3 := hgaInv.reach_inb_iff (a := k) (b := u)
    rw [h3] at h2
    rwa [hraout] at h2
  refine ⟨?_, hs, ht, hst, hie, houtchar, hinbchar,
    hgaverts.trans hgdverts, hgaids.trans hgdids⟩
  refine ⟨?_, ?_, ?_, ?_, ?_, ?_, ?_, ?_, ?_, ?_⟩
  · rw [show ({ (getAncestors (getDescendants d s).2 t).2 with
        outboundEdge := eraseInner (getAncestors (getDescendants d s).2 t).2.outboundEdge s t,
        inboundEdge := eraseInner (getAncestors (getDescendants d s).2 t).2.inboundEdge t s,
        ancestorsCache := eraseA ((getDescendants d s).1.foldl (fun m x => eraseA m x)
          (getAncestors (getDescendants d s).2 t).2.ancestorsCache) s,
        descendantsCache := eraseA ((getAncestors (getDescendants d s).2 t).1.foldl
          (fun m x => eraseA m x)
          (getAncestors (getDescendants d s).2 t).2.descendantsCache) t } : DAG).vertices
      = (getAncestors (getDescendants d s).2 t).2.vertices from rfl,
      hgaverts.trans hgdverts]
    exact h.vNodup
  · intro a
    exact nodup_getA_eraseInner (fun c => hgaInv.outNodup c)
  · intro a
    exact nodup_getA_eraseInner (fun c => hgaInv.inbNodup c)
  · intro a b hb
    rcases (houtchar a b).mp hb with ⟨hb2, _⟩
    have h2 := h.edgeClosed a b hb2
    have hvv : ∀ x, x ∈ (getAncestors (getDescendants d s).2 t).2.vertices ↔
        x ∈ d.vertices := by
      intro x
      rw [hgaverts.trans hgdverts]
    exact ⟨(hvv a).mpr h2.1, (hvv b).mpr h2.2⟩
  · intro a b
    rw [houtchar a b, hinbchar b a]
    constructor
    · rintro ⟨hb, hne⟩
      refine ⟨(h.symm a b).mp hb, ?_⟩
      rintro ⟨rfl, rfl⟩
      exact hne ⟨rfl, rfl⟩
    · rintro ⟨hb, hne⟩
      refine ⟨(h.symm a b).mpr hb, ?_⟩
      rintro ⟨rfl, rfl⟩
      exact hne ⟨rfl, rfl⟩
  · intro x hx
    have h2 : reach d.outboundEdge x x :=
      Relation.TransGen.mono (fun a b hab => ((houtchar a b).mp hab).1) hx
    exact h.acyc x h2
  · -- descendants cache correct
    intro k w hk u
    rw [hdchar k] at hk
    by_cases hk1 : k = t ∨ k ∈ (getAncestors (getDescendants d s).2 t).1
    · rw [if_pos hk1] at hk
      exact Option.noConfusion hk
    · rw [if_neg hk1] at hk
      have hkk : ¬(k = t ∨ reach d.outboundEdge k t) := by
        rintro (he2 | hr)
        · exact hk1 (Or.inl he2)
        · exact hk1 (Or.inr ((hramem k).mpr hr))
      have hks : ¬(k = s ∨ reach d.outboundEdge k s) := by
        rintro (rfl | hr)
        · exact hkk (Or.inr (reach_single hedge))
        · exact hkk (Or.inr (reach_tail hr hedge))
      rw [hraDescOK k w hk u]
      exact (reach_delete_edge_iff houtchar hks).symm
  · -- ancestors cache correct
    intro k w hk u
    rw [hachar k] at hk
    by_cases hk1 : k = s ∨ k ∈ (getDescendants d s).1
    · rw [if_pos hk1] at hk
      exact Option.noConfusion hk
    · rw [if_neg hk1] at hk
      have hkk : ¬(k = s ∨ reach d.outboundEdge s k) := by
        rintro (he2 | hr)
        · exact hk1 (Or.inl he2)
        · exact hk1 (Or.inr ((hrdmem k).mpr hr))
      have hkt : ¬(k = t ∨ reach d.inboundEdge k t) := by
        rintro (he2 | hr)
        · rw [he2] at hkk
          exact hkk (Or.inr (reach_single hedge))
        · have hr2 : reach d.outboundEdge t k := h.reach_inb_iff.mp hr
          exact hkk (Or.inr (reach_head hedge hr2))
      have h2 := hraAncOK k w hk u
      rw [h2]
      have h3 : reach d.inboundEdge k u ↔ reach d.outboundEdge u k := h.reach_inb_iff
      rw [← h3]
      exact (reach_delete_edge_iff (A := d.inboundEdge) hinbchar hkt).symm
  · -- descendants cache closed
    intro k w hk u hu
    rw [hdchar k] at hk
    by_cases hk1 : k = t ∨ k ∈ (getAncestors (getDescendants d s).2 t).1
    · rw [if_pos hk1] at hk
      exact Option.noConfusion hk
    · rw [if_neg hk1] at hk
      have hru : reach d.outboundEdge k u := (hraDescOK k w hk u).mp hu
      have hune : ¬(u = t ∨ u ∈ (getAncestors (getDescendants d s).2 t).1) := by
        rintro (rfl | hm)
        · exact hk1 (Or.inr ((hramem k).mpr hru))
        · have h2 : reach d.outboundEdge u t := (hramem u).mp hm
          exact hk1 (Or.inr ((hramem k).mpr (reach_trans hru h2)))
      have h2 := hgaInv.descClosed k w hk u hu
      rw [show ({ (getAncestors (getDescendants d s).2 t).2 with
          outboundEdge := eraseInner (getAncestors (getDescendants d s).2 t).2.outboundEdge s t,
          inboundEdge := eraseInner (getAncestors (getDescendants d s).2 t).2.inboundEdge t s,
          ancestorsCache := eraseA ((getDescendants d s).1.foldl (fun m x => eraseA m x)
            (getAncestors (getDescendants d s).2 t).2.ancestorsCache) s,
          descendantsCache := eraseA ((getAncestors (getDescendants d s).2 t).1.foldl
            (fun m x => eraseA m x)
            (getAncestors (getDescendants d s).2 t).2.descendantsCache) t } : DAG).descendantsCache
        = eraseA ((getAncestors (getDescendants d s).2 t).1.foldl
            (fun m x => eraseA m x)
            (getAncestors (getDescendants d s).2 t).2.descendantsCache) t from rfl]
      rw [hdchar u, if_neg hune]
      exact h2
  · -- ancestors cache closed
    intro k w hk u hu
    rw [hachar k] at hk
    by_cases hk1 : k = s ∨ k ∈ (getDescendants d s).1
    · rw [if_pos hk1] at hk
      exact Option.noConfusion hk
    · rw [if_neg hk1] at hk
      have hru : reach d.outboundEdge u k := (hraAncOK k w hk u).mp hu
      have hune : ¬(u = s ∨ u ∈ (getDescendants d s).1) := by
        rintro (rfl | hm)
        · exact hk1 (Or.inr ((hrdmem k).mpr hru))
        · have h2 : reach d.outboundEdge s u := (hrdmem u).mp hm
          exact hk1 (Or.inr ((hrdmem k).mpr (reach_trans h2 hru)))
      have h2 := hgaInv.ancClosed k w hk u hu
      rw [show ({ (getAncestors (getDescendants d s).2 t).2 with
          outboundEdge := eraseInner (getAncestors (getDescendants d s).2 t).2.outboundEdge s t,
          inboundEdge := eraseInner (getAncestors (getDescendants d s).2 t).2.inboundEdge t s,
          ancestorsCache := eraseA ((getDescendants d s).1.foldl (fun m x => eraseA m x)
            (getAncestors (getDescendants d s).2 t).2.ancestorsCache) s,
          descendantsCache := eraseA ((getAncestors (getDescendants d s).2 t).1.foldl
            (fun m x => eraseA m x)
            (getAncestors (getDescendants d s).2 t).2.descendantsCache) t } : DAG).ancestorsCache
        = eraseA ((getDescendants d s).1.foldl (fun m x => eraseA m x)
            (getAncestors (getDescendants d s).2 t).2.ancestorsCache) s from rfl]
      rw [hachar u, if_neg hune]
      exact h2

theorem DeleteEdge_Inv {d : DAG} (h : Inv d) (s? t? : Option V) :
    Inv (DeleteEdge d s? t?).1 := by
  cases hsnd : (DeleteEdge d s? t?).2 with
  | none =>
    cases hs1 : saneVertex d s? with
    | some e =>
      rw [show (DeleteEdge d s? t?).2 = (d, some e).2 from by
        rw [← DeleteEdge_sane_src hs1]] at hsnd
      exact Option.noConfusion hsnd
    | none =>
      rcases saneVertex_none_inv hs1 with ⟨s, rfl, _⟩
      cases ht1 : saneVertex d t? with
      | some e =>
        rw [show (DeleteEdge d (some s) t?).2 = (d, some e).2 from by
          rw [← DeleteEdge_sane_dst hs1 ht1]] at hsnd
        exact Option.noConfusion hsnd
      | none =>
        rcases saneVertex_none_inv ht1 with ⟨t, rfl, _⟩
        exact (DeleteEdge_success_spec h (by rw [← hsnd])).1
  | some e =>
    -- every error branch returns the state unchanged
    cases hs1 : saneVertex d s? with
    | some e2 =>
      rw [show (DeleteEdge d s? t?).1 = (d, some e2).1 from by
        rw [← DeleteEdge_sane_src hs1]]
      exact h
    | none =>
      rcases saneVertex_none_inv hs1 with ⟨s, rfl, _⟩
      cases ht1 : saneVertex d t? with
      | some e2 =>
        rw [show (DeleteEdge d (some s) t?).1 = (d, some e2).1 from by
          rw [← DeleteEdge_sane_dst hs1 ht1]]
        exact h
      | none =>
        rcases saneVertex_none_inv ht1 with ⟨t, rfl, _⟩
        by_cases hst : s = t
        · rw [show (DeleteEdge d (some s) (some t)).1 = (d, some Err.SrcDstEqualError).1 from by
            rw [← DeleteEdge_self hs1 ht1 hst]]
          exact h
        by_cases hie : isEdge d s t
        · rw [show (DeleteEdge d (some s) (some t)).2 = none from by
            rw [DeleteEdge_success_eq hs1 ht1 hst hie]] at hsnd
          exact Option.noConfusion hsnd
        · rw [show (DeleteEdge d (some s) (some t)).1 = (d, some Err.EdgeUnknownError).1 from by
            rw [← DeleteEdge_unknown hs1 ht1 hst hie]]
          exact h

/-!  Dissection and specification of `DeleteVertex`. -/

theorem getA_eraseA_self {m : AdjMap} {k : V} : getA (eraseA m k) k = [] := by
  rw [getA, findA_eraseA_self]
  rfl

theorem getA_eraseA_ne {m : AdjMap} {k a : V} (h : a ≠ k) :
    getA (eraseA m k) a = getA m a := by
  rw [getA, findA_eraseA_ne _ _ _ h, getA]

theorem mem_getA_foldl_eraseInner {P : List V} {m : AdjMap} {v a b : V} :
    b ∈ getA (P.foldl (fun m p => eraseInner m p v) m) a ↔
      (b ∈ getA m a ∧ ¬(a ∈ P ∧ b = v)) := by
  induction P generalizing m with
  | nil => simp
  | cons p P ih =>
    rw [List.foldl_cons, ih, mem_getA_eraseInner]
    simp only [List.mem_cons]
    constructor
    · rintro ⟨⟨h1, h2⟩, h3⟩
      refine ⟨h1, ?_⟩
      rintro ⟨rfl | hp, rfl⟩
      · exact h2 ⟨rfl, rfl⟩
      · exact h3 ⟨hp, rfl⟩
    · rintro ⟨h1, h2⟩
      refine ⟨⟨h1, ?_⟩, ?_⟩
      · rintro ⟨rfl, rfl⟩
        exact h2 ⟨Or.inl rfl, rfl⟩
      · rintro ⟨hp, rfl⟩
        exact h2 ⟨Or.inr hp, rfl⟩

theorem nodup_getA_foldl_eraseInner {P : List V} {m : AdjMap} {v : V}
    (h : ∀ c, (getA m c).Nodup) :
    ∀ a, (getA (P.foldl (fun m p => eraseInner m p v) m) a).Nodup := by
  induction P generalizing m with
  | nil => exact h
  | cons p P ih =>
    rw [List.foldl_cons]
    exact ih (fun c => nodup_getA_eraseInner h)

theorem nodup_getA_eraseA {m : AdjMap} {k : V} (h : ∀ c, (getA m c).Nodup) :
    ∀ a, (getA (eraseA m k) a).Nodup := by
  intro a
  by_cases ha : a = k
  · rw [ha, getA_eraseA_self]
    exact List.nodup_nil
  · rw [getA_eraseA_ne ha]
    exact h a

theorem DeleteVertex_nil (d : DAG) : DeleteVertex d none = (d, some .VertexNilError) := rfl

theorem DeleteVertex_unknown {d : DAG} {v : V} (h : v ∉ d.vertices) :
    DeleteVertex d (some v) = (d, some .VertexUnknownError) := by
  simp only [DeleteVertex]
  rw [if_neg h]

theorem DeleteVertex_success_eq {d : DAG} {v : V} (h : v ∈ d.vertices) :
    DeleteVertex d (some v) =
      (⟨eraseSet (getAncestors (getDescendants d v).2 v).2.vertices v,
        eraseA (getAncestors (getDescendants d v).2 v).2.vertexIds v.vid,
        eraseA ((getA ((getA (getAncestors (getDescendants d v).2 v).2.inboundEdge v).foldl
            (fun m p => eraseInner m p v)
            (getAncestors (getDescendants d v).2 v).2.outboundEdge) v).foldl
          (fun m c => eraseInner m c v)
          (getAncestors (getDescendants d v).2 v).2.inboundEdge) v,
        eraseA ((getA (getAncestors (getDescendants d v).2 v).2.inboundEdge v).foldl
          (fun m p => eraseInner m p v)
          (getAncestors (getDescendants d v).2 v).2.outboundEdge) v,
        eraseA ((getDescendants d v).1.foldl (fun m x => eraseA m x)
          (getAncestors (getDescendants d v).2 v).2.ancestorsCache) v,
        eraseA ((getAncestors (getDescendants d v).2 v).1.foldl (fun m x => eraseA m x)
          (getAncestors (getDescendants d v).2 v).2.descendantsCache) v⟩, none) := by
  simp only [DeleteVertex]
  rw [if_pos h]

theorem DeleteVertex_success_spec {d : DAG} (h : Inv d) {v : V} {d' : DAG}
    (hcall : DeleteVertex d (some v) = (d', none)) :
    Inv d' ∧ v ∈ d.vertices ∧
    (∀ a b, b ∈ getA d'.outboundEdge a ↔
      (b ∈ getA d.outboundEdge a ∧ a ≠ v ∧ b ≠ v)) ∧
    (∀ a b, b ∈ getA d'.inboundEdge a ↔
      (b ∈ getA d.inboundEdge a ∧ a ≠ v ∧ b ≠ v)) ∧
    (∀ x, x ∈ d'.vertices ↔ (x ∈ d.vertices ∧ x ≠ v)) ∧
    d'.vertexIds = eraseA d.vertexIds v.vid := by
  have hv : v ∈ d.vertices := by
    by_contra hnv
    rw [DeleteVertex_unknown hnv] at hcall
    injection hcall with _ hb
    exact Option.noConfusion hb
  rw [DeleteVertex_success_eq hv] at hcall
  injection hcall with ha _
  subst ha
  obtain ⟨hgd1, hgdInv, hgdverts, hgdids, hgdout, hgdinb, hgdanc, hgdgrow, hgdpop⟩ :=
    getDescendants_spec h v
  obtain ⟨hga1, hgaInv, hgaverts, hgaids, hgaout, hgainb, hgadesc, hgagrow, hgapop⟩ :=
    getAncestors_spec hgdInv v
  have hraout : (getAncestors (getDescendants d v).2 v).2.outboundEdge = d.outboundEdge :=
    hgaout.trans hgdout
  have hrainb : (getAncestors (getDescendants d v).2 v).2.inboundEdge = d.inboundEdge :=
    hgainb.trans hgdinb
  have hraverts : (getAncestors (getDescendants d v).2 v).2.vertices = d.vertices :=
    hgaverts.trans hgdverts
  have hraids : (getAncestors (getDescendants d v).2 v).2.vertexIds = d.vertexIds :=
    hgaids.trans hgdids
  have hrdmem : ∀ u, u ∈ (getDescendants d v).1 ↔ reach d.outboundEdge v u := hgd1
  have hramem : ∀ u,
      u ∈ (getAncestors (getDescendants d v).2 v).1 ↔ reach d.outboundEdge u v := by
    intro u
    rw [hga1 u, hgdout]
  -- the outbound map after removing v from the child sets of v's parents
  have hout3 : ∀ a b, b ∈ getA
      ((getA (getAncestors (getDescendants d v).2 v).2.inboundEdge v).foldl
        (fun m p => eraseInner m p v)
        (getAncestors (getDescendants d v).2 v).2.outboundEdge) a ↔
      (b ∈ getA d.outboundEdge a ∧ b ≠ v) := by
    intro a b
    rw [mem_getA_foldl_eraseInner, hraout, hrainb]
    constructor
    · rintro ⟨h1, h2⟩
      refine ⟨h1, ?_⟩
      intro he
      exact h2 ⟨(h.symm a v).mp (he ▸ h1), he⟩
    · rintro ⟨h1, h2⟩
      refine ⟨h1, ?_⟩
      rintro ⟨_, he⟩
      exact h2 he
  -- the final outbound map
  have houtchar : ∀ a b, b ∈ getA
      (eraseA ((getA (getAncestors (getDescendants d v).2 v).2.inboundEdge v).foldl
        (fun m p => eraseInner m p v)
        (getAncestors (getDescendants d v).2 v).2.outboundEdge) v) a ↔
      (b ∈ getA d.outboundEdge a ∧ a ≠ v ∧ b ≠ v) := by
    intro a b
    by_cases ha : a = v
    · rw [ha, getA_eraseA_self]
      simp
    · rw [getA_eraseA_ne ha, hout3]
      constructor
      · rintro ⟨h1, h2⟩
        exact ⟨h1, ha, h2⟩
      · rintro ⟨h1, _, h2⟩
        exact ⟨h1, h2⟩
  -- the final inbound map
  have hinbchar : ∀ a b, b ∈ getA
      (eraseA ((getA ((getA (getAncestors (getDescendants d v).2 v).2.inboundEdge v).foldl
          (fun m p => eraseInner m p v)
          (getAncestors (getDescendants d v).2 v).2.outboundEdge) v).foldl
        (fun m c => eraseInner m c v)
        (getAncestors (getDescendants d v).2 v).2.inboundEdge) v) a ↔
      (b ∈ getA d.inboundEdge a ∧ a ≠ v ∧ b ≠ v) := by
    intro a b
    by_cases ha : a = v
    · rw [ha, getA_eraseA_self]
      simp
    · rw [getA_eraseA_ne ha, mem_getA_foldl_eraseInner, hrainb]
      constructor
      · rintro ⟨h1, h2⟩
        refine ⟨h1, ha, ?_⟩
        intro he
        refine h2 ⟨?_, he⟩
        have h3 := hout3 v a
        rw [hrainb] at h3
        rw [h3]
        exact ⟨(h.symm v a).mpr (he ▸ h1), ha⟩
      · rintro ⟨h1, _, h2⟩
        refine ⟨h1, ?_⟩
        rintro ⟨_, he⟩
        exact h2 he
  -- cache characterizations
  have hdchar : ∀ k, findA
      (eraseA ((getAncestors (getDescendants d v).2 v).1.foldl (fun m x => eraseA m x)
        (getAncestors (getDescendants d v).2 v).2.descendantsCache) v) k =
      (if k = v ∨ k ∈ (getAncestors (getDescendants d v).2 v).1 then none
       else findA (getAncestors (getDescendants d v).2 v).2.descendantsCache k) := by
    intro k
    by_cases hk1 : k = v
    · rw [hk1, findA_eraseA_self, if_pos (Or.inl rfl)]
    · rw [findA_eraseA_ne _ _ _ hk1, findA_foldl_eraseA]
      by_cases hk2 : k ∈ (getAncestors (getDescendants d v).2 v).1
      · rw [if_pos hk2, if_pos (Or.inr hk2)]
      · rw [if_neg hk2, if_neg (by rintro (he2 | hm); exact hk1 he2; exact hk2 hm)]
  have hachar : ∀ k, findA
      (eraseA ((getDescendants d v).1.foldl (fun m x => eraseA m x)
        (getAncestors (getDescendants d v).2 v).2.ancestorsCache) v) k =
      (if k = v ∨ k ∈ (getDescendants d v).1 then none
       else findA (getAncestors (getDescendants d v).2 v).2.ancestorsCache k) := by
    intro k
    by_cases hk1 : k = v
    · rw [hk1, findA_eraseA_self, if_pos (Or.inl rfl)]
    · rw [findA_eraseA_ne _ _ _ hk1, findA_foldl_eraseA]
      by_cases hk2 : k ∈ (getDescendants d v).1
      · rw [if_pos hk2, if_pos (Or.inr hk2)]
      · rw [if_neg hk2, if_neg (by rintro (he2 | hm); exact hk1 he2; exact hk2 hm)]
  have hraDescOK : ∀ k w, findA (getAncestors (getDescendants d v).2 v).2.descendantsCache
      k = some w → ∀ u, u ∈ w ↔ reach d.outboundEdge k u := by
    intro k w hk u
    have h2 := hgaInv.descOK k w hk u
    rwa [hraout] at h2
  have hraAncOK : ∀ k w, findA (getAncestors (getDescendants d v).2 v).2.ancestorsCache
      k = some w → ∀ u, u ∈ w ↔ reach d.outboundEdge u k := by
    intro k w hk u
    have h2 := hgaInv.ancOK k w hk u
    have h3 := hgaInv.reach_inb_iff (a := k) (b := u)
    rw [h3] at h2
    rwa [hraout] at h2
  refine ⟨?_, hv, houtchar, hinbchar,
    fun x => by rw [show x ∈ eraseSet (getAncestors (getDescendants d v).2 v).2.vertices v ↔
      (x ∈ (getAncestors (getDescendants d v).2 v).2.vertices ∧ x ≠ v) from mem_eraseSet,
      hraverts], by rw [hraids]⟩
  refine ⟨?_, ?_, ?_, ?_, ?_, ?_, ?_, ?_, ?_, ?_⟩
  · refine nodup_eraseSet ?_
    rw [hraverts]
    exact h.vNodup
  · intro a
    refine nodup_getA_eraseA (fun c => ?_) a
    exact nodup_getA_foldl_eraseInner (fun c2 => hgaInv.outNodup c2) c
  · intro a
    refine nodup_getA_eraseA (fun c => ?_) a
    exact nodup_getA_foldl_eraseInner (fun c2 => hgaInv.inbNodup c2) c
  · intro a b hb
    rcases (houtchar a b).mp hb with ⟨hb2, ha2, hb3⟩
    have h2 := h.edgeClosed a b hb2
    constructor
    · rw [show a ∈ eraseSet (getAncestors (getDescendants d v).2 v).2.vertices v ↔
        (a ∈ (getAncestors (getDescendants d v).2 v).2.vertices ∧ a ≠ v) from mem_eraseSet,
        hraverts]
      exact ⟨h2.1, ha2⟩
    · rw [show b ∈ eraseSet (getAncestors (getDescendants d v).2 v).2.vertices v ↔
        (b ∈ (getAncestors (getDescendants d v).2 v).2.vertices ∧ b ≠ v) from mem_eraseSet,
        hraverts]
      exact ⟨h2.2, hb3⟩
  · intro a b
    rw [houtchar a b, hinbchar b a]
    constructor
    · rintro ⟨h1, h2, h3⟩
      exact ⟨(h.symm a b).mp h1, h3, h2⟩
    · rintro ⟨h1, h2, h3⟩
      exact ⟨(h.symm a b).mpr h1, h3, h2⟩
  · intro x hx
    have h2 : reach d.outboundEdge x x :=
      Relation.TransGen.mono (fun a b hab => ((houtchar a b).mp hab).1) hx
    exact h.acyc x h2
  · -- descendants cache correct
    intro k w hk u
    rw [hdchar k] at hk
    by_cases hk1 : k = v ∨ k ∈ (getAncestors (getDescendants d v).2 v).1
    · rw [if_pos hk1] at hk
      exact Option.noConfusion hk
    · rw [if_neg hk1] at hk
      have hkk : ¬(k = v ∨ reach d.outboundEdge k v) := by
        rintro (he2 | hr)
        · exact hk1 (Or.inl he2)
        · exact hk1 (Or.inr ((hramem k).mpr hr))
      rw [hraDescOK k w hk u]
      exact (reach_delete_vertex_iff houtchar hkk).symm
  · -- ancestors cache correct
    intro k w hk u
    rw [hachar k] at hk
    by_cases hk1 : k = v ∨ k ∈ (getDescendants d v).1
    · rw [if_pos hk1] at hk
      exact Option.noConfusion hk
    · rw [if_neg hk1] at hk
      have hkk : ¬(k = v ∨ reach d.inboundEdge k v) := by
        rintro (he2 | hr)
        · exact hk1 (Or.inl he2)
        · exact hk1 (Or.inr ((hrdmem k).mpr (h.reach_inb_iff.mp hr)))
      have h2 := hraAncOK k w hk u
      rw [h2]
      have h3 : reach d.inboundEdge k u ↔ reach d.outboundEdge u k := h.reach_inb_iff
      rw [← h3]
      exact (reach_delete_vertex_iff (A := d.inboundEdge) hinbchar hkk).symm
  · -- descendants cache closed
    intro k w hk u hu
    rw [hdchar k] at hk
    by_cases hk1 : k = v ∨ k ∈ (getAncestors (getDescendants d v).2 v).1
    · rw [if_pos hk1] at hk
      exact Option.noConfusion hk
    · rw [if_neg hk1] at hk
      have hru : reach d.outboundEdge k u := (hraDescOK k w hk u).mp hu
      have hune : ¬(u = v ∨ u ∈ (getAncestors (getDescendants d v).2 v).1) := by
        rintro (rfl | hm)
        · exact hk1 (Or.inr ((hramem k).mpr hru))
        · have h2 : reach d.outboundEdge u v := (hramem u).mp hm
          exact hk1 (Or.inr ((hramem k).mpr (reach_trans hru h2)))
      have h2 := hgaInv.descClosed k w hk u hu
      rw [show (DAG.descendantsCache
          ⟨eraseSet (getAncestors (getDescendants d v).2 v).2.vertices v,
            eraseA (getAncestors (getDescendants d v).2 v).2.vertexIds v.vid,
            eraseA ((getA ((getA (getAncestors (getDescendants d v).2 v).2.inboundEdge v).foldl
                (fun m p => eraseInner m p v)
                (getAncestors (getDescendants d v).2 v).2.outboundEdge) v).foldl
              (fun m c => eraseInner m c v)
              (getAncestors (getDescendants d v).2 v).2.inboundEdge) v,
            eraseA ((getA (getAncestors (getDescendants d v).2 v).2.inboundEdge v).foldl
              (fun m p => eraseInner m p v)
              (getAncestors (getDescendants d v).2 v).2.outboundEdge) v,
            eraseA ((getDescendants d v).1.foldl (fun m x => eraseA m x)
              (getAncestors (getDescendants d v).2 v).2.ancestorsCache) v,
            eraseA ((getAncestors (getDescendants d v).2 v).1.foldl (fun m x => eraseA m x)
              (getAncestors (getDescendants d v).2 v).2.descendantsCache) v⟩)
        = eraseA ((getAncestors (getDescendants d v).2 v).1.foldl (fun m x => eraseA m x)
            (getAncestors (getDescendants d v).2 v).2.descendantsCache) v from rfl]
      rw [hdchar u, if_neg hune]
      exact h2
  · -- ancestors cache closed
    intro k w hk u hu
    rw [hachar k] at hk
    by_cases hk1 : k = v ∨ k ∈ (getDescendants d v).1
    · rw [if_pos hk1] at hk
      exact Option.noConfusion hk
    · rw [if_neg hk1] at hk
      have hru : reach d.outboundEdge u k := (hraAncOK k w hk u).mp hu
      have hune : ¬(u = v ∨ u ∈ (getDescendants d v).1) := by
        rintro (rfl | hm)
        · exact hk1 (Or.inr ((hrdmem k).mpr hru))
        · have h2 : reach d.outboundEdge v u := (hrdmem u).mp hm
          exact hk1 (Or.inr ((hrdmem k).mpr (reach_trans h2 hru)))
      have h2 := hgaInv.ancClosed k w hk u hu
      rw [show (DAG.ancestorsCache
          ⟨eraseSet (getAncestors (getDescendants d v).2 v).2.vertices v,
            eraseA (getAncestors (getDescendants d v).2 v).2.vertexIds v.vid,
            eraseA ((getA ((getA (getAncestors (getDescendants d v).2 v).2.inboundEdge v).foldl
                (fun m p => eraseInner m p v)
                (getAncestors (getDescendants d v).2 v).2.outboundEdge) v).foldl
              (fun m c => eraseInner m c v)
              (getAncestors (getDescendants d v).2 v).2.inboundEdge) v,
            eraseA ((getA (getAncestors (getDescendants d v).2 v).2.inboundEdge v).foldl
              (fun m p => eraseInner m p v)
              (getAncestors (getDescendants d v).2 v).2.outboundEdge) v,
            eraseA ((getDescendants d v).1.foldl (fun m x => eraseA m x)
              (getAncestors (getDescendants d v).2 v).2.ancestorsCache) v,
            eraseA ((getAncestors (getDescendants d v).2 v).1.foldl (fun m x => eraseA m x)
              (getAncestors (getDescendants d v).2 v).2.descendantsCache) v⟩)
        = eraseA ((getDescendants d v).1.foldl (fun m x => eraseA m x)
            (getAncestors (getDescendants d v).2 v).2.ancestorsCache) v from rfl]
      rw [hachar u, if_neg hune]
      exact h2

theorem DeleteVertex_Inv {d : DAG} (h : Inv d) (v? : Option V) :
    Inv (DeleteVertex d v?).1 := by
  cases v? with
  | none => exact h
  | some v =>
    by_cases hv : v ∈ d.vertices
    · have hsnd : (DeleteVertex d (some v)).2 = none := by
        rw [DeleteVertex_success_eq hv]
      exact (DeleteVertex_success_spec h (by rw [← hsnd])).1
    · rw [show (DeleteVertex d (some v)).1 = (d, some Err.VertexUnknownError).1 from by
        rw [← DeleteVertex_unknown hv]]
      exact h

/-!  `ReduceTransitively`: the cache-population loop, the reduction fold,
and preservation of reachability. -/

theorem popLoop_spec {d : DAG} (rs : List V) :
    ∀ (dd : DAG), Inv dd → dd.vertices = d.vertices → dd.vertexIds = d.vertexIds →
    dd.outboundEdge = d.outboundEdge → dd.inboundEdge = d.inboundEdge →
    (Inv (rs.foldl (fun x r => (getDescendants x r).2) dd) ∧
     (rs.foldl (fun x r => (getDescendants x r).2) dd).vertices = d.vertices ∧
     (rs.foldl (fun x r => (getDescendants x r).2) dd).vertexIds = d.vertexIds ∧
     (rs.foldl (fun x r => (getDescendants x r).2) dd).outboundEdge = d.outboundEdge ∧
     (rs.foldl (fun x r => (getDescendants x r).2) dd).inboundEdge = d.inboundEdge ∧
     (∀ k w, findA dd.descendantsCache k = some w →
       findA (rs.foldl (fun x r => (getDescendants x r).2) dd).descendantsCache k = some w) ∧
     (∀ r ∈ rs, ∀ u, (u = r ∨ reach d.outboundEdge r u) →
       (findA (rs.foldl (fun x r => (getDescendants x r).2) dd).descendantsCache u).isSome
         = true)) := by
  induction rs with
  | nil =>
    intro dd h1 h2 h3 h4 h5
    exact ⟨h1, h2, h3, h4, h5, fun k w hw => hw, by simp⟩
  | cons r rs ih =>
    intro dd h1 h2 h3 h4 h5
    obtain ⟨hg1, hg2, hg3, hg4, hg5, hg6, hg7, hg8, hg9⟩ := getDescendants_spec h1 r
    have hrec := ih (getDescendants dd r).2 hg2 (hg3.trans h2) (hg4.trans h3)
      (hg5.trans h4) (hg6.trans h5)
    obtain ⟨hr1, hr2, hr3, hr4, hr5, hr6, hr7⟩ := hrec
    rw [List.foldl_cons]
    refine ⟨hr1, hr2, hr3, hr4, hr5, ?_, ?_⟩
    · intro k w hw
      exact hr6 k w (hg8 k w hw)
    · intro r2 hr2m u hu
      rcases List.mem_cons.mp hr2m with rfl | hm
      · have hu2 : (findA (getDescendants dd r2).2.descendantsCache u).isSome = true := by
          refine hg9 u ?_
          rwa [h4]
        rcases Option.isSome_iff_exists.mp hu2 with ⟨w, hw⟩
        rw [hr6 u w hw]
        rfl
      · exact hr7 r2 hm u hu

theorem exists_root_aux {d : DAG} (h : Inv d) :
    ∀ (n : Nat) (u : V), u ∈ d.vertices → {w | reach d.outboundEdge w u}.ncard ≤ n →
    ∃ r, r ∈ getRoots d ∧ (r = u ∨ reach d.outboundEdge r u) := by
  intro n
  induction n with
  | zero =>
    intro u hu hcard
    cases hinb : getA d.inboundEdge u with
    | nil =>
      refine ⟨u, ?_, Or.inl rfl⟩
      unfold getRoots
      rw [List.mem_filter]
      exact ⟨hu, by rw [hinb]; rfl⟩
    | cons p ps =>
      exfalso
      have hp : p ∈ getA d.inboundEdge u := by rw [hinb]; exact List.mem_cons_self p ps
      have he : u ∈ getA d.outboundEdge p := (h.symm p u).mpr hp
      have hpr : p ∈ {w | reach d.outboundEdge w u} := reach_single he
      have hfin : {w | reach d.outboundEdge w u}.Finite := by
        refine (d.vertices.finite_toSet).subset ?_
        intro w hw
        exact h.outReachSrcMem hw
      have hpos : 0 < {w | reach d.outboundEdge w u}.ncard :=
        (Set.ncard_pos hfin).mpr ⟨p, hpr⟩
      omega
  | succ n ih =>
    intro u hu hcard
    cases hinb : getA d.inboundEdge u with
    | nil =>
      refine ⟨u, ?_, Or.inl rfl⟩
      unfold getRoots
      rw [List.mem_filter]
      exact ⟨hu, by rw [hinb]; rfl⟩
    | cons p ps =>
      have hp : p ∈ getA d.inboundEdge u := by rw [hinb]; exact List.mem_cons_self p ps
      have he : u ∈ getA d.outboundEdge p := (h.symm p u).mpr hp
      have hpv : p ∈ d.vertices := (h.edgeClosed p u he).1
      have hsub : {w | reach d.outboundEdge w p} ⊆ {w | reach d.outboundEdge w u} :=
        fun w hw => reach_tail hw he
      have hfin : {w | reach d.outboundEdge w u}.Finite := by
        refine (d.vertices.finite_toSet).subset ?_
        intro w hw
        exact h.outReachSrcMem hw
      have hne : {w | reach d.outboundEdge w p} ≠ {w | reach d.outboundEdge w u} := by
        intro he2
        have hpu : p ∈ {w | reach d.outboundEdge w u} := reach_single he
        rw [← he2] at hpu
        exact h.acyc p hpu
      have hlt : {w | reach d.outboundEdge w p}.ncard <
          {w | reach d.outboundEdge w u}.ncard :=
        Set.ncard_lt_ncard (Set.ssubset_iff_subset_ne.mpr ⟨hsub, hne⟩) hfin
      rcases ih p hpv (by omega) with ⟨r, hr1, hr2⟩
      refine ⟨r, hr1, Or.inr ?_⟩
      rcases hr2 with rfl | hr2
      · exact reach_single he
      · exact reach_tail hr2 he

theorem exists_root {d : DAG} (h : Inv d) {u : V} (hu : u ∈ d.vertices) :
    ∃ r, r ∈ getRoots d ∧ (r = u ∨ reach d.outboundEdge r u) :=
  exists_root_aux h {w | reach d.outboundEdge w u}.ncard u hu le_rfl

theorem mem_foldl_unionSet {m : AdjMap} {o : List V} {acc : List V} {u : V} :
    u ∈ o.foldl (fun acc c => unionSet acc (getA m c)) acc ↔
      (u ∈ acc ∨ ∃ c ∈ o, u ∈ getA m c) := by
  induction o generalizing acc with
  | nil => simp
  | cons c o ih =>
    rw [List.foldl_cons, ih]
    simp only [mem_unionSet, List.mem_cons]
    constructor
    · rintro ((h1 | h1) | ⟨c2, hc2, h2⟩)
      · exact Or.inl h1
      · exact Or.inr ⟨c, Or.inl rfl, h1⟩
      · exact Or.inr ⟨c2, Or.inr hc2, h2⟩
    · rintro (h1 | ⟨c2, hc2, h2⟩)
      · exact Or.inl (Or.inl h1)
      · rcases hc2 with rfl | hc2
        · exact Or.inl (Or.inr h2)
        · exact Or.inr ⟨c2, hc2, h2⟩

theorem reduceInner_spec (v : V) (D0 : List V) :
    ∀ (o : List V) (st : DAG × Bool),
    ((∀ a b, b ∈ getA (o.foldl (reduceDel v D0) st).1.outboundEdge a ↔
       (b ∈ getA st.1.outboundEdge a ∧ ¬(a = v ∧ b ∈ o ∧ b ∈ D0))) ∧
     (∀ a b, b ∈ getA (o.foldl (reduceDel v D0) st).1.inboundEdge a ↔
       (b ∈ getA st.1.inboundEdge a ∧ ¬(b = v ∧ a ∈ o ∧ a ∈ D0))) ∧
     (o.foldl (reduceDel v D0) st).1.vertices = st.1.vertices ∧
     (o.foldl (reduceDel v D0) st).1.vertexIds = st.1.vertexIds ∧
     (o.foldl (reduceDel v D0) st).1.ancestorsCache = st.1.ancestorsCache ∧
     (o.foldl (reduceDel v D0) st).1.descendantsCache = st.1.descendantsCache ∧
     ((o.foldl (reduceDel v D0) st).2 = true ↔
       (st.2 = true ∨ ∃ c ∈ o, c ∈ D0))) := by
  intro o
  induction o with
  | nil =>
    intro st
    refine ⟨by simp, by simp, rfl, rfl, rfl, rfl, by simp⟩
  | cons c o ih =>
    intro st
    rw [List.foldl_cons]
    obtain ⟨ih1, ih2, ih3, ih4, ih5, ih6, ih7⟩ := ih (reduceDel v D0 st c)
    by_cases hc : c ∈ D0
    · have hstep : reduceDel v D0 st c =
          ({ st.1 with
              outboundEdge := eraseInner st.1.outboundEdge v c,
              inboundEdge := eraseInner st.1.inboundEdge c v }, true) := by
        unfold reduceDel
        rw [if_pos hc]
      refine ⟨?_, ?_, ?_, ?_, ?_, ?_, ?_⟩
      · intro a b
        rw [ih1 a b, hstep]
        simp only
        rw [mem_getA_eraseInner]
        simp only [List.mem_cons]
        constructor
        · rintro ⟨⟨h1, h2⟩, h3⟩
          refine ⟨h1, ?_⟩
          rintro ⟨rfl, rfl | hbo, hbD⟩
          · exact h2 ⟨rfl, rfl⟩
          · exact h3 ⟨rfl, hbo, hbD⟩
        · rintro ⟨h1, h2⟩
          refine ⟨⟨h1, ?_⟩, ?_⟩
          · rintro ⟨rfl, rfl⟩
            exact h2 ⟨rfl, Or.inl rfl, hc⟩
          · rintro ⟨rfl, hbo, hbD⟩
            exact h2 ⟨rfl, Or.inr hbo, hbD⟩
      · intro a b
        rw [ih2 a b, hstep]
        simp only
        rw [mem_getA_eraseInner]
        simp only [List.mem_cons]
        constructor
        · rintro ⟨⟨h1, h2⟩, h3⟩
          refine ⟨h1, ?_⟩
          rintro ⟨rfl, rfl | hao, haD⟩
          · exact h2 ⟨rfl, rfl⟩
          · exact h3 ⟨rfl, hao, haD⟩
        · rintro ⟨h1, h2⟩
          refine ⟨⟨h1, ?_⟩, ?_⟩
          · rintro ⟨rfl, rfl⟩
            exact h2 ⟨rfl, Or.inl rfl, hc⟩
          · rintro ⟨rfl, hao, haD⟩
            exact h2 ⟨rfl, Or.inr hao, haD⟩
      · rw [ih3, hstep]
      · rw [ih4, hstep]
      · rw [ih5, hstep]
      · rw [ih6, hstep]
      · rw [ih7, hstep]
        simp only [List.mem_cons]
        exact ⟨fun _ => Or.inr ⟨c, Or.inl rfl, hc⟩, fun _ => by simp⟩
    · have hstep : reduceDel v D0 st c = st := by
        unfold reduceDel
        rw [if_neg hc]
      rw [hstep] at ih1 ih2 ih3 ih4 ih5 ih6 ih7
      rw [hstep]
      refine ⟨?_, ?_, ih3, ih4, ih5, ih6, ?_⟩
      · intro a b
        rw [ih1 a b]
        simp only [List.mem_cons]
        constructor
        · rintro ⟨h1, h2⟩
          refine ⟨h1, ?_⟩
          rintro ⟨rfl, rfl | hbo, hbD⟩
          · exact hc hbD
          · exact h2 ⟨rfl, hbo, hbD⟩
        · rintro ⟨h1, h2⟩
          refine ⟨h1, ?_⟩
          rintro ⟨rfl, hbo, hbD⟩
          exact h2 ⟨rfl, Or.inr hbo, hbD⟩
      · intro a b
        rw [ih2 a b]
        simp only [List.mem_cons]
        constructor
        · rintro ⟨h1, h2⟩
          refine ⟨h1, ?_⟩
          rintro ⟨rfl, rfl | hao, haD⟩
          · exact hc haD
          · exact h2 ⟨rfl, hao, haD⟩
        · rintro ⟨h1, h2⟩
          refine ⟨h1, ?_⟩
          rintro ⟨rfl, hao, haD⟩
          exact h2 ⟨rfl, Or.inr hao, haD⟩
      · rw [ih7]
        simp only [List.mem_cons]
        constructor
        · rintro (h1 | ⟨c2, hc2, h2⟩)
          · exact Or.inl h1
          · exact Or.inr ⟨c2, Or.inr hc2, h2⟩
        · rintro (h1 | ⟨c2, hc2, h2⟩)
          · exact Or.inl h1
          · rcases hc2 with rfl | hc2
            · exact absurd h2 hc
            · exact Or.inr ⟨c2, hc2, h2⟩

theorem reduceDel_fold_nodup (v : V) (D0 : List V) :
    ∀ (o : List V) (st : DAG × Bool),
    (∀ a, (getA st.1.outboundEdge a).Nodup) → (∀ a, (getA st.1.inboundEdge a).Nodup) →
    ((∀ a, (getA (o.foldl (reduceDel v D0) st).1.outboundEdge a).Nodup) ∧
     (∀ a, (getA (o.foldl (reduceDel v D0) st).1.inboundEdge a).Nodup)) := by
  intro o
  induction o with
  | nil => exact fun st h1 h2 => ⟨h1, h2⟩
  | cons c o ih =>
    intro st h1 h2
    rw [List.foldl_cons]
    refine ih (reduceDel v D0 st c) ?_ ?_
    · intro a
      unfold reduceDel
      by_cases hc : c ∈ D0
      · rw [if_pos hc]
        exact nodup_getA_eraseInner h1
      · rw [if_neg hc]
        exact h1 a
    · intro a
      unfold reduceDel
      by_cases hc : c ∈ D0
      · rw [if_pos hc]
        exact nodup_getA_eraseInner h2
      · rw [if_neg hc]
        exact h2 a

theorem reduceLoop_nodup :
    ∀ (vs : List V) (st : DAG × Bool),
    (∀ a, (getA st.1.outboundEdge a).Nodup) → (∀ a, (getA st.1.inboundEdge a).Nodup) →
    ((∀ a, (getA (vs.foldl reduceStepV st).1.outboundEdge a).Nodup) ∧
     (∀ a, (getA (vs.foldl reduceStepV st).1.inboundEdge a).Nodup)) := by
  intro vs
  induction vs with
  | nil => exact fun st h1 h2 => ⟨h1, h2⟩
  | cons v vs ih =>
    intro st h1 h2
    rw [List.foldl_cons]
    have hstep := reduceDel_fold_nodup v
      ((getA st.1.outboundEdge v).foldl
        (fun acc c => unionSet acc (getA st.1.descendantsCache c)) [])
      (getA st.1.outboundEdge v) st h1 h2
    exact ih (reduceStepV st v) hstep.1 hstep.2

theorem reduceLoop_spec {d1 : DAG} (h1 : Inv d1) :
    ∀ (vs : List V) (st : DAG × Bool) (D : V → Prop) (F : Prop),
    vs.Nodup → (∀ x ∈ vs, ¬ D x) →
    (∀ a b, b ∈ getA st.1.outboundEdge a ↔
      (b ∈ getA d1.outboundEdge a ∧ ¬(D a ∧ shortcut d1 a b))) →
    (∀ a b, b ∈ getA st.1.inboundEdge a ↔
      (b ∈ getA d1.inboundEdge a ∧ ¬(D b ∧ shortcut d1 b a))) →
    st.1.vertices = d1.vertices → st.1.vertexIds = d1.vertexIds →
    st.1.ancestorsCache = d1.ancestorsCache →
    st.1.descendantsCache = d1.descendantsCache →
    (st.2 = true ↔ F) →
    ((∀ a b, b ∈ getA (vs.foldl reduceStepV st).1.outboundEdge a ↔
       (b ∈ getA d1.outboundEdge a ∧ ¬((D a ∨ a ∈ vs) ∧ shortcut d1 a b))) ∧
     (∀ a b, b ∈ getA (vs.foldl reduceStepV st).1.inboundEdge a ↔
       (b ∈ getA d1.inboundEdge a ∧ ¬((D b ∨ b ∈ vs) ∧ shortcut d1 b a))) ∧
     (vs.foldl reduceStepV st).1.vertices = d1.vertices ∧
     (vs.foldl reduceStepV st).1.vertexIds = d1.vertexIds ∧
     (vs.foldl reduceStepV st).1.ancestorsCache = d1.ancestorsCache ∧
     (vs.foldl reduceStepV st).1.descendantsCache = d1.descendantsCache ∧
     ((vs.foldl reduceStepV st).2 = true ↔
       (F ∨ ∃ a ∈ vs, ∃ b, b ∈ getA d1.outboundEdge a ∧ shortcut d1 a b))) := by
  intro vs
  induction vs with
  | nil =>
    intro st D F _ _ hout hinb hv hi ha hdc hfl
    simp only [List.foldl_nil]
    refine ⟨?_, ?_, hv, hi, ha, hdc, ?_⟩
    · intro a b
      rw [hout a b]
      simp
    · intro a b
      rw [hinb a b]
      simp
    · rw [hfl]
      simp
  | cons v vs ih =>
    intro st D F hnd hdisj hout hinb hv hi ha hdc hfl
    rcases List.nodup_cons.mp hnd with ⟨hvnotin, hnd2⟩
    have hDv : ¬ D v := hdisj v (List.mem_cons_self v vs)
    have hov : ∀ b, b ∈ getA st.1.outboundEdge v ↔ b ∈ getA d1.outboundEdge v := by
      intro b
      rw [hout v b]
      constructor
      · rintro ⟨hb, _⟩
        exact hb
      · intro hb
        exact ⟨hb, fun hx => hDv hx.1⟩
    have hD0 : ∀ u, u ∈ (getA st.1.outboundEdge v).foldl
        (fun acc c => unionSet acc (getA st.1.descendantsCache c)) [] ↔
        shortcut d1 v u := by
      intro u
      rw [mem_foldl_unionSet]
      simp only [List.not_mem_nil, false_or]
      unfold shortcut
      constructor
      · rintro ⟨c, hc, hu⟩
        rw [hdc] at hu
        exact ⟨c, (hov c).mp hc, hu⟩
      · rintro ⟨c, hc, hu⟩
        refine ⟨c, (hov c).mpr hc, ?_⟩
        rw [hdc]
        exact hu
    have hstep : reduceStepV st v = (getA st.1.outboundEdge v).foldl
        (reduceDel v ((getA st.1.outboundEdge v).foldl
          (fun acc c => unionSet acc (getA st.1.descendantsCache c)) [])) st := rfl
    obtain ⟨hi1, hi2, hi3, hi4, hi5, hi6, hi7⟩ :=
      reduceInner_spec v
        ((getA st.1.outboundEdge v).foldl
          (fun acc c => unionSet acc (getA st.1.descendantsCache c)) [])
        (getA st.1.outboundEdge v) st
    rw [List.foldl_cons]
    have hrec := ih (reduceStepV st v) (fun x => D x ∨ x = v)
      (F ∨ ∃ b, b ∈ getA d1.outboundEdge v ∧ shortcut d1 v b)
      hnd2 ?_ ?_ ?_ ?_ ?_ ?_ ?_ ?_
    · obtain ⟨hr1, hr2, hr3, hr4, hr5, hr6, hr7⟩ := hrec
      refine ⟨?_, ?_, hr3, hr4, hr5, hr6, ?_⟩
      · intro a b
        rw [hr1 a b]
        simp only [List.mem_cons]
        constructor
        · rintro ⟨hb, h2⟩
          refine ⟨hb, ?_⟩
          rintro ⟨(hd | hm), hsc⟩
          · exact h2 ⟨Or.inl (Or.inl hd), hsc⟩
          · rcases hm with rfl | hm
            · exact h2 ⟨Or.inl (Or.inr rfl), hsc⟩
            · exact h2 ⟨Or.inr hm, hsc⟩
        · rintro ⟨hb, h2⟩
          refine ⟨hb, ?_⟩
          rintro ⟨((hd | he) | hm), hsc⟩
          · exact h2 ⟨Or.inl hd, hsc⟩
          · exact h2 ⟨Or.inr (Or.inl he), hsc⟩
          · exact h2 ⟨Or.inr (Or.inr hm), hsc⟩
      · intro a b
        rw [hr2 a b]
        simp only [List.mem_cons]
        constructor
        · rintro ⟨hb, h2⟩
          refine ⟨hb, ?_⟩
          rintro ⟨(hd | hm), hsc⟩
          · exact h2 ⟨Or.inl (Or.inl hd), hsc⟩
          · rcases hm with rfl | hm
            · exact h2 ⟨Or.inl (Or.inr rfl), hsc⟩
            · exact h2 ⟨Or.inr hm, hsc⟩
        · rintro ⟨hb, h2⟩
          refine ⟨hb, ?_⟩
          rintro ⟨((hd | he) | hm), hsc⟩
          · exact h2 ⟨Or.inl hd, hsc⟩
          · exact h2 ⟨Or.inr (Or.inl he), hsc⟩
          · exact h2 ⟨Or.inr (Or.inr hm), hsc⟩
      · rw [hr7]
        simp only [List.mem_cons]
        constructor
        · rintro ((hF | ⟨b, hb1, hb2⟩) | ⟨a2, ha2, b2, hb1, hb2⟩)
          · exact Or.inl hF
          · exact Or.inr ⟨v, Or.inl rfl, b, hb1, hb2⟩
          · exact Or.inr ⟨a2, Or.inr ha2, b2, hb1, hb2⟩
        · rintro (hF | ⟨a2, ha2, b2, hb1, hb2⟩)
          · exact Or.inl (Or.inl hF)
          · rcases ha2 with rfl | ha2
            · exact Or.inl (Or.inr ⟨b2, hb1, hb2⟩)
            · exact Or.inr ⟨a2, ha2, b2, hb1, hb2⟩
    · intro x hx
      rintro (hd | he)
      · exact hdisj x (List.mem_cons_of_mem v hx) hd
      · exact hvnotin (he ▸ hx)
    · -- outbound characterization after processing v
      intro a b
      rw [hstep, hi1 a b, hout a b]
      constructor
      · rintro ⟨⟨hb, h2⟩, h3⟩
        refine ⟨hb, ?_⟩
        rintro ⟨(hd | he), hsc⟩
        · exact h2 ⟨hd, hsc⟩
        · refine h3 ⟨he, ?_, ?_⟩
          · rw [hov b]
            rw [he] at hb
            exact hb
          · rw [hD0 b]
            rw [he] at hsc
            exact hsc
      · rintro ⟨hb, h2⟩
        refine ⟨⟨hb, fun hx => h2 ⟨Or.inl hx.1, hx.2⟩⟩, ?_⟩
        rintro ⟨he, hbo, hbD⟩
        refine h2 ⟨Or.inr he, ?_⟩
        have := (hD0 b).mp hbD
        rw [← he] at this
        exact this
    · -- inbound characterization after processing v
      intro a b
      rw [hstep, hi2 a b, hinb a b]
      constructor
      · rintro ⟨⟨hb, h2⟩, h3⟩
        refine ⟨hb, ?_⟩
        rintro ⟨(hd | he), hsc⟩
        · exact h2 ⟨hd, hsc⟩
        · refine h3 ⟨he, ?_, ?_⟩
          · rw [hov a]
            rw [he] at hb
            exact (h1.symm v a).mpr hb
          · rw [hD0 a]
            rw [he] at hsc
            exact hsc
      · rintro ⟨hb, h2⟩
        refine ⟨⟨hb, fun hx => h2 ⟨Or.inl hx.1, hx.2⟩⟩, ?_⟩
        rintro ⟨he, hao, haD⟩
        refine h2 ⟨Or.inr he, ?_⟩
        have := (hD0 a).mp haD
        rw [← he] at this
        exact this
    · rw [hstep, hi3]
      exact hv
    · rw [hstep, hi4]
      exact hi
    · rw [hstep, hi5]
      exact ha
    · rw [hstep, hi6]
      exact hdc
    · rw [hstep, hi7, hfl]
      constructor
      · rintro (hF | ⟨c, hc, hcD⟩)
        · exact Or.inl hF
        · refine Or.inr ⟨c, ?_, ?_⟩
          · exact (hov c).mp hc
          · exact (hD0 c).mp hcD
      · rintro (hF | ⟨c, hc, hcD⟩)
        · exact Or.inl hF
        · refine Or.inr ⟨c, (hov c).mpr hc, (hD0 c).mpr hcD⟩

theorem ncard_reach_lt_of_reach {A : AdjMap} (hacy : ∀ x, ¬ reach A x x) {c x : V}
    (h : reach A c x) (hfin : {u | reach A c u}.Finite) :
    {u | reach A x u}.ncard < {u | reach A c u}.ncard := by
  have hsub : {u | reach A x u} ⊆ {u | reach A c u} :=
    fun u hu => reach_trans h hu
  have hne : {u | reach A x u} ≠ {u | reach A c u} := by
    intro he
    have hx2 : x ∈ {u | reach A c u} := h
    rw [← he] at hx2
    exact hacy x hx2
  exact Set.ncard_lt_ncard (Set.ssubset_iff_subset_ne.mpr ⟨hsub, hne⟩) hfin

/-- Removing simultaneously every edge whose target is reachable from some
other child of its source preserves reachability (the essence of
transitive reduction on an acyclic graph). -/
theorem reduction_preserves_reach {A B : AdjMap} {verts : List V}
    (hacy : ∀ x, ¬ reach A x x)
    (hcl : ∀ a b, b ∈ getA A a → b ∈ verts)
    (hB : ∀ a b, b ∈ getA B a ↔
      (b ∈ getA A a ∧ ¬ ∃ c ∈ getA A a, reach A c b)) :
    ∀ a b, reach A a b → reach B a b := by
  have hfins : ∀ a, {u | reach A a u}.Finite :=
    fun a => reach_set_finite hcl a
  suffices hmain : ∀ (n : Nat) (a : V), {u | reach A a u}.ncard ≤ n →
      ∀ b, reach A a b → reach B a b by
    intro a b hr
    exact hmain _ a le_rfl b hr
  intro n
  induction n with
  | zero =>
    intro a hbound b hr
    exfalso
    have hpos : 0 < {u | reach A a u}.ncard :=
      (Set.ncard_pos (hfins a)).mpr ⟨b, hr⟩
    omega
  | succ n ihn =>
    intro a hbound b hr
    have hQ : ∀ (k : Nat) (x : V), x ∈ getA A a →
        {u | reach A a u}.ncard - {u | reach A x u}.ncard ≤ k →
        ∀ b2, (x = b2 ∨ reach A x b2) → reach B a b2 := by
      intro k
      induction k with
      | zero =>
        intro x hx hk b2 _
        exfalso
        have hlt : {u | reach A x u}.ncard < {u | reach A a u}.ncard :=
          ncard_reach_child_lt hacy hx (hfins a)
        omega
      | succ k ihk =>
        intro x hx hk b2 hxb
        by_cases hkeep : x ∈ getA B a
        · rcases hxb with rfl | hxb
          · exact reach_single hkeep
          · have hxlt : {u | reach A x u}.ncard < {u | reach A a u}.ncard :=
              ncard_reach_child_lt hacy hx (hfins a)
            have hx2 : reach B x b2 := ihn x (by omega) b2 hxb
            exact reach_head hkeep hx2
        · have hrem : ∃ c ∈ getA A a, reach A c x := by
            by_contra hno
            exact hkeep ((hB a x).mpr ⟨hx, hno⟩)
          rcases hrem with ⟨c, hc, hcx⟩
          have hlt1 : {u | reach A x u}.ncard < {u | reach A c u}.ncard :=
            ncard_reach_lt_of_reach hacy hcx (hfins c)
          have hlt2 : {u | reach A c u}.ncard < {u | reach A a u}.ncard :=
            ncard_reach_child_lt hacy hc (hfins a)
          refine ihk c hc (by omega) b2 ?_
          rcases hxb with rfl | hxb
          · exact Or.inr hcx
          · exact Or.inr (reach_trans hcx hxb)
    rcases reach_head_iff.mp hr with ⟨x, hx, hxb⟩
    exact hQ ({u | reach A a u}.ncard) x hx (by omega) b hxb

theorem ReduceTransitively_spec {d : DAG} (h : Inv d) :
    Inv (ReduceTransitively d) ∧
    (ReduceTransitively d).vertices = d.vertices ∧
    (ReduceTransitively d).vertexIds = d.vertexIds ∧
    (∀ a b, b ∈ getA (ReduceTransitively d).outboundEdge a ↔
      (b ∈ getA d.outboundEdge a ∧
        ¬ ∃ c, c ∈ getA d.outboundEdge a ∧ reach d.outboundEdge c b)) ∧
    (∀ a b, reach (ReduceTransitively d).outboundEdge a b ↔ reach d.outboundEdge a b) := by
  obtain ⟨h1Inv, h1v, h1i, h1o, h1b, h1grow, hpop⟩ :=
    popLoop_spec (d := d) (getRoots d) d h rfl rfl rfl rfl
  have hfc : ∀ u ∈ ((getRoots d).foldl (fun x r => (getDescendants x r).2) d).vertices,
      (findA ((getRoots d).foldl (fun x r =>
        (getDescendants x r).2) d).descendantsCache u).isSome = true := by
    intro u hu
    rw [h1v] at hu
    rcases exists_root h hu with ⟨r, hr, hru⟩
    rcases hru with he | hru
    · exact hpop r hr u (Or.inl he.symm)
    · exact hpop r hr u (Or.inr hru)
  have hSC : ∀ a b, shortcut ((getRoots d).foldl (fun x r => (getDescendants x r).2) d) a b ↔
      ∃ c, c ∈ getA d.outboundEdge a ∧ reach d.outboundEdge c b := by
    intro a b
    unfold shortcut
    constructor
    · rintro ⟨c, hc, hb⟩
      rw [h1o] at hc
      have hcv : c ∈ ((getRoots d).foldl (fun x r => (getDescendants x r).2) d).vertices := by
        rw [h1v]
        exact (h.edgeClosed a c hc).2
      rcases Option.isSome_iff_exists.mp (hfc c hcv) with ⟨w, hw⟩
      have hget : getA ((getRoots d).foldl (fun x r =>
          (getDescendants x r).2) d).descendantsCache c = w := by
        rw [getA, hw]
        rfl
      rw [hget] at hb
      have hiff := h1Inv.descOK c w hw b
      rw [h1o] at hiff
      exact ⟨c, hc, hiff.mp hb⟩
    · rintro ⟨c, hc, hb⟩
      have hc1 : c ∈ getA ((getRoots d).foldl (fun x r =>
          (getDescendants x r).2) d).outboundEdge a := by
        rw [h1o]
        exact hc
      have hcv : c ∈ ((getRoots d).foldl (fun x r => (getDescendants x r).2) d).vertices := by
        rw [h1v]
        exact (h.edgeClosed a c hc).2
      rcases Option.isSome_iff_exists.mp (hfc c hcv) with ⟨w, hw⟩
      have hget : getA ((getRoots d).foldl (fun x r =>
          (getDescendants x r).2) d).descendantsCache c = w := by
        rw [getA, hw]
        rfl
      have hiff := h1Inv.descOK c w hw b
      rw [h1o] at hiff
      refine ⟨c, hc1, ?_⟩
      rw [hget]
      exact hiff.mpr hb
  obtain ⟨hr1, hr2, hr3, hr4, hr5, hr6, hr7⟩ :=
    reduceLoop_spec h1Inv
      ((getRoots d).foldl (fun x r => (getDescendants x r).2) d).vertices
      (((getRoots d).foldl (fun x r => (getDescendants x r).2) d), false)
      (fun _ => False) False h1Inv.vNodup (by simp)
      (by intro a b; simp) (by intro a b; simp) rfl rfl rfl rfl (by simp)
  have houtchar : ∀ a b, b ∈ getA
      ((((getRoots d).foldl (fun x r => (getDescendants x r).2) d).vertices.foldl reduceStepV
        (((getRoots d).foldl (fun x r => (getDescendants x r).2) d), false)).1.outboundEdge) a ↔
      (b ∈ getA d.outboundEdge a ∧
        ¬ ∃ c, c ∈ getA d.outboundEdge a ∧ reach d.outboundEdge c b) := by
    intro a b
    rw [hr1 a b, h1o]
    constructor
    · rintro ⟨hb, h2⟩
      refine ⟨hb, ?_⟩
      intro hsc
      refine h2 ⟨Or.inr ?_, (hSC a b).mpr hsc⟩
      rw [h1v]
      exact (h.edgeClosed a b hb).1
    · rintro ⟨hb, h2⟩
      refine ⟨hb, ?_⟩
      rintro ⟨_, hsc⟩
      exact h2 ((hSC a b).mp hsc)
  have hinbchar : ∀ a b, b ∈ getA
      ((((getRoots d).foldl (fun x r => (getDescendants x r).2) d).vertices.foldl reduceStepV
        (((getRoots d).foldl (fun x r => (getDescendants x r).2) d), false)).1.inboundEdge) a ↔
      (b ∈ getA d.inboundEdge a ∧
        ¬ ∃ c, c ∈ getA d.outboundEdge b ∧ reach d.outboundEdge c a) := by
    intro a b
    rw [hr2 a b, h1b]
    constructor
    · rintro ⟨hb, h2⟩
      refine ⟨hb, ?_⟩
      intro hsc
      refine h2 ⟨Or.inr ?_, (hSC b a).mpr hsc⟩
      rw [h1v]
      exact (h.inbClosed a b hb).2
    · rintro ⟨hb, h2⟩
      refine ⟨hb, ?_⟩
      rintro ⟨_, hsc⟩
      exact h2 ((hSC b a).mp hsc)
  have hnodup := reduceLoop_nodup
    ((getRoots d).foldl (fun x r => (getDescendants x r).2) d).vertices
    (((getRoots d).foldl (fun x r => (getDescendants x r).2) d), false)
    h1Inv.outNodup h1Inv.inbNodup
  have hRT : ReduceTransitively d =
      (if (((getRoots d).foldl (fun x r => (getDescendants x r).2) d).vertices.foldl
          reduceStepV
          (((getRoots d).foldl (fun x r => (getDescendants x r).2) d), false)).2 = true
       then { (((getRoots d).foldl (fun x r => (getDescendants x r).2) d).vertices.foldl
          reduceStepV
          (((getRoots d).foldl (fun x r => (getDescendants x r).2) d), false)).1 with
          ancestorsCache := [], descendantsCache := [] }
       else (((getRoots d).foldl (fun x r => (getDescendants x r).2) d).vertices.foldl
          reduceStepV
          (((getRoots d).foldl (fun x r => (getDescendants x r).2) d), false)).1) := rfl
  have hsymmfin : ∀ a b, b ∈ getA
      ((((getRoots d).foldl (fun x r => (getDescendants x r).2) d).vertices.foldl reduceStepV
        (((getRoots d).foldl (fun x r => (getDescendants x r).2) d), false)).1.outboundEdge) a ↔
      a ∈ getA
      ((((getRoots d).foldl (fun x r => (getDescendants x r).2) d).vertices.foldl reduceStepV
        (((getRoots d).foldl (fun x r => (getDescendants x r).2) d), false)).1.inboundEdge) b := by
    intro a b
    rw [houtchar a b, hinbchar b a, h.symm a b]
  have hacyfin : ∀ x, ¬ reach
      ((((getRoots d).foldl (fun x r => (getDescendants x r).2) d).vertices.foldl reduceStepV
        (((getRoots d).foldl (fun x r => (getDescendants x r).2) d), false)).1.outboundEdge) x x := by
    intro x hx
    refine h.acyc x ?_
    exact Relation.TransGen.mono (fun a b hab => ((houtchar a b).mp hab).1) hx
  have hreachiff : ∀ a b, reach
      ((((getRoots d).foldl (fun x r => (getDescendants x r).2) d).vertices.foldl reduceStepV
        (((getRoots d).foldl (fun x r => (getDescendants x r).2) d), false)).1.outboundEdge) a b ↔
      reach d.outboundEdge a b := by
    intro a b
    constructor
    · exact Relation.TransGen.mono (fun x y hxy => ((houtchar x y).mp hxy).1)
    · exact reduction_preserves_reach h.acyc
        (fun x y hy => (h.edgeClosed x y hy).2) houtchar a b
  rw [hRT]
  cases hb2 : (((getRoots d).foldl (fun x r => (getDescendants x r).2) d).vertices.foldl
      reduceStepV
      (((getRoots d).foldl (fun x r => (getDescendants x r).2) d), false)).2 with
  | true =>
    rw [if_pos rfl]
    refine ⟨?_, hr3.trans h1v, hr4.trans h1i, houtchar, hreachiff⟩
    refine ⟨?_, ?_, ?_, ?_, ?_, ?_, ?_, ?_, ?_, ?_⟩
    · rw [show ({ (((getRoots d).foldl (fun x r => (getDescendants x r).2) d).vertices.foldl
          reduceStepV
          (((getRoots d).foldl (fun x r => (getDescendants x r).2) d), false)).1 with
          ancestorsCache := ([] : AdjMap), descendantsCache := ([] : AdjMap) } : DAG).vertices
        = (((getRoots d).foldl (fun x r => (getDescendants x r).2) d).vertices.foldl
          reduceStepV
          (((getRoots d).foldl (fun x r => (getDescendants x r).2) d), false)).1.vertices
        from rfl, hr3.trans h1v]
      exact h.vNodup
    · exact fun a => hnodup.1 a
    · exact fun a => hnodup.2 a
    · intro a b hb
      rcases (houtchar a b).mp hb with ⟨hb2, _⟩
      have h2 := h.edgeClosed a b hb2
      rw [show ({ (((getRoots d).foldl (fun x r => (getDescendants x r).2) d).vertices.foldl
          reduceStepV
          (((getRoots d).foldl (fun x r => (getDescendants x r).2) d), false)).1 with
          ancestorsCache := ([] : AdjMap), descendantsCache := ([] : AdjMap) } : DAG).vertices
        = (((getRoots d).foldl (fun x r => (getDescendants x r).2) d).vertices.foldl
          reduceStepV
          (((getRoots d).foldl (fun x r => (getDescendants x r).2) d), false)).1.vertices
        from rfl, hr3.trans h1v]
      exact h2
    · exact hsymmfin
    · exact hacyfin
    · intro k s hk
      exact absurd hk (by exact fun hx => Option.noConfusion hx)
    · intro k s hk
      exact absurd hk (by exact fun hx => Option.noConfusion hx)
    · intro k s hk
      exact absurd hk (by exact fun hx => Option.noConfusion hx)
    · intro k s hk
      exact absurd hk (by exact fun hx => Option.noConfusion hx)
  | false =>
    rw [if_neg (by simp)]
    have hnosc : ¬ ∃ a ∈ ((getRoots d).foldl (fun x r =>
        (getDescendants x r).2) d).vertices, ∃ b,
        b ∈ getA ((getRoots d).foldl (fun x r =>
          (getDescendants x r).2) d).outboundEdge a ∧
        shortcut ((getRoots d).foldl (fun x r => (getDescendants x r).2) d) a b := by
      intro hex
      have := hr7.mpr (Or.inr hex)
      rw [hb2] at this
      exact Bool.noConfusion this
    have hsameout : ∀ a b, b ∈ getA
        ((((getRoots d).foldl (fun x r => (getDescendants x r).2) d).vertices.foldl
          reduceStepV
          (((getRoots d).foldl (fun x r => (getDescendants x r).2) d), false)).1.outboundEdge) a ↔
        b ∈ getA ((getRoots d).foldl (fun x r =>
          (getDescendants x r).2) d).outboundEdge a := by
      intro a b
      rw [hr1 a b]
      constructor
      · rintro ⟨hb, _⟩
        exact hb
      · intro hb
        refine ⟨hb, ?_⟩
        rintro ⟨hm, hsc⟩
        rcases hm with hm | hm
        · exact hm
        · exact hnosc ⟨a, hm, b, hb, hsc⟩
    have hsameinb : ∀ a b, b ∈ getA
        ((((getRoots d).foldl (fun x r => (getDescendants x r).2) d).vertices.foldl
          reduceStepV
          (((getRoots d).foldl (fun x r => (getDescendants x r).2) d), false)).1.inboundEdge) a ↔
        b ∈ getA ((getRoots d).foldl (fun x r =>
          (getDescendants x r).2) d).inboundEdge a := by
      intro a b
      rw [hr2 a b]
      constructor
      · rintro ⟨hb, _⟩
        exact hb
      · intro hb
        refine ⟨hb, ?_⟩
        rintro ⟨hm, hsc⟩
        rcases hm with hm | hm
        · exact hm
        · refine hnosc ⟨b, hm, a, ?_, hsc⟩
          exact (h1Inv.symm b a).mpr hb
    have hreachsame : ∀ a b, reach
        ((((getRoots d).foldl (fun x r => (getDescendants x r).2) d).vertices.foldl
          reduceStepV
          (((getRoots d).foldl (fun x r => (getDescendants x r).2) d), false)).1.outboundEdge) a b ↔
        reach ((getRoots d).foldl (fun x r =>
          (getDescendants x r).2) d).outboundEdge a b := by
      intro a b
      exact reach_congr (fun x y => hsameout x y)
    have hreachsameinb : ∀ a b, reach
        ((((getRoots d).foldl (fun x r => (getDescendants x r).2) d).vertices.foldl
          reduceStepV
          (((getRoots d).foldl (fun x r => (getDescendants x r).2) d), false)).1.inboundEdge) a b ↔
        reach ((getRoots d).foldl (fun x r =>
          (getDescendants x r).2) d).inboundEdge a b := by
      intro a b
      exact reach_congr (fun x y => hsameinb x y)
    refine ⟨?_, hr3.trans h1v, hr4.trans h1i, houtchar, hreachiff⟩
    refine ⟨?_, ?_, ?_, ?_, ?_, ?_, ?_, ?_, ?_, ?_⟩
    · rw [hr3.trans h1v]
      exact h.vNodup
    · exact fun a => hnodup.1 a
    · exact fun a => hnodup.2 a
    · intro a b hb
      rcases (houtchar a b).mp hb with ⟨hb2, _⟩
      have h2 := h.edgeClosed a b hb2
      rw [hr3.trans h1v]
      exact h2
    · exact hsymmfin
    · exact hacyfin
    · intro k s hk u
      rw [hr6] at hk
      rw [h1Inv.descOK k s hk u, hreachsame k u]
    · intro k s hk u
      rw [hr5] at hk
      rw [h1Inv.ancOK k s hk u, hreachsameinb k u]
    · intro k s hk u hu
      rw [hr6] at hk ⊢
      exact h1Inv.descClosed k s hk u hu
    · intro k s hk u hu
      rw [hr5] at hk ⊢
      exact h1Inv.ancClosed k s hk u hu

theorem ReduceTransitively_Inv {d : DAG} (h : Inv d) : Inv (ReduceTransitively d) :=
  (ReduceTransitively_spec h).1

theorem GetAncestors_Inv {d : DAG} (h : Inv d) (v? : Option V) :
    Inv (GetAncestors d v?).2 := by
  cases v? with
  | none => exact h
  | some v =>
    simp only [GetAncestors]
    by_cases h1 : v ∈ d.vertices
    · rw [if_pos h1]
      exact (getAncestors_spec h v).2.1
    · rw [if_neg h1]
      exact h

theorem Reachable_Inv {d : DAG} (h : Reachable d) : Inv d := by
  induction h with
  | newDAG => exact NewDAG_Inv
  | addVertex d v? _ ih => exact AddVertex_Inv ih v?
  | addEdge d s? t? _ ih => exact AddEdge_Inv ih s? t?
  | deleteVertex d v? _ ih => exact DeleteVertex_Inv ih v?
  | deleteEdge d s? t? _ ih => exact DeleteEdge_Inv ih s? t?
  | reduce d _ ih => exact ReduceTransitively_Inv ih
  | getDesc d v? _ ih => exact GetDescendants_Inv ih v?
  | getAnc d v? _ ih => exact GetAncestors_Inv ih v?
  | flush d _ ih => exact FlushCaches_Inv ih

/-!  The breadth-first walkers: paths, distances and the queue loop. -/

theorem pathN_reach {A : AdjMap} {n : Nat} {a b : V} (h : pathN A n a b) : reach A a b := by
  induction h with
  | single h1 => exact Relation.TransGen.single h1
  | tail _ h2 ih => exact Relation.TransGen.tail ih h2

theorem reach_pathN {A : AdjMap} {a b : V} (h : reach A a b) : ∃ n, pathN A n a b := by
  induction h with
  | single h1 => exact ⟨1, pathN.single h1⟩
  | tail _ h2 ih =>
    rcases ih with ⟨n, hn⟩
    exact ⟨n + 1, pathN.tail hn h2⟩

theorem pathN_zero {A : AdjMap} {a b : V} (h : pathN A 0 a b) : False := by
  cases h

theorem pathN_succ_inv {A : AdjMap} {n : Nat} {a b : V} (h : pathN A (n + 1) a b) :
    (n = 0 ∧ adjRel A a b) ∨ ∃ p, pathN A n a p ∧ adjRel A p b := by
  cases h with
  | single h1 => exact Or.inl ⟨rfl, h1⟩
  | tail hp he => exact Or.inr ⟨_, hp, he⟩

theorem distV_pathN {A : AdjMap} {a b : V} (h : reach A a b) : pathN A (distV A a b) a b := by
  rcases reach_pathN h with ⟨n, hn⟩
  have hne : Set.Nonempty {m | pathN A m a b} := ⟨n, hn⟩
  exact Nat.sInf_mem hne

theorem distV_le {A : AdjMap} {n : Nat} {a b : V} (h : pathN A n a b) : distV A a b ≤ n :=
  Nat.sInf_le h

theorem distV_pos {A : AdjMap} {a b : V} (h : reach A a b) : 1 ≤ distV A a b := by
  rcases Nat.eq_zero_or_pos (distV A a b) with h0 | h1
  · exact absurd (h0 ▸ distV_pathN h) pathN_zero
  · exact h1

theorem filter_length_mono {p q : V → Bool} (l : List V)
    (h : ∀ x ∈ l, p x = true → q x = true) :
    (l.filter p).length ≤ (l.filter q).length := by
  induction l with
  | nil => simp
  | cons a t ih =>
    have ih2 := ih (fun x hx => h x (List.mem_cons_of_mem a hx))
    cases hpa : p a with
    | false =>
      cases hqa : q a with
      | false => simp [List.filter_cons, hpa, hqa, ih2]
      | true =>
        simp only [List.filter_cons, hpa, hqa, if_true, if_false]
        simp only [Bool.false_eq_true, if_false, List.length_cons]
        exact le_trans ih2 (Nat.le_succ _)
    | true =>
      have hqa := h a (List.mem_cons_self a t) hpa
      simp only [List.filter_cons, hpa, hqa, if_true, List.length_cons]
      exact Nat.succ_le_succ ih2

theorem filter_snoc_succ_le :
    ∀ (verts vis : List V) (x : V), verts.Nodup → x ∈ verts → x ∉ vis →
    (verts.filter (fun y => decide (y ∉ vis ++ [x]))).length + 1 ≤
      (verts.filter (fun y => decide (y ∉ vis))).length := by
  intro verts
  induction verts with
  | nil =>
    intro vis x _ hx _
    cases hx
  | cons a t ih =>
    intro vis x hv hx hxv
    rcases List.nodup_cons.mp hv with ⟨hat, htn⟩
    by_cases hax : a = x
    · subst hax
      have h1 : (decide (a ∉ vis ++ [a])) = false := by simp
      have h2 : (decide (a ∉ vis)) = true := by simp [hxv]
      simp only [List.filter_cons, h1, h2, if_true, List.length_cons]
      simp only [Bool.false_eq_true, if_false]
      refine Nat.succ_le_succ (filter_length_mono t ?_)
      intro y _ hy
      simp only [decide_eq_true_eq] at hy ⊢
      intro hmem
      exact hy (List.mem_append_left _ hmem)
    · have hxt : x ∈ t := by
        rcases List.mem_cons.mp hx with h | h
        · exact absurd h.symm hax
        · exact h
      have hsame : (decide (a ∉ vis ++ [x])) = (decide (a ∉ vis)) := by
        by_cases hav : a ∈ vis <;> simp [hav, hax]
      by_cases hav : a ∈ vis
      · have h1 : (decide (a ∉ vis)) = false := by simp [hav]
        rw [List.filter_cons, List.filter_cons, hsame, h1]
        simp only [Bool.false_eq_true, if_false]
        exact ih vis x htn hxt hxv
      · have h1 : (decide (a ∉ vis)) = true := by simp [hav]
        rw [List.filter_cons, List.filter_cons, hsame, h1]
        simp only [if_true, List.length_cons]
        exact Nat.succ_le_succ (ih vis x htn hxt hxv)

theorem unseen_append (verts : List V) (hv : verts.Nodup) :
    ∀ (new vis : List V), new.Nodup → (∀ x ∈ new, x ∈ verts ∧ x ∉ vis) →
      new.length + unseen verts (vis ++ new) ≤ unseen verts vis := by
  intro new
  induction new with
  | nil =>
    intro vis _ _
    simp [unseen]
  | cons x new ih =>
    intro vis hn hmem
    rcases List.nodup_cons.mp hn with ⟨hxn, hnn⟩
    have h1 := ih (vis ++ [x]) hnn (fun y hy => ⟨(hmem y (List.mem_cons_of_mem _ hy)).1, by
      intro hmem2
      rcases List.mem_append.mp hmem2 with h | h
      · exact (hmem y (List.mem_cons_of_mem _ hy)).2 h
      · rcases List.mem_singleton.mp h with rfl
        exact hxn hy⟩)
    have h2 := filter_snoc_succ_le verts vis x hv (hmem x (List.mem_cons_self _ _)).1
      (hmem x (List.mem_cons_self _ _)).2
    have h3 : vis ++ x :: new = (vis ++ [x]) ++ new := by simp
    rw [h3]
    simp only [List.length_cons]
    have h4 : unseen verts ((vis ++ [x]) ++ new) + new.length ≤ unseen verts (vis ++ [x]) := by
      omega
    have h5 : unseen verts (vis ++ [x]) + 1 ≤ unseen verts vis := h2
    omega

theorem walk_fold_spec (cs : List V) :
    ∀ (r vis : List V), vis.Nodup →
    ∃ new : List V,
      (cs.foldl (fun (p : List V × List V) c =>
        if c ∈ p.2 then p else (p.1 ++ [c], p.2 ++ [c])) (r, vis)).1 = r ++ new ∧
      (cs.foldl (fun (p : List V × List V) c =>
        if c ∈ p.2 then p else (p.1 ++ [c], p.2 ++ [c])) (r, vis)).2 = vis ++ new ∧
      new.Nodup ∧ (∀ x ∈ new, x ∈ cs ∧ x ∉ vis) ∧
      (∀ c ∈ cs, c ∈ (cs.foldl (fun (p : List V × List V) c =>
        if c ∈ p.2 then p else (p.1 ++ [c], p.2 ++ [c])) (r, vis)).2) := by
  induction cs with
  | nil =>
    intro r vis _
    exact ⟨[], by simp, by simp, List.nodup_nil, by simp, by simp⟩
  | cons c cs ih =>
    intro r vis hvis
    by_cases hc : c ∈ vis
    · have hstep : (if c ∈ (r, vis).2 then (r, vis)
          else ((r, vis).1 ++ [c], (r, vis).2 ++ [c])) = (r, vis) := by
        simp [hc]
      rw [List.foldl_cons, hstep]
      rcases ih r vis hvis with ⟨new, h1, h2, h3, h4, h5⟩
      refine ⟨new, h1, h2, h3,
        fun x hx => ⟨List.mem_cons_of_mem _ (h4 x hx).1, (h4 x hx).2⟩, ?_⟩
      intro c0 hc0
      rcases List.mem_cons.mp hc0 with he | hm
      · rw [h2, he]
        exact List.mem_append_left _ hc
      · exact h5 c0 hm
    · have hstep : (if c ∈ (r, vis).2 then (r, vis)
          else ((r, vis).1 ++ [c], (r, vis).2 ++ [c])) = (r ++ [c], vis ++ [c]) := by
        simp [hc]
      rw [List.foldl_cons, hstep]
      have hvis2 : (vis ++ [c]).Nodup := by
        rw [List.nodup_append]
        refine ⟨hvis, List.nodup_singleton c, ?_⟩
        intro x hx hx2
        rcases List.mem_singleton.mp hx2 with rfl
        exact hc hx
      rcases ih (r ++ [c]) (vis ++ [c]) hvis2 with ⟨new, h1, h2, h3, h4, h5⟩
      refine ⟨c :: new, ?_, ?_, ?_, ?_, ?_⟩
      · rw [h1]
        simp
      · rw [h2]
        simp
      · rw [List.nodup_cons]
        refine ⟨?_, h3⟩
        intro hmem
        exact (h4 c hmem).2 (List.mem_append_right _ (List.mem_singleton.mpr rfl))
      · intro x hx
        rcases List.mem_cons.mp hx with he | hm
        · rw [he]
          exact ⟨List.mem_cons_self _ _, hc⟩
        · refine ⟨List.mem_cons_of_mem _ (h4 x hm).1, ?_⟩
          intro hmem
          exact (h4 x hm).2 (List.mem_append_left _ hmem)
      · intro c0 hc0
        rcases List.mem_cons.mp hc0 with he | hm
        · rw [h2, he]
          exact List.mem_append_left _ (List.mem_append_right _ (List.mem_singleton.mpr rfl))
        · exact h5 c0 hm

theorem walkF_spec (A : AdjMap) (verts : List V) (v : V)
    (hvn : verts.Nodup)
    (hcl : ∀ a b, b ∈ getA A a → b ∈ verts) :
    ∀ (n : Nat) (fifo visited : List V),
    visited.Nodup → fifo.Nodup →
    (∀ x ∈ fifo, x ∈ visited) →
    (∀ x ∈ visited, reach A v x) →
    (∀ c ∈ getA A v, c ∈ visited) →
    (∀ x ∈ visited, x ∉ fifo → ∀ c ∈ getA A x, c ∈ visited) →
    List.Pairwise (fun x y => distV A v x ≤ distV A v y) fifo →
    (∀ x ∈ fifo, ∀ y ∈ fifo, distV A v x ≤ distV A v y + 1) →
    (∀ u, reach A v u → u ∉ visited → ∀ x ∈ fifo, distV A v x ≤ distV A v u) →
    fifo.length + unseen verts visited ≤ n →
    (walkF A n fifo visited).Nodup ∧
    (∀ x, x ∈ walkF A n fifo visited ↔ x ∈ fifo ∨ (x ∉ visited ∧ reach A v x)) ∧
    List.Pairwise (fun x y => distV A v x ≤ distV A v y) (walkF A n fifo visited) := by
  intro n
  induction n with
  | zero =>
    intro fifo visited _ _ _ _ hJ5 hJ3 _ _ _ hfuel
    have hfifo : fifo = [] := List.eq_nil_of_length_eq_zero (by omega)
    subst hfifo
    have hall : ∀ u, reach A v u → u ∈ visited := by
      intro u hu
      induction hu with
      | single h1 => exact hJ5 _ h1
      | tail _ h2 ihp => exact hJ3 _ ihp (by simp) _ h2
    refine ⟨by rw [walkF]; exact List.nodup_nil, ?_, by rw [walkF]; exact List.Pairwise.nil⟩
    intro x
    rw [walkF]
    constructor
    · intro hx
      cases hx
    · rintro (hx | ⟨hnx, hr⟩)
      · cases hx
      · exact absurd (hall x hr) hnx
  | succ n ih =>
    intro fifo visited hvisn hfn hfsub hvreach hJ5 hJ3 hJ1 hJ6 hJ2 hfuel
    cases fifo with
    | nil =>
      have hall : ∀ u, reach A v u → u ∈ visited := by
        intro u hu
        induction hu with
        | single h1 => exact hJ5 _ h1
        | tail _ h2 ihp => exact hJ3 _ ihp (by simp) _ h2
      refine ⟨by rw [show walkF A (n + 1) [] visited = [] from rfl]; exact List.nodup_nil, ?_,
        by rw [show walkF A (n + 1) [] visited = [] from rfl]; exact List.Pairwise.nil⟩
      intro x
      rw [show walkF A (n + 1) [] visited = [] from rfl]
      constructor
      · intro hx
        cases hx
      · rintro (hx | ⟨hnx, hr⟩)
        · cases hx
        · exact absurd (hall x hr) hnx
    | cons top rest =>
      have htopvis : top ∈ visited := hfsub top (List.mem_cons_self _ _)
      have htopreach : reach A v top := hvreach top htopvis
      have hJ1head : ∀ y ∈ rest, distV A v top ≤ distV A v y := by
        intro y hy
        exact (List.pairwise_cons.mp hJ1).1 y hy
      have hJ1rest := (List.pairwise_cons.mp hJ1).2
      have hbound : ∀ u, reach A v u → u ∉ visited →
          distV A v top + 1 ≤ distV A v u := by
        intro u hu hnu
        by_contra hlt
        push_neg at hlt
        have hp := distV_pathN hu
        cases hdu : distV A v u with
        | zero =>
          rw [hdu] at hp
          exact pathN_zero hp
        | succ m =>
          rw [hdu] at hp hlt
          rcases pathN_succ_inv hp with ⟨_, he⟩ | ⟨p, hpp, hpe⟩
          · exact hnu (hJ5 u he)
          · have hrp : reach A v p := pathN_reach hpp
            have hdp : distV A v p ≤ m := distV_le hpp
            by_cases hpvis : p ∈ visited
            · by_cases hpf : p ∈ top :: rest
              · rcases List.mem_cons.mp hpf with he2 | he2
                · rw [he2] at hdp
                  omega
                · have := hJ1head p he2
                  omega
              · exact hnu (hJ3 p hpvis hpf u hpe)
            · have := hJ2 p hrp hpvis top (List.mem_cons_self _ _)
              omega
      rcases walk_fold_spec (getA A top) rest visited hvisn with ⟨new, hf1, hf2, hfn3, hf4, hf5⟩
      have hstep : walkF A (n + 1) (top :: rest) visited =
          top :: walkF A n ((getA A top).foldl (fun (p : List V × List V) c =>
            if c ∈ p.2 then p else (p.1 ++ [c], p.2 ++ [c])) (rest, visited)).1
            ((getA A top).foldl (fun (p : List V × List V) c =>
            if c ∈ p.2 then p else (p.1 ++ [c], p.2 ++ [c])) (rest, visited)).2 := rfl
      have hnewd : ∀ c ∈ new, distV A v c = distV A v top + 1 := by
        intro c hcnew
        rcases hf4 c hcnew with ⟨hcc, hcv⟩
        have hrc : reach A v c := Relation.TransGen.tail htopreach hcc
        have hle : distV A v c ≤ distV A v top + 1 :=
          distV_le (pathN.tail (distV_pathN htopreach) hcc)
        have hge := hbound c hrc hcv
        omega
      have hvis2 : (visited ++ new).Nodup := by
        rw [List.nodup_append]
        refine ⟨hvisn, hfn3, ?_⟩
        intro x hx hx2
        exact (hf4 x hx2).2 hx
      have hrestn : rest.Nodup := (List.nodup_cons.mp hfn).2
      have htopnr : top ∉ rest := (List.nodup_cons.mp hfn).1
      have hfifo2 : (rest ++ new).Nodup := by
        rw [List.nodup_append]
        refine ⟨hrestn, hfn3, ?_⟩
        intro x hx hx2
        exact (hf4 x hx2).2 (hfsub x (List.mem_cons_of_mem _ hx))
      have hfsub2 : ∀ x ∈ rest ++ new, x ∈ visited ++ new := by
        intro x hx
        rcases List.mem_append.mp hx with hx | hx
        · exact List.mem_append_left _ (hfsub x (List.mem_cons_of_mem _ hx))
        · exact List.mem_append_right _ hx
      have hvreach2 : ∀ x ∈ visited ++ new, reach A v x := by
        intro x hx
        rcases List.mem_append.mp hx with hx | hx
        · exact hvreach x hx
        · exact Relation.TransGen.tail htopreach (hf4 x hx).1
      have hJ52 : ∀ c ∈ getA A v, c ∈ visited ++ new := fun c hc =>
        List.mem_append_left _ (hJ5 c hc)
      have hJ32 : ∀ x ∈ visited ++ new, x ∉ rest ++ new →
          ∀ c ∈ getA A x, c ∈ visited ++ new := by
        intro x hx hnx c hc
        rcases List.mem_append.mp hx with hx | hx
        · by_cases hxt : x = top
          · rw [hxt] at hc
            rw [← hf2]
            exact hf5 c hc
          · have hxf : x ∉ top :: rest := by
              intro hmem
              rcases List.mem_cons.mp hmem with h | h
              · exact hxt h
              · exact hnx (List.mem_append_left _ h)
            exact List.mem_append_left _ (hJ3 x hx hxf c hc)
        · exact absurd (List.mem_append_right _ hx) hnx
      have hJ12 : List.Pairwise (fun x y => distV A v x ≤ distV A v y) (rest ++ new) := by
        rw [List.pairwise_append]
        refine ⟨hJ1rest, ?_, ?_⟩
        · exact List.pairwise_of_forall_mem_list
            (fun a ha b hb => le_of_eq ((hnewd a ha).trans (hnewd b hb).symm))
        · intro a ha b hb
          exact le_trans (hJ6 a (List.mem_cons_of_mem _ ha) top (List.mem_cons_self _ _))
            (le_of_eq (hnewd b hb).symm)
      have hJ62 : ∀ x ∈ rest ++ new, ∀ y ∈ rest ++ new,
          distV A v x ≤ distV A v y + 1 := by
        intro x hx y hy
        rcases List.mem_append.mp hx with hx | hx <;> rcases List.mem_append.mp hy with hy | hy
        · exact hJ6 x (List.mem_cons_of_mem _ hx) y (List.mem_cons_of_mem _ hy)
        · have := hJ6 x (List.mem_cons_of_mem _ hx) top (List.mem_cons_self _ _)
          rw [hnewd y hy]
          omega
        · have := hJ1head y hy
          rw [hnewd x hx]
          omega
        · rw [hnewd x hx, hnewd y hy]
          omega
      have hJ22 : ∀ u, reach A v u → u ∉ visited ++ new → ∀ x ∈ rest ++ new,
          distV A v x ≤ distV A v u := by
        intro u hu hnu x hx
        have hnuv : u ∉ visited := fun hmem => hnu (List.mem_append_left _ hmem)
        rcases List.mem_append.mp hx with hx | hx
        · exact hJ2 u hu hnuv x (List.mem_cons_of_mem _ hx)
        · rw [hnewd x hx]
          exact hbound u hu hnuv
      have hfuel2 : (rest ++ new).length + unseen verts (visited ++ new) ≤ n := by
        have hunew := unseen_append verts hvn new visited hfn3
          (fun x hx => ⟨hcl top x (hf4 x hx).1, (hf4 x hx).2⟩)
        have hlen : (rest ++ new).length = rest.length + new.length :=
          List.length_append _ _
        have hfl : (top :: rest).length + unseen verts visited ≤ n + 1 := hfuel
        simp only [List.length_cons] at hfl
        omega
      obtain ⟨ihn, ihm, ihp⟩ := ih (rest ++ new) (visited ++ new) hvis2 hfifo2 hfsub2
        hvreach2 hJ52 hJ32 hJ12 hJ62 hJ22 hfuel2
      rw [hstep, hf1, hf2]
      refine ⟨?_, ?_, ?_⟩
      · rw [List.nodup_cons]
        refine ⟨?_, ihn⟩
        intro hmem
        rcases (ihm top).mp hmem with h | ⟨h, _⟩
        · rcases List.mem_append.mp h with h | h
          · exact htopnr h
          · exact (hf4 top h).2 htopvis
        · exact h (List.mem_append_left _ htopvis)
      · intro x
        rw [List.mem_cons, ihm x]
        constructor
        · rintro (he | h | ⟨h1, h2⟩)
          · rw [he]
            exact Or.inl (List.mem_cons_self _ _)
          · rcases List.mem_append.mp h with h | h
            · exact Or.inl (List.mem_cons_of_mem _ h)
            · exact Or.inr ⟨(hf4 x h).2, Relation.TransGen.tail htopreach (hf4 x h).1⟩
          · exact Or.inr ⟨fun hm => h1 (List.mem_append_left _ hm), h2⟩
        · rintro (h | ⟨h1, h2⟩)
          · rcases List.mem_cons.mp h with h | h
            · exact Or.inl h
            · exact Or.inr (Or.inl (List.mem_append_left _ h))
          · by_cases hxnew : x ∈ new
            · exact Or.inr (Or.inl (List.mem_append_right _ hxnew))
            · refine Or.inr (Or.inr ⟨?_, h2⟩)
              intro hm
              rcases List.mem_append.mp hm with hm | hm
              · exact h1 hm
              · exact hxnew hm
      · rw [List.pairwise_cons]
        refine ⟨?_, ihp⟩
        intro y hy
        rcases (ihm y).mp hy with h | ⟨h1, h2⟩
        · rcases List.mem_append.mp h with h | h
          · exact hJ1head y h
          · exact le_trans (Nat.le_succ _) (le_of_eq (hnewd y h).symm)
        · exact le_trans (Nat.le_succ _)
            (hbound y h2 (fun hm => h1 (List.mem_append_left _ hm)))

theorem walkF_run {A : AdjMap} {d : DAG} (hvn : d.vertices.Nodup)
    (hcl : ∀ a b, b ∈ getA A a → a ∈ d.vertices ∧ b ∈ d.vertices)
    (hnod : ∀ a, (getA A a).Nodup) (v : V) :
    (walkF A (d.vertices.length + 1) (getA A v) (getA A v)).Nodup ∧
    (∀ x, x ∈ walkF A (d.vertices.length + 1) (getA A v) (getA A v) ↔ reach A v x) ∧
    List.Pairwise (fun x y => distV A v x ≤ distV A v y)
      (walkF A (d.vertices.length + 1) (getA A v) (getA A v)) := by
  have hd1 : ∀ c ∈ getA A v, distV A v c = 1 := by
    intro c hc
    have hle : distV A v c ≤ 1 := distV_le (pathN.single hc)
    have hge : 1 ≤ distV A v c := distV_pos (Relation.TransGen.single hc)
    omega
  have hfuel : (getA A v).length + unseen d.vertices (getA A v) ≤ d.vertices.length + 1 := by
    have h1 := unseen_append d.vertices hvn (getA A v) [] (hnod v)
      (fun x hx => ⟨(hcl v x hx).2, by simp⟩)
    have h2 : unseen d.vertices ([] : List V) = d.vertices.length := by
      simp [unseen]
    rw [List.nil_append] at h1
    omega
  obtain ⟨hn, hm, hp⟩ := walkF_spec A d.vertices v hvn (fun a b hb => (hcl a b hb).2)
    (d.vertices.length + 1) (getA A v) (getA A v) (hnod v) (hnod v)
    (fun x hx => hx) (fun x hx => Relation.TransGen.single hx) (fun c hc => hc)
    (fun x hx hnx => absurd hx hnx)
    (List.pairwise_of_forall_mem_list
      (fun a ha b hb => le_of_eq ((hd1 a ha).trans (hd1 b hb).symm)))
    (fun x hx y _ => by rw [hd1 x hx]; omega)
    (fun u hu _ x hx => by rw [hd1 x hx]; exact distV_pos hu)
    hfuel
  refine ⟨hn, ?_, hp⟩
  intro x
  rw [hm x]
  constructor
  · rintro (h | ⟨_, h⟩)
    · exact Relation.TransGen.single h
    · exact h
  · intro h
    by_cases hx : x ∈ getA A v
    · exact Or.inl hx
    · exact Or.inr ⟨hx, h⟩

theorem GetOrderedDescendants_ok {d : DAG} (h : Inv d) {v : V} (hv : v ∈ d.vertices) :
    ∃ L, GetOrderedDescendants d (some v) = .ok L ∧ L.Nodup ∧
      (∀ x, x ∈ L ↔ reach d.outboundEdge v x) ∧
      List.Pairwise (fun x y =>
        distV d.outboundEdge v x ≤ distV d.outboundEdge v y) L := by
  obtain ⟨hn, hm, hp⟩ := walkF_run (A := d.outboundEdge) (d := d) h.vNodup
    h.edgeClosed h.outNodup v
  refine ⟨_, ?_, hn, hm, hp⟩
  simp only [GetOrderedDescendants]
  rw [if_pos hv]

theorem GetOrderedAncestors_ok {d : DAG} (h : Inv d) {v : V} (hv : v ∈ d.vertices) :
    ∃ L, GetOrderedAncestors d (some v) = .ok L ∧ L.Nodup ∧
      (∀ x, x ∈ L ↔ reach d.outboundEdge x v) ∧
      List.Pairwise (fun x y =>
        distV d.inboundEdge v x ≤ distV d.inboundEdge v y) L := by
  obtain ⟨hn, hm, hp⟩ := walkF_run (A := d.inboundEdge) (d := d) h.vNodup
    (fun a b hb => ⟨(h.inbClosed a b hb).1, (h.inbClosed a b hb).2⟩) h.inbNodup v
  refine ⟨_, ?_, hn, ?_, hp⟩
  · simp only [GetOrderedAncestors]
    rw [if_pos hv]
  · intro x
    rw [hm x]
    exact h.reach_inb_iff

/-!  Reachability of the concrete example states, and the claim theorems. -/

theorem Reachable_exDiamond : Reachable exDiamond :=
  Reachable.addEdge _ _ _ (Reachable.addEdge _ _ _ (Reachable.addEdge _ _ _
    (Reachable.addEdge _ _ _ (Reachable.addEdge _ _ _ Reachable.newDAG))))

theorem Reachable_exShortcut : Reachable exShortcut :=
  Reachable.addEdge _ _ _ (Reachable.addEdge _ _ _ (Reachable.addEdge _ _ _
    (Reachable.addEdge _ _ _ (Reachable.addEdge _ _ _ Reachable.newDAG))))

theorem Reachable_exC2pre : Reachable exC2pre :=
  Reachable.addVertex _ _ Reachable.newDAG

theorem Reachable_exC4pre : Reachable exC4pre :=
  Reachable.getDesc _ _ (Reachable.addVertex _ _ (Reachable.addVertex _ _ Reachable.newDAG))

/-- C1: in every reachable state the edge relation is acyclic.  Amended
clause: for `src = dst`, `AddEdge` returns `SrcDstEqualError` (not
`EdgeLoopError` as claimed) and leaves the state unchanged; when
`src ≠ dst` and `src` is a descendant of `dst`, it returns `EdgeLoopError`
and inserts no edge. -/
theorem C1_acyclic_invariant {d : DAG} (h : Reachable d) :
    (∀ x, ¬ reach d.outboundEdge x x) ∧
    (∀ s : V, AddEdge d (some s) (some s) = (d, some Err.SrcDstEqualError)) ∧
    (∀ s t : V, s ≠ t → reach d.outboundEdge t s →
      (AddEdge d (some s) (some t)).2 = some Err.EdgeLoopError ∧
      (AddEdge d (some s) (some t)).1.outboundEdge = d.outboundEdge ∧
      (AddEdge d (some s) (some t)).1.inboundEdge = d.inboundEdge) := by
  have hInv := Reachable_Inv h
  refine ⟨hInv.acyc, fun s => AddEdge_self d rfl, ?_⟩
  intro s t hst hts
  have hsv : s ∈ d.vertices := by
    rcases Relation.TransGen.tail'_iff.mp hts with ⟨c, _, hc⟩
    exact (hInv.edgeClosed c s hc).2
  have htv : t ∈ d.vertices := by
    rcases Relation.TransGen.head'_iff.mp hts with ⟨c, hc, _⟩
    exact (hInv.edgeClosed t c hc).1
  have hes : ensure d s = .ok d := ensure_mem hsv
  have het : ensure d t = .ok d := ensure_mem htv
  have hnedge : ¬ isEdge d s t := by
    intro he
    exact hInv.acyc s (Relation.TransGen.trans (Relation.TransGen.single he.1) hts)
  obtain ⟨hgd1, hgdInv, hgdverts, hgdids, hgdout, hgdinb, hgdanc, _, _⟩ :=
    getDescendants_spec hInv t
  have hmem : s ∈ (getDescendants d t).1 := (hgd1 s).mpr hts
  have hcall := AddEdge_loop_eq hst hes het hnedge hmem
  obtain ⟨_, _, hgaverts, hgaids, hgaout, hgainb, hgadesc, _, _⟩ :=
    getAncestors_spec hgdInv s
  rw [hcall]
  exact ⟨rfl, hgaout.trans hgdout, hgainb.trans hgdinb⟩

theorem C1_witness :
    (∀ x, ¬ reach exDiamond.outboundEdge x x) ∧
    (AddEdge exDiamond (some (mkV 4)) (some (mkV 0))).2 = some Err.EdgeLoopError := by
  have hc := C1_acyclic_invariant Reachable_exDiamond
  have h03 : mkV 3 ∈ getA exDiamond.outboundEdge (mkV 0) := by decide
  have h34 : mkV 4 ∈ getA exDiamond.outboundEdge (mkV 3) := by decide
  have hreach : reach exDiamond.outboundEdge (mkV 0) (mkV 4) :=
    Relation.TransGen.tail (Relation.TransGen.single h03) h34
  exact ⟨hc.1, (hc.2.2 (mkV 4) (mkV 0) (by decide) hreach).1⟩

theorem C1_counterexample :
    (AddEdge exDiamond (some (mkV 0)) (some (mkV 0))).2 = some Err.SrcDstEqualError ∧
    Err.SrcDstEqualError ≠ Err.EdgeLoopError := by
  decide

/-- C2: amended — when `AddEdge` returns an error the adjacency maps are
unchanged and no cache entry is lost or altered, and for
`VertexNilError` / `SrcDstEqualError` / `EdgeDuplicateError` the state is
fully unchanged; but an `IdDuplicateError` raised for `dst` can leave
`src` freshly added to the vertex set and id map, and an `EdgeLoopError`
leaves vertices and ids unchanged while the loop check may have populated
closure-cache entries, so the whole state is not always identical. -/
theorem C2_addedge_error_state {d : DAG} (h : Reachable d) {src? dst? : Option V}
    {d' : DAG} {e : Err} (hcall : AddEdge d src? dst? = (d', some e)) :
    d'.outboundEdge = d.outboundEdge ∧ d'.inboundEdge = d.inboundEdge ∧
    (∀ k w, findA d.descendantsCache k = some w → findA d'.descendantsCache k = some w) ∧
    (∀ k w, findA d.ancestorsCache k = some w → findA d'.ancestorsCache k = some w) ∧
    ((e = .VertexNilError ∨ e = .SrcDstEqualError ∨ e = .EdgeDuplicateError) → d' = d) ∧
    (e = .IdDuplicateError → (d' = d ∨ ∃ sv, src? = some sv ∧ d' = addVertex d sv)) ∧
    (e = .EdgeLoopError → d'.vertices = d.vertices ∧ d'.vertexIds = d.vertexIds) := by
  obtain ⟨_, h1, h2, h3, h4, h5, h6, h7⟩ := AddEdge_error_spec (Reachable_Inv h) hcall
  exact ⟨h1, h2, h3, h4, h5, h6, h7⟩

theorem C2_witness :
    (AddEdge exC2pre (some ⟨1, "x"⟩) (some ⟨2, "a"⟩)).1.outboundEdge =
      exC2pre.outboundEdge := by
  have hcall : AddEdge exC2pre (some ⟨1, "x"⟩) (some ⟨2, "a"⟩) =
      ((AddEdge exC2pre (some ⟨1, "x"⟩) (some ⟨2, "a"⟩)).1, some Err.IdDuplicateError) := by
    rfl
  exact (C2_addedge_error_state Reachable_exC2pre hcall).1

theorem C2_counterexample :
    (AddEdge exC2pre (some ⟨1, "x"⟩) (some ⟨2, "a"⟩)).2 = some Err.IdDuplicateError ∧
    (AddEdge exC2pre (some ⟨1, "x"⟩) (some ⟨2, "a"⟩)).1.vertices ≠ exC2pre.vertices := by
  decide

/-- C3: in every reachable state, `GetDescendants` returns exactly the set
of vertices reachable from `v` over outbound edges, `GetAncestors` exactly
the set of vertices from which `v` is reachable, and every populated cache
entry equals the true closure over the live adjacency maps. -/
theorem C3_closure_correct {d : DAG} (h : Reachable d) {v : V} (hv : v ∈ d.vertices) :
    (∃ L, (GetDescendants d (some v)).1 = .ok L ∧
      ∀ u, u ∈ L ↔ reach d.outboundEdge v u) ∧
    (∃ L, (GetAncestors d (some v)).1 = .ok L ∧
      ∀ u, u ∈ L ↔ reach d.outboundEdge u v) ∧
    (∀ k s, findA d.descendantsCache k = some s →
      ∀ u, u ∈ s ↔ reach d.outboundEdge k u) ∧
    (∀ k s, findA d.ancestorsCache k = some s →
      ∀ u, u ∈ s ↔ reach d.outboundEdge u k) := by
  have hInv := Reachable_Inv h
  refine ⟨⟨(getDescendants d v).1, ?_, (getDescendants_spec hInv v).1⟩,
    ⟨(getAncestors d v).1, ?_, (getAncestors_spec hInv v).1⟩, hInv.descOK, ?_⟩
  · simp only [GetDescendants]
    rw [if_pos hv]
  · simp only [GetAncestors]
    rw [if_pos hv]
  · intro k s hk u
    rw [hInv.ancOK k s hk u]
    exact hInv.reach_inb_iff

theorem C3_witness :
    ∃ L, (GetDescendants exDiamond (some (mkV 0))).1 = .ok L ∧
      ∀ u, u ∈ L ↔ reach exDiamond.outboundEdge (mkV 0) u :=
  (C3_closure_correct Reachable_exDiamond (by decide)).1

/-- C4: amended — on a successful `AddEdge(src,dst)` the removed cache
entries are: in the descendants direction, src's entry and the entries of
the pre-mutation ancestors of src (the claim swapped this with dst); in
the ancestors direction, dst's entry and the entries of the pre-mutation
descendants of dst (the claim swapped this with src); every other cache
entry keeps its exact value. -/
theorem C4_cache_invalidation {d : DAG} (h : Reachable d) {src dst : V} {d' : DAG}
    (hcall : AddEdge d (some src) (some dst) = (d', none)) :
    (∀ k, (k = src ∨ reach d.outboundEdge k src) → findA d'.descendantsCache k = none) ∧
    (∀ k w, ¬(k = src ∨ reach d.outboundEdge k src) →
      findA d.descendantsCache k = some w → findA d'.descendantsCache k = some w) ∧
    (∀ k, (k = dst ∨ reach d.outboundEdge dst k) → findA d'.ancestorsCache k = none) ∧
    (∀ k w, ¬(k = dst ∨ reach d.outboundEdge dst k) →
      findA d.ancestorsCache k = some w → findA d'.ancestorsCache k = some w) := by
  obtain ⟨_, _, _, _, _, _, h7, h8, h9, h10⟩ :=
    AddEdge_success_spec (Reachable_Inv h) hcall
  exact ⟨h7, h8, h9, h10⟩

theorem C4_witness :
    findA (AddEdge exC4pre (some (mkV 2)) (some (mkV 1))).1.descendantsCache (mkV 2)
      = none := by
  have hcall : AddEdge exC4pre (some (mkV 2)) (some (mkV 1)) =
      ((AddEdge exC4pre (some (mkV 2)) (some (mkV 1))).1, none) := by
    rfl
  exact (C4_cache_invalidation Reachable_exC4pre hcall).1 (mkV 2) (Or.inl rfl)

theorem C4_counterexample :
    (AddEdge exC4pre (some (mkV 2)) (some (mkV 1))).2 = none ∧
    findA (AddEdge exC4pre (some (mkV 2)) (some (mkV 1))).1.descendantsCache (mkV 1)
      = some [] := by
  decide

/-- C5: deleting an unknown edge or vertex errors without side effects in
every reachable state — nil endpoints give `VertexNilError`, unknown
endpoints `VertexUnknownError`, `src = dst` gives `SrcDstEqualError`, a
missing edge `EdgeUnknownError`, and the state is returned unchanged;
repeating a successful `DeleteEdge` or `DeleteVertex` errors cleanly. -/
theorem C5_delete_errors {d : DAG} (h : Reachable d) :
    (∀ t?, DeleteEdge d none t? = (d, some Err.VertexNilError)) ∧
    (∀ s t?, s ∉ d.vertices → DeleteEdge d (some s) t? = (d, some Err.VertexUnknownError)) ∧
    (∀ s, s ∈ d.vertices → DeleteEdge d (some s) none = (d, some Err.VertexNilError)) ∧
    (∀ s t, s ∈ d.vertices → t ∉ d.vertices →
      DeleteEdge d (some s) (some t) = (d, some Err.VertexUnknownError)) ∧
    (∀ s, s ∈ d.vertices → DeleteEdge d (some s) (some s) = (d, some Err.SrcDstEqualError)) ∧
    (∀ s t, s ∈ d.vertices → t ∈ d.vertices → s ≠ t → ¬ isEdge d s t →
      DeleteEdge d (some s) (some t) = (d, some Err.EdgeUnknownError)) ∧
    (DeleteVertex d none = (d, some Err.VertexNilError)) ∧
    (∀ v, v ∉ d.vertices → DeleteVertex d (some v) = (d, some Err.VertexUnknownError)) ∧
    (∀ s t d', DeleteEdge d (some s) (some t) = (d', none) →
      DeleteEdge d' (some s) (some t) = (d', some Err.EdgeUnknownError)) ∧
    (∀ v d', DeleteVertex d (some v) = (d', none) →
      DeleteVertex d' (some v) = (d', some Err.VertexUnknownError)) := by
  have hInv := Reachable_Inv h
  refine ⟨fun t? => DeleteEdge_sane_src rfl,
    fun s t? hs => DeleteEdge_sane_src (saneVertex_not_mem hs),
    fun s hs => DeleteEdge_sane_dst (saneVertex_mem hs) rfl,
    fun s t hs ht => DeleteEdge_sane_dst (saneVertex_mem hs) (saneVertex_not_mem ht),
    fun s hs => DeleteEdge_self (saneVertex_mem hs) (saneVertex_mem hs) rfl,
    fun s t hs ht hst hne =>
      DeleteEdge_unknown (saneVertex_mem hs) (saneVertex_mem ht) hst hne,
    DeleteVertex_nil d,
    fun v hv => DeleteVertex_unknown hv, ?_, ?_⟩
  · intro s t d' hcall
    obtain ⟨_, hs, ht, hst, _, hout, _, hverts, _⟩ := DeleteEdge_success_spec hInv hcall
    have hs2 : s ∈ d'.vertices := by
      rw [hverts]
      exact hs
    have ht2 : t ∈ d'.vertices := by
      rw [hverts]
      exact ht
    have hne : ¬ isEdge d' s t := by
      intro he
      rcases (hout s t).mp he.1 with ⟨_, hcon⟩
      exact hcon ⟨rfl, rfl⟩
    exact DeleteEdge_unknown (saneVertex_mem hs2) (saneVertex_mem ht2) hst hne
  · intro v d' hcall
    obtain ⟨_, _, _, _, hverts, _⟩ := DeleteVertex_success_spec hInv hcall
    have hv2 : v ∉ d'.vertices := fun hm => ((hverts v).mp hm).2 rfl
    exact DeleteVertex_unknown hv2

theorem C5_witness :
    DeleteEdge exDiamond (some (mkV 0)) (some (mkV 0))
      = (exDiamond, some Err.SrcDstEqualError) ∧
    DeleteEdge (DeleteEdge exDiamond (some (mkV 0)) (some (mkV 1))).1
        (some (mkV 0)) (some (mkV 1))
      = ((DeleteEdge exDiamond (some (mkV 0)) (some (mkV 1))).1,
          some Err.EdgeUnknownError) := by
  obtain ⟨_, _, _, _, h5, _, _, _, h9, _⟩ := C5_delete_errors Reachable_exDiamond
  refine ⟨h5 (mkV 0) (by decide), ?_⟩
  exact h9 (mkV 0) (mkV 1) (DeleteEdge exDiamond (some (mkV 0)) (some (mkV 1))).1 rfl

/-- C6: in every reachable state `ReduceTransitively` removes exactly the
edges (a,b) for which b lies in the descendant set of some (other) child
of a, preserves every vertex's reachable set, and on the example graph
A→B, A→C, B→D, C→D, A→D (A..D numbered 1..4) it removes only A→D. -/
theorem C6_reduce_transitively {d : DAG} (h : Reachable d) :
    (∀ a b, b ∈ getA (ReduceTransitively d).outboundEdge a ↔
      (b ∈ getA d.outboundEdge a ∧
        ¬ ∃ c, c ∈ getA d.outboundEdge a ∧ reach d.outboundEdge c b)) ∧
    (∀ a b, reach (ReduceTransitively d).outboundEdge a b ↔ reach d.outboundEdge a b) ∧
    getA (ReduceTransitively exShortcut).outboundEdge (mkV 1) = [mkV 2, mkV 3] ∧
    getA (ReduceTransitively exShortcut).outboundEdge (mkV 2) = [mkV 4] ∧
    getA (ReduceTransitively exShortcut).outboundEdge (mkV 3) = [mkV 4] ∧
    getA exShortcut.outboundEdge (mkV 1) = [mkV 2, mkV 3, mkV 4] := by
  have hs := ReduceTransitively_spec (Reachable_Inv h)
  exact ⟨hs.2.2.2.1, hs.2.2.2.2, by decide, by decide, by decide, by decide⟩

theorem C6_witness :
    (reach (ReduceTransitively exShortcut).outboundEdge (mkV 1) (mkV 4) ↔
      reach exShortcut.outboundEdge (mkV 1) (mkV 4)) ∧
    getA (ReduceTransitively exShortcut).outboundEdge (mkV 1) = [mkV 2, mkV 3] :=
  ⟨(C6_reduce_transitively Reachable_exShortcut).2.1 (mkV 1) (mkV 4),
    (C6_reduce_transitively Reachable_exShortcut).2.2.1⟩

/-- C7: in every reachable state, for a known vertex v,
`GetOrderedDescendants` (resp. `GetOrderedAncestors`) returns a
duplicate-free list holding exactly the descendants (resp. ancestors) of
v, ordered by edge distance from v: a vertex at smaller distance never
appears after one at strictly greater distance. -/
theorem C7_ordered_walk {d : DAG} (h : Reachable d) {v : V} (hv : v ∈ d.vertices) :
    (∃ L, GetOrderedDescendants d (some v) = .ok L ∧ L.Nodup ∧
      (∀ x, x ∈ L ↔ reach d.outboundEdge v x) ∧
      List.Pairwise (fun x y =>
        distV d.outboundEdge v x ≤ distV d.outboundEdge v y) L) ∧
    (∃ L, GetOrderedAncestors d (some v) = .ok L ∧ L.Nodup ∧
      (∀ x, x ∈ L ↔ reach d.outboundEdge x v) ∧
      List.Pairwise (fun x y =>
        distV d.inboundEdge v x ≤ distV d.inboundEdge v y) L) :=
  ⟨GetOrderedDescendants_ok (Reachable_Inv h) hv,
    GetOrderedAncestors_ok (Reachable_Inv h) hv⟩

theorem C7_witness :
    ∃ L, GetOrderedDescendants exDiamond (some (mkV 0)) = .ok L ∧ L.Nodup ∧
      (∀ x, x ∈ L ↔ reach exDiamond.outboundEdge (mkV 0) x) ∧
      List.Pairwise (fun x y =>
        distV exDiamond.outboundEdge (mkV 0) x ≤ distV exDiamond.outboundEdge (mkV 0) y) L :=
  (C7_ordered_walk Reachable_exDiamond (by decide)).1

/-- C9: amended — `AddVertex` rejects nil with `VertexNilError`, a vertex
already present with `VertexDuplicateError`, a fresh vertex whose id is
taken with `IdDuplicateError`, leaving the state unchanged in each case,
and otherwise adds the vertex to the vertex set and the id map; contrary
to the claim there is no empty-id validation: a vertex with an empty id
is accepted. -/
theorem C9_addvertex (d : DAG) :
    (AddVertex d none = (d, some Err.VertexNilError)) ∧
    (∀ v : V, v ∈ d.vertices → AddVertex d (some v) = (d, some Err.VertexDuplicateError)) ∧
    (∀ v : V, v ∉ d.vertices → (findA d.vertexIds v.vid).isSome →
      AddVertex d (some v) = (d, some Err.IdDuplicateError)) ∧
    (∀ v : V, v ∉ d.vertices → findA d.vertexIds v.vid = none →
      (AddVertex d (some v)).2 = none ∧
      v ∈ (AddVertex d (some v)).1.vertices ∧
      findA (AddVertex d (some v)).1.vertexIds v.vid = some v) := by
  refine ⟨rfl, ?_, ?_, ?_⟩
  · intro v hv
    simp only [AddVertex]
    rw [if_pos hv]
  · intro v hv hid
    simp only [AddVertex]
    rw [if_neg hv, if_pos hid]
  · intro v hv hid
    have heq : AddVertex d (some v) = (addVertex d v, none) := by
      simp only [AddVertex]
      rw [if_neg hv, if_neg (by simp [hid])]
    rw [heq]
    refine ⟨rfl, ?_, ?_⟩
    · exact mem_insertSet.mpr (Or.inr rfl)
    · exact findA_insertA_self d.vertexIds v.vid v

theorem C9_witness :
    (AddVertex NewDAG (some (mkV 7))).2 = none ∧
    mkV 7 ∈ (AddVertex NewDAG (some (mkV 7))).1.vertices := by
  have hc := (C9_addvertex NewDAG).2.2.2 (mkV 7) (by decide) (by decide)
  exact ⟨hc.1, hc.2.1⟩

theorem C9_counterexample :
    (AddVertex NewDAG (some ⟨0, ""⟩)).2 = none ∧
    (⟨0, ""⟩ : V) ∈ (AddVertex NewDAG (some ⟨0, ""⟩)).1.vertices := by
  decide

/-- C10: vertex store round trip in every reachable state — after a
successful `AddVertex(v)` with non-empty id, `GetVertex v.Id()` returns
v; after a successful `DeleteVertex(v)`, `GetVertex v.Id()` returns
`IdUnknownError`; and `GetVertex ""` always returns `IdEmptyError`. -/
theorem C10_roundtrip {d : DAG} (h : Reachable d) {v : V} (hvid : v.vid ≠ "") :
    (∀ d', AddVertex d (some v) = (d', none) → GetVertex d' v.vid = .ok v) ∧
    (∀ d', DeleteVertex d (some v) = (d', none) →
      GetVertex d' v.vid = .error Err.IdUnknownError) ∧
    GetVertex d "" = .error Err.IdEmptyError := by
  have hInv := Reachable_Inv h
  refine ⟨?_, ?_, ?_⟩
  · intro d' hcall
    by_cases h1 : v ∈ d.vertices
    · rw [show AddVertex d (some v) = (d, some Err.VertexDuplicateError) from by
        simp only [AddVertex]; rw [if_pos h1]] at hcall
      injection hcall with _ hb
      exact Option.noConfusion hb
    · by_cases h2 : (findA d.vertexIds v.vid).isSome = true
      · rw [show AddVertex d (some v) = (d, some Err.IdDuplicateError) from by
          simp only [AddVertex]; rw [if_neg h1, if_pos h2]] at hcall
        injection hcall with _ hb
        exact Option.noConfusion hb
      · rw [show AddVertex d (some v) = (addVertex d v, none) from by
          simp only [AddVertex]; rw [if_neg h1, if_neg h2]] at hcall
        injection hcall with ha _
        rw [← ha]
        unfold GetVertex
        rw [if_neg hvid,
          show (addVertex d v).vertexIds = insertA d.vertexIds v.vid v from rfl,
          findA_insertA_self]
  · intro d' hcall
    obtain ⟨_, _, _, _, _, hids⟩ := DeleteVertex_success_spec hInv hcall
    unfold GetVertex
    rw [if_neg hvid, hids, findA_eraseA_self]
  · unfold GetVertex
    rw [if_pos rfl]

theorem C10_witness :
    GetVertex (AddVertex exDiamond (some (mkV 9))).1 (mkV 9).vid = .ok (mkV 9) ∧
    GetVertex exDiamond "" = .error Err.IdEmptyError := by
  have hc := C10_roundtrip (v := mkV 9) Reachable_exDiamond (by decide)
  refine ⟨?_, hc.2.2⟩
  exact hc.1 (AddVertex exDiamond (some (mkV 9))).1 rfl

end DagSpec
